import Mathlib

/-!
# Initializer parsing of cproc (`init.c`)

A shallow embedding of `init.c`: the interval list of bindings (`initadd`), the
subobject stack (`subobj`, `focus`, `advance`), the designator resolver
(`findmember`, `designator`) and the driver `parseinit`.

Conventions of the embedding.

* A `struct type *` is an address (`TypeId`) into a type store (`Heap`); the
  store is threaded through the functions that mutate an array type
  (`updatearray`, the clearing of `incomplete` in `parseinit`).
* `uint64_t` and `size_t` values are natural numbers reduced modulo `2 ^ 64`
  at every arithmetic operation of the source.
* `error(...)`, `fatal(...)` and a failing `assert` end the run: they are the
  `Except.error` results, one constructor of `Error` per message.
* The stack `obj[32]` is a map from slot index to `Object`; `sub` is a slot
  index and `cur` an optional slot index (`none` is `NULL`).
-/

namespace Cproc

/-! ## Data model -/

/-- Address of a type node: a `struct type *`. -/
abbrev TypeId := Nat

/-- The modulus of `uint64_t` arithmetic. -/
def UINT64 : Nat := 18446744073709551616

/-- Reduction of an arithmetic result to `uint64_t`. -/
def wrap64 (n : Nat) : Nat := n % UINT64

/-- Number of slots of the subobject stack: `LEN(p->obj)` for `obj[32]`. -/
def LEN_obj : Nat := 32

/-- Modelled from the spec: the kinds of type the type system distinguishes
(`enum typekind` of `type.h`, which is not part of the sources at hand).  The
code of `init.c` itself tests for `TYPEARRAY`, `TYPESTRUCT` and `TYPEUNION`;
`TYPEQUALIFIED` is what "strip qualifiers" removes. -/
inductive TypeKind
  | TYPEQUALIFIED
  | TYPEVOID
  | TYPEBASIC
  | TYPEPOINTER
  | TYPEARRAY
  | TYPEFUNC
  | TYPESTRUCT
  | TYPEUNION
  deriving DecidableEq, Repr

/-- A `struct member`: optional name, type and byte offset.  The `next` pointer
is the tail of the list the member sits in. -/
structure Member where
  name : Option String
  type : TypeId
  offset : Nat
  deriving DecidableEq, Repr

/-- A `struct type` node, with the fields `init.c` reads or writes.
`propscalar` and `propchar` record the answers of the type system's
`typeprop` query (`PROPSCALAR`, `PROPCHAR`). -/
structure TypeNode where
  kind : TypeKind
  size : Nat
  incomplete : Bool
  base : TypeId
  length : Nat
  members : List Member
  propscalar : Bool
  propchar : Bool
  deriving DecidableEq, Repr

/-- The type store: what each `struct type *` points to. -/
abbrev Heap := TypeId → TypeNode

/-- Modelled from the spec: the expressions handed over by the expression
subsystem (`struct expr` of `expr.h`, not part of the sources at hand), with
the fields `init.c` reads: the expression's type, the `EXPRFLAG_DECAYED` flag
and operand of a unary expression, and the `size` of a string literal. -/
inductive Expr
  | EXPRCONST (type : TypeId) (i : Nat)
  | EXPRIDENT (type : TypeId) (name : String)
  | EXPRSTRING (type : TypeId) (size : Nat) (data : List Nat)
  | EXPRUNARY (type : TypeId) (decayed : Bool) (base : Expr)
  | EXPRCAST (type : TypeId) (base : Expr)
  deriving DecidableEq, Repr

/-- The field `expr->type`. -/
def Expr.type : Expr → TypeId
  | .EXPRCONST t _ => t
  | .EXPRIDENT t _ => t
  | .EXPRSTRING t _ _ => t
  | .EXPRUNARY t _ _ => t
  | .EXPRCAST t _ => t

/-- Modelled from the spec: the token stream.  The punctuators and identifiers
`init.c` inspects are tokens of their own; a run of tokens that the expression
subsystem parses as one assignment-expression is the single item `EXPR e`
carrying the parsed expression.  The head of the list is the current token
`tok`; `next()` drops it. -/
inductive Token
  | TLBRACE
  | TRBRACE
  | TCOMMA
  | TLBRACK
  | TRBRACK
  | TPERIOD
  | TASSIGN
  | TIDENT (lit : String)
  | EXPR (e : Expr)
  | TOTHER
  deriving DecidableEq, Repr

/-- The ways a run ends without returning. -/
inductive Error
  /-- Message "initializer specified for incomplete type" -/
  | incompleteType
  /-- Message "nested braces around scalar initializer" -/
  | nestedBraces
  /-- Message "index designator is only valid for array types" -/
  | indexNotArray
  /-- Message "index designator is larger than array length" -/
  | indexTooLarge
  /-- Message "member designator only valid for struct/union types" -/
  | memberNotStructUnion
  /-- Message "%s has no member named '%s'", with "union" or "struct" -/
  | noMember (isunion : Bool) (name : String)
  /-- Message "expected ... for index designator" -/
  | expectedRBRACK
  /-- Message "expected ... for member designator" -/
  | expectedIDENT
  /-- Message "expected ... after designator" -/
  | expectedASSIGN
  /-- Message "internal error: too many designators" -/
  | tooManyDesignators
  /-- Message "too many initializers for type" -/
  | tooManyInitializers
  /-- Message "array initializer is string literal with incompatible type" -/
  | stringIncompatible
  /-- Message "expected ',' or '}' after initializer" -/
  | expectedCommaOrBrace
  /-- An error raised inside the expression subsystem. -/
  | exprSyntax
  /-- The failure of `assert(typeprop(t) & PROPSCALAR)`. -/
  | assertScalar
  /-- Behaviour that C leaves undefined: a null or uninitialised pointer read,
  a stack pointer moved below `obj`. -/
  | undefined
  /-- The iteration budget of the embedding ran out. -/
  | fuel
  deriving DecidableEq, Repr

/-- The collaborators `init.c` calls and whose code is elsewhere:
`typecompatible` of the type system and `exprconvert` of the expression
subsystem.  Both may inspect the type store. -/
structure Env where
  typecompatible : Heap → TypeId → TypeId → Bool
  exprconvert : Heap → Expr → TypeId → Expr

/-- A `struct init`: one binding; `next` is the tail of the list. -/
structure Init where
  start : Nat
  stop : Nat
  expr : Expr
  deriving DecidableEq, Repr

/-- The anonymous union of `struct object`: the selected member (a pointer
into the member list, `[]` being `NULL`) or the selected index; `uninit`
when neither was ever written. -/
inductive Sel
  | uninit
  | mem (m : List Member)
  | idx (i : Nat)
  deriving DecidableEq, Repr

/-- A `struct object`: one slot of the stack. -/
structure Object where
  offset : Nat
  type : TypeId
  sel : Sel
  iscur : Bool
  deriving DecidableEq, Repr

/-- The `struct initparser`. -/
structure Initparser where
  obj : Nat → Object
  cur : Option Nat
  sub : Nat

/-- What a successful `parseinit` leaves behind: the returned list, the
remaining tokens and the type store (the target array type may have been
completed). -/
structure Result where
  init : List Init
  toks : List Token
  heap : Heap

/-! ## Collaborators modelled from the spec -/

/-- Modelled from the spec: `typeunqual(t, NULL)` "strips qualifiers": a
qualified type node is replaced by the type it qualifies. -/
def typeunqual (h : Heap) (t : TypeId) : TypeId :=
  if (h t).kind = TypeKind.TYPEQUALIFIED then (h t).base else t

/-- Modelled from the spec: `assignexpr` parses one assignment-level
expression from the token stream. -/
def assignexpr : List Token → Except Error (Expr × List Token)
  | Token.EXPR e :: rest => .ok (e, rest)
  | _ => .error Error.exprSyntax

/-! ## The interval list -/

/-- The constructor `mkinit`. -/
def mkinit (start stop : Nat) (expr : Expr) : Init :=
  { start := start, stop := stop, expr := expr }

/-- The inner `do old = old->next; while (old && new->end >= old->end);` of
`initadd`, entered after the first covered binding was skipped. -/
def initskip (new : Init) : List Init → List Init
  | [] => []
  | old :: rest => if new.stop ≥ old.stop then initskip new rest else old :: rest

/-- The function `initadd`: the list after linking `new` into it. -/
def initadd : List Init → Init → List Init
  | [], new => [new]
  | old :: rest, new =>
    if new.start ≥ old.stop then old :: initadd rest new
    else if new.stop ≤ old.start then new :: old :: rest
    else if new.stop ≥ old.stop then new :: initskip new rest
    else old :: initadd rest new

/-! ## The subobject stack -/

/-- The function `updatearray`. -/
def updatearray (h : Heap) (t : TypeId) (i : Nat) : Heap :=
  if (h t).incomplete = false then h
  else if wrap64 (i + 1) > (h t).length then
    Function.update h t
      { h t with length := wrap64 (i + 1), size := wrap64 (wrap64 (i + 1) * (h (h t).base).size) }
  else h

/-- Assignment to the union of the focused slot (`p->sub->mem = ...` or
`p->sub->idx = ...`). -/
def setsel (p : Initparser) (s : Sel) : Initparser :=
  { p with obj := Function.update p.obj p.sub { p.obj p.sub with sel := s } }

/-- The function `subobj`. -/
def subobj (h : Heap) (p : Initparser) (t : TypeId) (off : Nat) : Except Error Initparser :=
  if p.sub + 1 = LEN_obj then .error Error.tooManyDesignators
  else .ok
    { p with
      sub := p.sub + 1
      obj := Function.update p.obj (p.sub + 1)
        { p.obj (p.sub + 1) with
          type := typeunqual h t
          offset := wrap64 (off + (p.obj p.sub).offset)
          iscur := false } }

/-- The member loop of `findmember`, from the member `m` on; `self` is the
recursive call `findmember(p, name)`. -/
def findmemberLoop (self : Initparser → Except Error (Bool × Initparser)) (h : Heap)
    (name : String) : List Member → Initparser → Except Error (Bool × Initparser)
  | [], p => .ok (false, p)
  | m :: ms, p =>
    match m.name with
    | some n =>
      if n = name then
        (subobj h (setsel p (Sel.mem (m :: ms))) m.type m.offset).map (fun q => (true, q))
      else findmemberLoop self h name ms p
    | none =>
      match subobj h p m.type m.offset with
      | .error e => .error e
      | .ok p1 =>
        match self p1 with
        | .error e => .error e
        | .ok (true, p2) => .ok (true, p2)
        | .ok (false, p2) => findmemberLoop self h name ms { p2 with sub := p2.sub - 1 }

/-- The function `findmember`, with the depth of its recursion bounded by
`depth`.  Every recursive call follows a `subobj`, which fails at the last
slot, so `LEN_obj - p.sub` levels are never exceeded. -/
def findmemberDepth (h : Heap) (name : String) : Nat → Initparser → Except Error (Bool × Initparser)
  | 0, _ => .error Error.fuel
  | depth + 1, p =>
    findmemberLoop (findmemberDepth h name depth) h name (h (p.obj p.sub).type).members p

/-- The function `findmember`. -/
def findmember (h : Heap) (p : Initparser) (name : String) : Except Error (Bool × Initparser) :=
  findmemberDepth h name (LEN_obj - p.sub) p

/-- The `for (;;)` loop of `designator`.  Modelled from the spec, the call
`intconstexpr(s, false)` ("parse one integer constant expression") accepts the
item `EXPR (EXPRCONST _ i)` and returns `i` as a `uint64_t`; any other token in
its place is an error of the expression subsystem. -/
def designatorLoop : List Token → Heap → Initparser → Except Error (Heap × Initparser × List Token)
  | Token.TLBRACK :: rest, h, p =>
    let t := (p.obj p.sub).type
    if (h t).kind ≠ TypeKind.TYPEARRAY then .error Error.indexNotArray
    else
      match rest with
      | Token.EXPR (Expr.EXPRCONST _ i) :: rest2 =>
        let p1 := setsel p (Sel.idx (wrap64 i))
        if (h t).incomplete = false ∧ wrap64 i ≥ (h t).length then .error Error.indexTooLarge
        else
          let h1 := if (h t).incomplete then updatearray h t (wrap64 i) else h
          match rest2 with
          | Token.TRBRACK :: rest3 =>
            match subobj h1 p1 (h1 t).base (wrap64 (wrap64 i * (h1 (h1 t).base).size)) with
            | .error e => .error e
            | .ok p2 => designatorLoop rest3 h1 p2
          | _ => .error Error.expectedRBRACK
      | _ => .error Error.exprSyntax
  | Token.TPERIOD :: rest, h, p =>
    let t := (p.obj p.sub).type
    if (h t).kind ≠ TypeKind.TYPESTRUCT ∧ (h t).kind ≠ TypeKind.TYPEUNION then
      .error Error.memberNotStructUnion
    else
      match rest with
      | Token.TIDENT name :: rest2 =>
        match findmember h p name with
        | .error e => .error e
        | .ok (false, _) =>
          .error (Error.noMember (decide ((h t).kind = TypeKind.TYPEUNION)) name)
        | .ok (true, p2) => designatorLoop rest2 h p2
      | _ => .error Error.expectedIDENT
  | Token.TASSIGN :: rest, h, p => .ok (h, p, rest)
  | _, _, _ => .error Error.expectedASSIGN

/-- The function `designator`: the focus restarts at the anchor. -/
def designator (h : Heap) (p : Initparser) (toks : List Token) :
    Except Error (Heap × Initparser × List Token) :=
  match p.cur with
  | none => .error Error.undefined
  | some c => designatorLoop toks h { p with sub := c }

/-- The function `focus`. -/
def focus (h : Heap) (p : Initparser) : Except Error (Heap × Initparser) :=
  let t := (p.obj p.sub).type
  match (h t).kind with
  | TypeKind.TYPEARRAY =>
    let p1 := setsel p (Sel.idx 0)
    let h1 := if (h t).incomplete then updatearray h t 0 else h
    (subobj h1 p1 (h1 t).base 0).map (fun q => (h1, q))
  | TypeKind.TYPESTRUCT | TypeKind.TYPEUNION =>
    let p1 := setsel p (Sel.mem (h t).members)
    match (h t).members with
    | [] => .error Error.undefined
    | m :: _ => (subobj h p1 m.type 0).map (fun q => (h, q))
  | _ => (subobj h p t 0).map (fun q => (h, q))

/-- One turn of the `for (;;)` loop of `advance`, after `--p->sub`: the
`switch`.  The flag tells whether a sibling was pushed (`return`) or the level
is exhausted (`break`). -/
def advanceStep (h : Heap) (p : Initparser) : Except Error (Heap × Initparser × Bool) :=
  let t := (p.obj p.sub).type
  match (h t).kind with
  | TypeKind.TYPEARRAY =>
    match (p.obj p.sub).sel with
    | Sel.idx i =>
      let p1 := setsel p (Sel.idx (wrap64 (i + 1)))
      let h1 := if (h t).incomplete then updatearray h t (wrap64 (i + 1)) else h
      if wrap64 (i + 1) < (h1 t).length then
        (subobj h1 p1 (h1 t).base (wrap64 ((h1 (h1 t).base).size * wrap64 (i + 1)))).map
          (fun q => (h1, q, true))
      else .ok (h1, p1, false)
    | _ => .error Error.undefined
  | TypeKind.TYPESTRUCT =>
    match (p.obj p.sub).sel with
    | Sel.mem (_ :: ms) =>
      let p1 := setsel p (Sel.mem ms)
      match ms with
      | m :: _ => (subobj h p1 m.type m.offset).map (fun q => (h, q, true))
      | [] => .ok (h, p1, false)
    | _ => .error Error.undefined
  | _ => .ok (h, p, false)

/-- The `for (;;)` loop of `advance`, entered with the focus at slot `sub`. -/
def advanceLoop (h : Heap) (p : Initparser) : Nat → Except Error (Heap × Initparser)
  | 0 => .error Error.undefined
  | s + 1 =>
    match advanceStep h { p with sub := s } with
    | .error e => .error e
    | .ok (h1, p1, true) => .ok (h1, p1)
    | .ok (h1, p1, false) =>
      if some s = p1.cur then .error Error.tooManyInitializers else advanceLoop h1 p1 s

/-- The function `advance`. -/
def advance (h : Heap) (p : Initparser) : Except Error (Heap × Initparser) :=
  advanceLoop h p p.sub

/-! ## The driver -/

/-- The `do p.cur = p.cur == p.obj ? NULL : p.cur - 1; while (p.cur && !p.cur->iscur);`
of `parseinit`, started with `p.cur` at slot `c`. -/
def popcur (obj : Nat → Object) : Nat → Option Nat
  | 0 => none
  | c + 1 => if (obj c).iscur then some c else popcur obj c

/-- The `switch` inside the matching loop of `parseinit`: `some` is
`goto add` with the type store and the expression to bind, `none` is `break`
(the value does not fit the focus). -/
def matchexpr (env : Env) (h : Heap) (t : TypeId) (expr : Expr) :
    Except Error (Option (Heap × Expr)) :=
  match (h t).kind with
  | TypeKind.TYPEARRAY =>
    match expr with
    | Expr.EXPRUNARY _ true (Expr.EXPRSTRING st size data) =>
      if (h (typeunqual h (h t).base)).propchar = false then .error Error.stringIncompatible
      else
        let h1 := if (h t).incomplete then updatearray h t (wrap64 size) else h
        .ok (some (h1, Expr.EXPRSTRING st size data))
    | _ => .ok none
  | TypeKind.TYPESTRUCT | TypeKind.TYPEUNION =>
    if env.typecompatible h expr.type t then .ok (some (h, expr)) else .ok none
  | _ =>
    if (h t).propscalar = false then .error Error.assertScalar
    else .ok (some (h, env.exprconvert h expr t))

/-- The inner `for (;;)` of `parseinit` that matches the parsed expression
against the focus, descending with `focus` until it fits.  Every turn that
does not leave the loop pushes a slot, so `LEN_obj` turns are never exceeded. -/
def matchLoop (env : Env) : Nat → Heap → Initparser → Expr → Except Error (Heap × Initparser × Expr)
  | 0, _, _, _ => .error Error.fuel
  | n + 1, h, p, expr =>
    match matchexpr env h (p.obj p.sub).type expr with
    | .error e => .error e
    | .ok (some (h1, expr1)) => .ok (h1, p, expr1)
    | .ok none =>
      match focus h p with
      | .error e => .error e
      | .ok (h1, p1) => matchLoop env n h1 p1 expr

/-- How the closing loop of `parseinit` is left: by `return init` or by
`break`, back to the outer loop. -/
inductive Closed
  | ret (h : Heap) (toks : List Token)
  | brk (h : Heap) (p : Initparser) (toks : List Token)

/-- The first statement of the loop that follows `add:`: an incomplete array
type at the focus is marked complete. -/
def freeze (h : Heap) (t : TypeId) : Heap :=
  if (h t).kind = TypeKind.TYPEARRAY ∧ (h t).incomplete = true then
    Function.update h t { h t with incomplete := false }
  else h

/-- The last statements of the loop that follows `add:`: `p.sub = p.cur;` and
the `do ... while` that moves `p.cur` (at slot `c`) to the enclosing anchor. -/
def popanchor (p : Initparser) (c : Nat) : Initparser :=
  { p with sub := c, cur := popcur p.obj c }

/-- The `for (;;)` of `parseinit` that follows `add:`.  In every turn the
type at the focus is frozen first, then `!p.cur` returns; otherwise the tokens
decide: `, }` and `}` close the anchor and loop, `,` before anything else
breaks out, any other token is an error. -/
def closeLoop : List Token → Heap → Initparser → Except Error Closed
  | Token.TCOMMA :: Token.TRBRACE :: rest, h, p =>
    match p.cur with
    | none =>
      .ok (Closed.ret (freeze h (p.obj p.sub).type) (Token.TCOMMA :: Token.TRBRACE :: rest))
    | some c => closeLoop rest (freeze h (p.obj p.sub).type) (popanchor p c)
  | Token.TCOMMA :: rest, h, p =>
    match p.cur with
    | none => .ok (Closed.ret (freeze h (p.obj p.sub).type) (Token.TCOMMA :: rest))
    | some _ => .ok (Closed.brk (freeze h (p.obj p.sub).type) p rest)
  | Token.TRBRACE :: rest, h, p =>
    match p.cur with
    | none => .ok (Closed.ret (freeze h (p.obj p.sub).type) (Token.TRBRACE :: rest))
    | some c => closeLoop rest (freeze h (p.obj p.sub).type) (popanchor p c)
  | toks, h, p =>
    match p.cur with
    | none => .ok (Closed.ret (freeze h (p.obj p.sub).type) toks)
    | some _ => .error Error.expectedCommaOrBrace

/-- The first statement of the outer loop of `parseinit`: with an anchor set,
run `designator`, `advance` or `focus`. -/
def reposition (h : Heap) (p : Initparser) (toks : List Token) :
    Except Error (Heap × Initparser × List Token) :=
  match p.cur with
  | none => .ok (h, p, toks)
  | some c =>
    match toks with
    | Token.TLBRACK :: _ => designator h p toks
    | Token.TPERIOD :: _ => designator h p toks
    | _ =>
      if p.sub ≠ c then (advance h p).map (fun q => (q.1, q.2, toks))
      else (focus h p).map (fun q => (q.1, q.2, toks))

/-- The outer `for (;;)` of `parseinit`.  Every turn consumes a token, so a
budget above the number of tokens is never used up. -/
def parseinitLoop (env : Env) : Nat → Heap → Initparser → List Token → List Init → Except Error Result
  | 0, _, _, _, _ => .error Error.fuel
  | n + 1, h, p, toks, init =>
    match reposition h p toks with
    | .error e => .error e
    | .ok (h1, p1, toks1) =>
      match toks1 with
      | Token.TLBRACE :: rest =>
        if (p1.cur.map (fun c => (p1.obj c).type)) = some (p1.obj p1.sub).type then
          .error Error.nestedBraces
        else
          parseinitLoop env n h1
            { p1 with
              cur := some p1.sub
              obj := Function.update p1.obj p1.sub { p1.obj p1.sub with iscur := true } }
            rest init
      | _ =>
        match assignexpr toks1 with
        | .error e => .error e
        | .ok (expr, toks2) =>
          match matchLoop env LEN_obj h1 p1 expr with
          | .error e => .error e
          | .ok (h2, p2, expr2) =>
            let o := p2.obj p2.sub
            let init2 := initadd init (mkinit o.offset (wrap64 (o.offset + (h2 o.type).size)) expr2)
            match closeLoop toks2 h2 p2 with
            | .error e => .error e
            | .ok (Closed.ret h3 toks3) => .ok { init := init2, toks := toks3, heap := h3 }
            | .ok (Closed.brk h3 p3 toks3) => parseinitLoop env n h3 p3 toks3 init2

/-- The contents of the stack before `parseinit` writes to it. -/
def obj0 : Nat → Object := fun _ => { offset := 0, type := 0, sel := Sel.uninit, iscur := false }

/-- The function `parseinit`. -/
def parseinit (env : Env) (h : Heap) (t : TypeId) (toks : List Token) : Except Error Result :=
  let t := typeunqual h t
  let p : Initparser :=
    { obj := Function.update obj0 0 { obj0 0 with offset := 0, type := t, iscur := false }
      cur := none
      sub := 0 }
  if (h t).incomplete = true ∧ ¬ ((h t).kind = TypeKind.TYPEARRAY ∧ (h t).length = 0) then
    .error Error.incompleteType
  else parseinitLoop env (toks.length + 1) h p toks []

/-! ## Vocabulary of the statements -/

/-- A scalar type node: the type system answers `PROPSCALAR`, and the node is
none of the kinds `parseinit` treats otherwise (array, struct, union) nor a
qualified wrapper. -/
def IsScalar (h : Heap) (t : TypeId) : Prop :=
  (h t).propscalar = true ∧ (h t).kind ≠ TypeKind.TYPEQUALIFIED ∧
    (h t).kind ≠ TypeKind.TYPEARRAY ∧ (h t).kind ≠ TypeKind.TYPESTRUCT ∧
    (h t).kind ≠ TypeKind.TYPEUNION

/-- The parser state `subobj` leaves when it does not fail. -/
def pushed (h : Heap) (p : Initparser) (t : TypeId) (off : Nat) : Initparser :=
  { p with
    sub := p.sub + 1
    obj := Function.update p.obj (p.sub + 1)
      { p.obj (p.sub + 1) with
        type := typeunqual h t
        offset := wrap64 (off + (p.obj p.sub).offset)
        iscur := false } }

/-- The parser state after `p.cur = p.sub; p.cur->iscur = true;`. -/
def anchored (p : Initparser) : Initparser :=
  { p with
    cur := some p.sub
    obj := Function.update p.obj p.sub { p.obj p.sub with iscur := true } }

/-- The parser state at the start of `parseinit`, for the unqualified target `t`. -/
def initial (t : TypeId) : Initparser :=
  { obj := Function.update obj0 0 { obj0 0 with offset := 0, type := t, iscur := false }
    cur := none
    sub := 0 }

/-- The tokens of a brace-enclosed list's items: the items separated by commas. -/
def commaSep : List (List Token) → List Token
  | [] => []
  | [x] => x
  | x :: y :: xs => x ++ Token.TCOMMA :: commaSep (y :: xs)

/-- The tokens of an item `[d] = v`, the index `d` being an integer constant
of type `ty`. -/
def designated (ty : TypeId) (d : Nat) (v : Expr) : List Token :=
  [Token.TLBRACK, Token.EXPR (Expr.EXPRCONST ty d), Token.TRBRACK, Token.TASSIGN, Token.EXPR v]

/-- The tokens of an item `.name = v`. -/
def membered (name : String) (v : Expr) : List Token :=
  [Token.TPERIOD, Token.TIDENT name, Token.TASSIGN, Token.EXPR v]

/-- An array type whose elements are scalars of size `es`: `t` is an array
node, its element type is `b` once unqualified, a scalar, and both the element
type as declared and `b` have size `es`. -/
structure ArrayOfScalars (h : Heap) (t b : TypeId) (es : Nat) : Prop where
  kind : (h t).kind = TypeKind.TYPEARRAY
  unqual : typeunqual h (h t).base = b
  scalar : IsScalar h b
  size_base : (h (h t).base).size = es
  size_elem : (h b).size = es

/-- The stack while the items of a braced array initializer are read: the
anchor is slot 0, holding the target `t` at offset 0; either no item was read
yet and the focus is the anchor (`last = none`), or the focus is slot 1, an
element of type `b`, and the anchor remembers the index `k` of that element
(`last = some k`). -/
def ArrayAt (p : Initparser) (t b : TypeId) (last : Option Nat) : Prop :=
  p.cur = some 0 ∧ (p.obj 0).type = t ∧ (p.obj 0).offset = 0 ∧
    match last with
    | none => p.sub = 0
    | some k => p.sub = 1 ∧ (p.obj 0).sel = Sel.idx k ∧ (p.obj 1).type = b

/-- The index a positional item goes to: 0 for the first item of the list,
else one past the index of the item before it. -/
def nextIndex : Option Nat → Nat
  | none => 0
  | some k => k + 1

/-! ## Sample types and collaborators -/

/-- A collaborator pair for the examples: two types are compatible when they
are the same node, and conversion wraps the expression in a cast. -/
def envCast : Env :=
  { typecompatible := fun _ a b => a == b
    exprconvert := fun _ e t => Expr.EXPRCAST t e }

/-- The node of a complete scalar type of the given size. -/
def scalarNode (size : Nat) (propchar : Bool) : TypeNode :=
  { kind := TypeKind.TYPEBASIC, size := size, incomplete := false, base := 0, length := 0,
    members := [], propscalar := true, propchar := propchar }

/-- The node of an array type. -/
def arrayNode (base : TypeId) (length size : Nat) (incomplete : Bool) : TypeNode :=
  { kind := TypeKind.TYPEARRAY, size := size, incomplete := incomplete, base := base,
    length := length, members := [], propscalar := false, propchar := false }

/-- The node of a struct or union type. -/
def structNode (kind : TypeKind) (size : Nat) (members : List Member) : TypeNode :=
  { kind := kind, size := size, incomplete := false, base := 0, length := 0,
    members := members, propscalar := false, propchar := false }

/-- A sample type store.
* 0: `int`; 4: `char`;
* 1: `struct S { int x, y; }`; 2: `struct S [1]`;
* 3: `int []` (incomplete); 5: `char []` (incomplete); 6: `int [3]`;
* 7: `struct { int a; struct { int z; }; int c; }`, 8 its anonymous member;
* 9: `union { int a; char b; }`;
* 10: `struct { int a, b, c; }`; 11: `unsigned long`. -/
def heapEx : Heap := fun i =>
  match i with
  | 1 => structNode TypeKind.TYPESTRUCT 8 [⟨some "x", 0, 0⟩, ⟨some "y", 0, 4⟩]
  | 2 => arrayNode 1 1 8 false
  | 3 => arrayNode 0 0 0 true
  | 4 => scalarNode 1 true
  | 5 => arrayNode 4 0 0 true
  | 6 => arrayNode 0 3 12 false
  | 7 => structNode TypeKind.TYPESTRUCT 12 [⟨some "a", 0, 0⟩, ⟨none, 8, 4⟩, ⟨some "c", 0, 8⟩]
  | 8 => structNode TypeKind.TYPESTRUCT 4 [⟨some "z", 0, 0⟩]
  | 9 => structNode TypeKind.TYPEUNION 4 [⟨some "a", 0, 0⟩, ⟨some "b", 4, 0⟩]
  | 10 => structNode TypeKind.TYPESTRUCT 12 [⟨some "a", 0, 0⟩, ⟨some "b", 0, 4⟩, ⟨some "c", 0, 8⟩]
  | 11 => scalarNode 8 false
  | _ => scalarNode 4 false

/-- An integer constant of type `int` (node 0 of `heapEx`). -/
def intconst (n : Nat) : Expr := Expr.EXPRCONST 0 n

/-- The initializer `{[0]=s, [0].y=9}`, `s` being an object of type `struct S`. -/
def toksNested : List Token :=
  Token.TLBRACE ::
    (commaSep [designated 0 0 (Expr.EXPRIDENT 1 "s"),
      [Token.TLBRACK, Token.EXPR (intconst 0), Token.TRBRACK, Token.TPERIOD, Token.TIDENT "y",
        Token.TASSIGN, Token.EXPR (intconst 9)]] ++ [Token.TRBRACE])

/-- An item of a braced array initializer: a positional value `v` or a
designated one, `[d] = v`. -/
inductive Item
  | pos (v : Expr)
  | des (ty : TypeId) (d : Nat) (v : Expr)

/-- The tokens of an item. -/
def Item.toks : Item → List Token
  | Item.pos v => [Token.EXPR v]
  | Item.des ty d v => designated ty d v

/-- The element an item initializes, `last` being the element of the item
before it. -/
def Item.index (last : Option Nat) : Item → Nat
  | Item.pos _ => nextIndex last
  | Item.des _ d _ => d

/-- The elements the items of a list initialize, in order. -/
def resolve : Option Nat → List Item → List Nat
  | _, [] => []
  | last, it :: its => it.index last :: resolve (some (it.index last)) its

/-- The greatest of the numbers `i + 1`, `i` in the list (0 for the empty list). -/
def maxSucc : List Nat → Nat
  | [] => 0
  | i :: is => max (i + 1) (maxSucc is)

/-- The initializer `{[18446744073709551615] = 1}`: one designated item whose
index, a constant of type `unsigned long`, is the greatest `uint64_t`. -/
def toksHuge : List Token :=
  Token.TLBRACE :: (commaSep [designated 11 18446744073709551615 (intconst 1)] ++ [Token.TRBRACE])

/-- The search of `findmember` through the members `ms` comes back without a
match and without running out of stack: no named member is called `name`, and
every unnamed member can be entered with `d` free slots above the current one
and offers no `name` either. -/
def notOffered (h : Heap) (name : String) : Nat → List Member → Bool
  | 0, ms => ms.all fun m =>
    match m.name with
    | some n => n != name
    | none => false
  | d + 1, ms => ms.all fun m =>
    match m.name with
    | some n => n != name
    | none => notOffered h name d (h (typeunqual h m.type)).members

/-- `Resolves h name d t off m`: from the struct or union `t`, with `d` free
stack slots above it, the designator `.name` reaches the named member `m`
through zero or more unnamed members, `off` being the sum of the member offsets
along the path.  At each level the members declared before the one on the path
do not offer `name`, so the path is the one the search takes. -/
inductive Resolves (h : Heap) (name : String) : Nat → TypeId → Nat → Member → Prop
  | named (d : Nat) (t : TypeId) (pre post : List Member) (m : Member) :
      (h t).members = pre ++ m :: post → m.name = some name →
      notOffered h name (d + 1) pre = true → Resolves h name (d + 1) t m.offset m
  | anon (d : Nat) (t : TypeId) (pre post : List Member) (a : Member) (off : Nat) (m : Member) :
      (h t).members = pre ++ a :: post → a.name = none →
      notOffered h name (d + 1) pre = true →
      Resolves h name d (typeunqual h a.type) off m →
      Resolves h name (d + 1) t (a.offset + off) m

/-- A designator: `[i]`, the index being an integer constant of type `ty`, or
`.name`. -/
inductive Desig
  | index (ty : TypeId) (i : Nat)
  | member (name : String)

/-- The tokens of a designator. -/
def Desig.toks : Desig → List Token
  | Desig.index ty i => [Token.TLBRACK, Token.EXPR (Expr.EXPRCONST ty i), Token.TRBRACK]
  | Desig.member name => [Token.TPERIOD, Token.TIDENT name]

/-- The tokens of a chain of designators. -/
def chainToks : List Desig → List Token
  | [] => []
  | d :: ds => d.toks ++ chainToks ds

/-- The errors that reject a designator for its index or name: an index on a
non-array, an index past the length of a complete array, a name on a type that
is no struct or union, a name the struct or union does not have. -/
def rejectsDesignator : Error → Bool
  | Error.indexNotArray => true
  | Error.indexTooLarge => true
  | Error.memberNotStructUnion => true
  | Error.noMember _ _ => true
  | _ => false

/-- A type store of nested arrays: every node `i` is `T[1]`, `T` being node
`i + 1`. -/
def heapNest : Heap := fun i => arrayNode (i + 1) 1 4 false

/-- The focus and the anchor are slots of the stack. -/
def InStack (p : Initparser) : Prop :=
  p.sub < LEN_obj ∧ ∀ c, p.cur = some c → c < LEN_obj

/-! ## Further sample types and initializers -/

/-- A second sample type store; every node not listed is `int`.
* 1: `struct S3 { int x, y, z; }`; 2: `struct S3 [1]`;
* 3: `struct P { int x, y; }`;
* 4: `struct { int a; struct P p; }`; 5: `struct { struct P q; int c; }`;
* 6: `union { struct {...} s1; struct {...} s2; }` of the nodes 4 and 5;
* 7: `struct X { int x0, x1; }`; 8: `struct { int z; }`;
* 9: `struct Y { struct { int z; }; }`, its member unnamed, of type 8;
* 10: `struct T { struct X x; struct Y y; }`;
* 11: `union U { int a; char b; }`, 13 being `char`;
* 12: `struct { union U u; int c; }`. -/
def heapAgg : Heap := fun i =>
  match i with
  | 1 => structNode TypeKind.TYPESTRUCT 12 [⟨some "x", 0, 0⟩, ⟨some "y", 0, 4⟩, ⟨some "z", 0, 8⟩]
  | 2 => arrayNode 1 1 12 false
  | 3 => structNode TypeKind.TYPESTRUCT 8 [⟨some "x", 0, 0⟩, ⟨some "y", 0, 4⟩]
  | 4 => structNode TypeKind.TYPESTRUCT 12 [⟨some "a", 0, 0⟩, ⟨some "p", 3, 4⟩]
  | 5 => structNode TypeKind.TYPESTRUCT 12 [⟨some "q", 3, 0⟩, ⟨some "c", 0, 8⟩]
  | 6 => structNode TypeKind.TYPEUNION 12 [⟨some "s1", 4, 0⟩, ⟨some "s2", 5, 0⟩]
  | 7 => structNode TypeKind.TYPESTRUCT 8 [⟨some "x0", 0, 0⟩, ⟨some "x1", 0, 4⟩]
  | 8 => structNode TypeKind.TYPESTRUCT 4 [⟨some "z", 0, 0⟩]
  | 9 => structNode TypeKind.TYPESTRUCT 4 [⟨none, 8, 0⟩]
  | 10 => structNode TypeKind.TYPESTRUCT 12 [⟨some "x", 7, 0⟩, ⟨some "y", 9, 8⟩]
  | 11 => structNode TypeKind.TYPEUNION 4 [⟨some "a", 0, 0⟩, ⟨some "b", 13, 0⟩]
  | 12 => structNode TypeKind.TYPESTRUCT 8 [⟨some "u", 11, 0⟩, ⟨some "c", 0, 4⟩]
  | 13 => scalarNode 1 true
  | _ => scalarNode 4 false

/-- The tokens of an item whose designator has two parts, `[i].name = v` or
`.first.second = v`, from the tokens of the parts. -/
def chained (ds : List Desig) (v : Expr) : List Token :=
  chainToks ds ++ [Token.TASSIGN, Token.EXPR v]

/-- The initializer `{[0]=s, [0].x=1, [0].z=3}` for `struct S3 arr[1]`, `s`
being an object of type `struct S3`. -/
def toksTail : List Token :=
  Token.TLBRACE ::
    (commaSep [designated 0 0 (Expr.EXPRIDENT 1 "s"),
      chained [Desig.index 0 0, Desig.member "x"] (intconst 1),
      chained [Desig.index 0 0, Desig.member "z"] (intconst 3)] ++ [Token.TRBRACE])

/-- The initializer `{.s1.p = pv, .s2.q = qv}` for the union of node 6, `pv`
and `qv` being objects of type `struct P`. -/
def toksUnion : List Token :=
  Token.TLBRACE ::
    (commaSep [chained [Desig.member "s1", Desig.member "p"] (Expr.EXPRIDENT 3 "pv"),
      chained [Desig.member "s2", Desig.member "q"] (Expr.EXPRIDENT 3 "qv")] ++ [Token.TRBRACE])

/-- The bindings of a list are in ascending (non-decreasing) order of `start`. -/
def Ascending (l : List Init) : Prop :=
  l.Pairwise fun a b => a.start ≤ b.start

/-- The lists built from the empty list by successive calls of `initadd`, each
with a binding whose `start` is below its `stop`. -/
inductive Built : List Init → Prop
  | nil : Built []
  | add (l : List Init) (new : Init) : Built l → new.start < new.stop → Built (initadd l new)

/-- A cursor whose anchor and focus are the last slot of the stack, holding the
type `t` at offset 0. -/
def lastSlot (t : TypeId) : Initparser :=
  { obj := fun _ => { offset := 0, type := t, sel := Sel.uninit, iscur := true }
    cur := some 31
    sub := 31 }

/-- `Reachable h name t`: a named member called `name` is reachable from the
struct or union `t` by passing through zero or more unnamed members. -/
inductive Reachable (h : Heap) (name : String) : TypeId → Prop
  | named (t : TypeId) (m : Member) :
      m ∈ (h t).members → m.name = some name → Reachable h name t
  | anon (t : TypeId) (a : Member) :
      a ∈ (h t).members → a.name = none → Reachable h name (typeunqual h a.type) →
      Reachable h name t

/-- The unnamed members below `t` nest at most `d` levels deep. -/
def anonWithin (h : Heap) : Nat → TypeId → Bool
  | 0, t => (h t).members.all fun m => m.name.isSome
  | d + 1, t => (h t).members.all fun m => m.name.isSome || anonWithin h d (typeunqual h m.type)

/-- A type store with 32 nested unnamed structs: node `i < 32` is a struct
whose only member is an unnamed member of type `i + 1`; node 32 is
`struct { int z; }`; every other node is `int`. -/
def heapShaft : Heap := fun i =>
  if i < 32 then structNode TypeKind.TYPESTRUCT 4 [⟨none, i + 1, 0⟩]
  else if i = 32 then structNode TypeKind.TYPESTRUCT 4 [⟨some "z", 33, 0⟩]
  else scalarNode 4 false

/-- The stack while the positional items of a braced struct initializer are
read, before the item that goes to the first member of `next`: the anchor is
slot 0, holding the target `s` at offset 0; either no item was read yet, the
focus is the anchor and `next` is the whole member list, or the focus is slot 1
and the anchor remembers the member the last item went to, `next` being the
members after it. -/
def Before (h : Heap) (p : Initparser) (s : TypeId) (next : List Member) : Prop :=
  p.cur = some 0 ∧ (p.obj 0).type = s ∧ (p.obj 0).offset = 0 ∧
    ((p.sub = 0 ∧ (h s).members = next) ∨
      (p.sub = 1 ∧ ∃ m0, (p.obj 0).sel = Sel.mem (m0 :: next)))

/-- The stack while the items of a braced struct initializer are read, the
focus being on the member `m`, slot 1, and `ms` the members after `m`. -/
def MemberAt (h : Heap) (p : Initparser) (s : TypeId) (m : Member) (ms : List Member) : Prop :=
  p.cur = some 0 ∧ p.sub = 1 ∧ (p.obj 0).type = s ∧ (p.obj 0).offset = 0 ∧
    (p.obj 0).sel = Sel.mem (m :: ms) ∧ (p.obj 1).type = typeunqual h m.type ∧
    (p.obj 1).offset = m.offset

/-- The binding of a scalar member `m` to the value `x`. -/
def memberInit (env : Env) (h : Heap) (m : Member) (x : Expr) : Init :=
  mkinit m.offset (m.offset + (h (typeunqual h m.type)).size)
    (env.exprconvert h x (typeunqual h m.type))

/-- The list after inserting the bindings `news`, one after the other. -/
def initaddAll (l : List Init) (news : List Init) : List Init :=
  news.foldl initadd l

/-- The initializer `{1, .z = 5, 7}` for
`struct { int a; struct { int z; }; int c; }` (node 7 of `heapEx`). -/
def toksAnon : List Token :=
  Token.TLBRACE ::
    (commaSep [[Token.EXPR (intconst 1)], membered "z" (intconst 5), [Token.EXPR (intconst 7)]] ++
      [Token.TRBRACE])

/-- The initializer `{.z = 5, 7}` for the same struct. -/
def toksAnonFirst : List Token :=
  Token.TLBRACE ::
    (commaSep [membered "z" (intconst 5), [Token.EXPR (intconst 7)]] ++ [Token.TRBRACE])

/-- The initializer `{1, .y.z = 5, 7}` for
`struct T { struct X x; struct Y y; }` (node 10 of `heapAgg`). -/
def toksStale : List Token :=
  Token.TLBRACE ::
    (commaSep [[Token.EXPR (intconst 1)],
      chained [Desig.member "y", Desig.member "z"] (intconst 5),
      [Token.EXPR (intconst 7)]] ++ [Token.TRBRACE])

/-- The type `t` is complete and well formed, down to `d` levels of nesting:
an array has at least one element, its size is its length times the size of
its element type, and its element type is well formed; a struct or union has
at least one member, and every member lies inside it and has a well-formed
type; any other type is a complete scalar. -/
def wellFormed (h : Heap) : Nat → TypeId → Bool
  | 0, _ => false
  | d + 1, t =>
    match (h t).kind with
    | TypeKind.TYPEARRAY =>
      !(h t).incomplete && decide (1 ≤ (h t).length) &&
        decide ((h t).size = (h t).length * (h (h t).base).size) &&
        wellFormed h d (typeunqual h (h t).base)
    | TypeKind.TYPESTRUCT | TypeKind.TYPEUNION =>
      !(h t).incomplete && !(h t).members.isEmpty &&
        (h t).members.all fun m =>
          decide (m.offset + (h (typeunqual h m.type)).size ≤ (h t).size) &&
            wellFormed h d (typeunqual h m.type)
    | _ => !(h t).incomplete && (h t).propscalar

/-- The cursor invariant: the focus is a slot of the stack, and an anchor, when
set, is at the slot of the focus or below it. -/
def CursorInv (p : Initparser) : Prop :=
  p.sub < LEN_obj ∧ ∀ c, p.cur = some c → c ≤ p.sub

/-- Slot 0 of the stack holds the same type and the same anchor mark in `q` as
in `p`. -/
def Keeps (p q : Initparser) : Prop :=
  (q.obj 0).type = (p.obj 0).type ∧ (q.obj 0).iscur = (p.obj 0).iscur

/-- The type stores `h` and `h1` agree on the kind of every type. -/
def SameKinds (h h1 : Heap) : Prop :=
  ∀ x, (h1 x).kind = (h x).kind

/-- `Finds h name t m`: `m` is a named member called `name` that is reachable
from the struct or union `t` by passing through zero or more unnamed members. -/
inductive Finds (h : Heap) (name : String) : TypeId → Member → Prop
  | named (t : TypeId) (m : Member) :
      m ∈ (h t).members → m.name = some name → Finds h name t m
  | anon (t : TypeId) (a m : Member) :
      a ∈ (h t).members → a.name = none → Finds h name (typeunqual h a.type) m →
      Finds h name t m

/-- The designators of a chain have valid indices and names, starting from the
type `t`: an index `[i]` meets an array and, when the array is complete, is
below its length; a name `.name` meets a struct or union from which a member
of that name is reachable; and the rest of the chain is valid from the element
type, or from the type of every member the name may stand for. -/
def ValidChain (h : Heap) : TypeId → List Desig → Prop
  | _, [] => True
  | t, Desig.index _ i :: ds =>
    (h t).kind = TypeKind.TYPEARRAY ∧
      ((h t).incomplete = false → wrap64 i < (h t).length) ∧
      ValidChain h (typeunqual h (h t).base) ds
  | t, Desig.member name :: ds =>
    ((h t).kind = TypeKind.TYPESTRUCT ∨ (h t).kind = TypeKind.TYPEUNION) ∧
      (∃ m, Finds h name t m) ∧
      ∀ m, Finds h name t m → ValidChain h (typeunqual h m.type) ds

/-- The type store `h1` differs from `h` at most in the lengths and sizes of
incomplete arrays. -/
def SameShape (h h1 : Heap) : Prop :=
  ∀ x, (h1 x).kind = (h x).kind ∧ (h1 x).base = (h x).base ∧
    (h1 x).members = (h x).members ∧ (h1 x).incomplete = (h x).incomplete ∧
    ((h x).incomplete = false → (h1 x).length = (h x).length)

/-- A type store of arrays and structs nested in turn: an even node `i` is
`T[1]`, `T` being node `i + 1`; an odd node `i` is `struct { T m; }`, `T`
being node `i + 1`. -/
def heapMixed : Heap := fun i =>
  if i % 2 = 0 then arrayNode (i + 1) 1 4 false
  else structNode TypeKind.TYPESTRUCT 4 [⟨some "m", i + 1, 0⟩]

/-- The chain `[0].m[0].m ...` of `2 * n` designators. -/
def mixedChain : Nat → List Desig
  | 0 => []
  | n + 1 => Desig.index 0 0 :: Desig.member "m" :: mixedChain n

/-! ## The cursor, statement by statement

The functions of the model are repeated here with a log: every statement of
`init.c` that assigns `p.cur` or `p.sub` appends the parser state it leaves.
These are `p.cur = NULL; p.sub = p.obj;` (lines 215-216), `p.cur = p.sub`
(line 235), `p.sub = p.cur` (line 282) and `p.cur = ...` (line 283, every
turn of the `do ... while`) in `parseinit`, `++p->sub` (line 84) in `subobj`,
`--p->sub` (line 107) in `findmember`, `p->sub = p->cur` (line 119) in
`designator`, and `--p->sub` (line 180) in `advance`.  Between two entries of
the log the anchor and the focus do not change.  The functions compute the
same results as the ones they repeat. -/

/-- An entry of the log.
* `moved p`: the state `p` right after an assignment to `p.cur` or `p.sub`
  (for `subobj`, after the whole call);
* `overflow p`: the state inside `subobj` right after `++p->sub`, when the
  pointer has reached `p->obj + LEN(p->obj)`, right before `fatal`;
* `lowering p`: the state in `advance` right before `--p->sub`. -/
inductive Event
  | moved (p : Initparser)
  | overflow (p : Initparser)
  | lowering (p : Initparser)

/-- The state of an entry. -/
def Event.state : Event → Initparser
  | Event.moved p => p
  | Event.overflow p => p
  | Event.lowering p => p

/-- The three kinds of entries. -/
inductive EventKind
  | moved
  | overflow
  | lowering
  deriving DecidableEq

/-- The kind of an entry. -/
def Event.kind : Event → EventKind
  | Event.moved _ => EventKind.moved
  | Event.overflow _ => EventKind.overflow
  | Event.lowering _ => EventKind.lowering

/-- The entry is an `overflow`. -/
def Event.isOverflow : Event → Bool
  | Event.overflow _ => true
  | _ => false

/-- A result together with the log of the states passed on the way. -/
structure Traced (α : Type) where
  events : List Event
  result : Except Error α

/-- Sequencing: the log of `x`, then, unless `x` failed, the log of `f`. -/
def Traced.andThen {α β : Type} (x : Traced α) (f : α → Traced β) : Traced β :=
  { events := x.events ++
      (match x.result with
      | .error _ => []
      | .ok a => (f a).events)
    result :=
      match x.result with
      | .error e => .error e
      | .ok a => (f a).result }

/-- The result mapped, the log unchanged. -/
def Traced.map {α β : Type} (x : Traced α) (f : α → β) : Traced β :=
  { events := x.events, result := x.result.map f }

/-- The entries `es`, then the log of `x`. -/
def Traced.after {α : Type} (x : Traced α) (es : List Event) : Traced α :=
  { events := es ++ x.events, result := x.result }

/-- The function `subobj`, with its log. -/
def subobjT (h : Heap) (p : Initparser) (t : TypeId) (off : Nat) : Traced Initparser :=
  if p.sub + 1 = LEN_obj then
    { events := [Event.overflow { p with sub := p.sub + 1 }]
      result := .error Error.tooManyDesignators }
  else
    { events := [Event.moved (pushed h p t off)], result := .ok (pushed h p t off) }

/-- The member loop of `findmember`, with its log. -/
def findmemberLoopT (self : Initparser → Traced (Bool × Initparser)) (h : Heap)
    (name : String) : List Member → Initparser → Traced (Bool × Initparser)
  | [], p => { events := [], result := .ok (false, p) }
  | m :: ms, p =>
    match m.name with
    | some n =>
      if n = name then
        (subobjT h (setsel p (Sel.mem (m :: ms))) m.type m.offset).map (fun q => (true, q))
      else findmemberLoopT self h name ms p
    | none =>
      (subobjT h p m.type m.offset).andThen fun p1 =>
        (self p1).andThen fun r =>
          match r with
          | (true, p2) => { events := [], result := .ok (true, p2) }
          | (false, p2) =>
            (findmemberLoopT self h name ms { p2 with sub := p2.sub - 1 }).after
              [Event.moved { p2 with sub := p2.sub - 1 }]

/-- The function `findmember` with bounded depth, with its log. -/
def findmemberDepthT (h : Heap) (name : String) : Nat → Initparser → Traced (Bool × Initparser)
  | 0, _ => { events := [], result := .error Error.fuel }
  | depth + 1, p =>
    findmemberLoopT (findmemberDepthT h name depth) h name (h (p.obj p.sub).type).members p

/-- The function `findmember`, with its log. -/
def findmemberT (h : Heap) (p : Initparser) (name : String) : Traced (Bool × Initparser) :=
  findmemberDepthT h name (LEN_obj - p.sub) p

/-- The loop of `designator`, with its log. -/
def designatorLoopT : List Token → Heap → Initparser → Traced (Heap × Initparser × List Token)
  | Token.TLBRACK :: rest, h, p =>
    let t := (p.obj p.sub).type
    if (h t).kind ≠ TypeKind.TYPEARRAY then { events := [], result := .error Error.indexNotArray }
    else
      match rest with
      | Token.EXPR (Expr.EXPRCONST _ i) :: rest2 =>
        let p1 := setsel p (Sel.idx (wrap64 i))
        if (h t).incomplete = false ∧ wrap64 i ≥ (h t).length then
          { events := [], result := .error Error.indexTooLarge }
        else
          let h1 := if (h t).incomplete then updatearray h t (wrap64 i) else h
          match rest2 with
          | Token.TRBRACK :: rest3 =>
            (subobjT h1 p1 (h1 t).base (wrap64 (wrap64 i * (h1 (h1 t).base).size))).andThen
              fun p2 => designatorLoopT rest3 h1 p2
          | _ => { events := [], result := .error Error.expectedRBRACK }
      | _ => { events := [], result := .error Error.exprSyntax }
  | Token.TPERIOD :: rest, h, p =>
    let t := (p.obj p.sub).type
    if (h t).kind ≠ TypeKind.TYPESTRUCT ∧ (h t).kind ≠ TypeKind.TYPEUNION then
      { events := [], result := .error Error.memberNotStructUnion }
    else
      match rest with
      | Token.TIDENT name :: rest2 =>
        (findmemberT h p name).andThen fun r =>
          match r with
          | (false, _) =>
            { events := []
              result := .error (Error.noMember (decide ((h t).kind = TypeKind.TYPEUNION)) name) }
          | (true, p2) => designatorLoopT rest2 h p2
      | _ => { events := [], result := .error Error.expectedIDENT }
  | Token.TASSIGN :: rest, h, p => { events := [], result := .ok (h, p, rest) }
  | _, _, _ => { events := [], result := .error Error.expectedASSIGN }

/-- The function `designator`, with its log: `p->sub = p->cur` first. -/
def designatorT (h : Heap) (p : Initparser) (toks : List Token) :
    Traced (Heap × Initparser × List Token) :=
  match p.cur with
  | none => { events := [], result := .error Error.undefined }
  | some c => (designatorLoopT toks h { p with sub := c }).after [Event.moved { p with sub := c }]

/-- The function `focus`, with its log. -/
def focusT (h : Heap) (p : Initparser) : Traced (Heap × Initparser) :=
  let t := (p.obj p.sub).type
  match (h t).kind with
  | TypeKind.TYPEARRAY =>
    let p1 := setsel p (Sel.idx 0)
    let h1 := if (h t).incomplete then updatearray h t 0 else h
    (subobjT h1 p1 (h1 t).base 0).map (fun q => (h1, q))
  | TypeKind.TYPESTRUCT | TypeKind.TYPEUNION =>
    let p1 := setsel p (Sel.mem (h t).members)
    match (h t).members with
    | [] => { events := [], result := .error Error.undefined }
    | m :: _ => (subobjT h p1 m.type 0).map (fun q => (h, q))
  | _ => (subobjT h p t 0).map (fun q => (h, q))

/-- The `switch` of `advance`, with its log. -/
def advanceStepT (h : Heap) (p : Initparser) : Traced (Heap × Initparser × Bool) :=
  let t := (p.obj p.sub).type
  match (h t).kind with
  | TypeKind.TYPEARRAY =>
    match (p.obj p.sub).sel with
    | Sel.idx i =>
      let p1 := setsel p (Sel.idx (wrap64 (i + 1)))
      let h1 := if (h t).incomplete then updatearray h t (wrap64 (i + 1)) else h
      if wrap64 (i + 1) < (h1 t).length then
        (subobjT h1 p1 (h1 t).base (wrap64 ((h1 (h1 t).base).size * wrap64 (i + 1)))).map
          (fun q => (h1, q, true))
      else { events := [], result := .ok (h1, p1, false) }
    | _ => { events := [], result := .error Error.undefined }
  | TypeKind.TYPESTRUCT =>
    match (p.obj p.sub).sel with
    | Sel.mem (_ :: ms) =>
      let p1 := setsel p (Sel.mem ms)
      match ms with
      | m :: _ => (subobjT h p1 m.type m.offset).map (fun q => (h, q, true))
      | [] => { events := [], result := .ok (h, p1, false) }
    | _ => { events := [], result := .error Error.undefined }
  | _ => { events := [], result := .ok (h, p, false) }

/-- The loop of `advance` entered with the focus at slot `sub`, with its log:
each turn starts with `--p->sub`, logged before and after. -/
def advanceLoopT (h : Heap) (p : Initparser) : Nat → Traced (Heap × Initparser)
  | 0 => { events := [Event.lowering { p with sub := 0 }], result := .error Error.undefined }
  | s + 1 =>
    ((advanceStepT h { p with sub := s }).andThen fun r =>
      match r with
      | (h1, p1, true) => { events := [], result := .ok (h1, p1) }
      | (h1, p1, false) =>
        if some s = p1.cur then { events := [], result := .error Error.tooManyInitializers }
        else advanceLoopT h1 p1 s).after
      [Event.lowering { p with sub := s + 1 }, Event.moved { p with sub := s }]

/-- The function `advance`, with its log. -/
def advanceT (h : Heap) (p : Initparser) : Traced (Heap × Initparser) :=
  advanceLoopT h p p.sub

/-- The matching loop of `parseinit`, with its log. -/
def matchLoopT (env : Env) :
    Nat → Heap → Initparser → Expr → Traced (Heap × Initparser × Expr)
  | 0, _, _, _ => { events := [], result := .error Error.fuel }
  | n + 1, h, p, expr =>
    match matchexpr env h (p.obj p.sub).type expr with
    | .error e => { events := [], result := .error e }
    | .ok (some (h1, expr1)) => { events := [], result := .ok (h1, p, expr1) }
    | .ok none => (focusT h p).andThen fun r => matchLoopT env n r.1 r.2 expr

/-- The `do ... while` that closes an anchor, started with `p.cur` at slot
`c`, with its log: every turn assigns `p.cur`. -/
def popcurT (p : Initparser) : Nat → Traced (Option Nat)
  | 0 => { events := [Event.moved { p with cur := none }], result := .ok none }
  | c + 1 =>
    if (p.obj c).iscur then
      { events := [Event.moved { p with cur := some c }], result := .ok (some c) }
    else (popcurT p c).after [Event.moved { p with cur := some c }]

/-- The statements `p.sub = p.cur;` and `do ... while`, with their log. -/
def popanchorT (p : Initparser) (c : Nat) : Traced Initparser :=
  ((popcurT { p with sub := c } c).map fun c2 => { p with sub := c, cur := c2 }).after
    [Event.moved { p with sub := c }]

/-- The closing loop of `parseinit`, with its log. -/
def closeLoopT : List Token → Heap → Initparser → Traced Closed
  | Token.TCOMMA :: Token.TRBRACE :: rest, h, p =>
    match p.cur with
    | none =>
      { events := []
        result :=
          .ok (Closed.ret (freeze h (p.obj p.sub).type) (Token.TCOMMA :: Token.TRBRACE :: rest)) }
    | some c =>
      (popanchorT p c).andThen fun q => closeLoopT rest (freeze h (p.obj p.sub).type) q
  | Token.TCOMMA :: rest, h, p =>
    match p.cur with
    | none =>
      { events := [], result := .ok (Closed.ret (freeze h (p.obj p.sub).type) (Token.TCOMMA :: rest)) }
    | some _ => { events := [], result := .ok (Closed.brk (freeze h (p.obj p.sub).type) p rest) }
  | Token.TRBRACE :: rest, h, p =>
    match p.cur with
    | none =>
      { events := []
        result := .ok (Closed.ret (freeze h (p.obj p.sub).type) (Token.TRBRACE :: rest)) }
    | some c =>
      (popanchorT p c).andThen fun q => closeLoopT rest (freeze h (p.obj p.sub).type) q
  | toks, h, p =>
    match p.cur with
    | none => { events := [], result := .ok (Closed.ret (freeze h (p.obj p.sub).type) toks) }
    | some _ => { events := [], result := .error Error.expectedCommaOrBrace }

/-- The head of the outer loop of `parseinit`, with its log. -/
def repositionT (h : Heap) (p : Initparser) (toks : List Token) :
    Traced (Heap × Initparser × List Token) :=
  match p.cur with
  | none => { events := [], result := .ok (h, p, toks) }
  | some c =>
    match toks with
    | Token.TLBRACK :: _ => designatorT h p toks
    | Token.TPERIOD :: _ => designatorT h p toks
    | _ =>
      if p.sub ≠ c then (advanceT h p).map (fun q => (q.1, q.2, toks))
      else (focusT h p).map (fun q => (q.1, q.2, toks))

/-- The outer loop of `parseinit`, with its log. -/
def parseinitLoopT (env : Env) :
    Nat → Heap → Initparser → List Token → List Init → Traced Result
  | 0, _, _, _, _ => { events := [], result := .error Error.fuel }
  | n + 1, h, p, toks, init =>
    (repositionT h p toks).andThen fun r =>
      match r with
      | (h1, p1, toks1) =>
        match toks1 with
        | Token.TLBRACE :: rest =>
          if (p1.cur.map (fun c => (p1.obj c).type)) = some (p1.obj p1.sub).type then
            { events := [], result := .error Error.nestedBraces }
          else
            (parseinitLoopT env n h1 (anchored p1) rest init).after [Event.moved (anchored p1)]
        | _ =>
          match assignexpr toks1 with
          | .error e => { events := [], result := .error e }
          | .ok (expr, toks2) =>
            (matchLoopT env LEN_obj h1 p1 expr).andThen fun r2 =>
              match r2 with
              | (h2, p2, expr2) =>
                let o := p2.obj p2.sub
                let init2 :=
                  initadd init (mkinit o.offset (wrap64 (o.offset + (h2 o.type).size)) expr2)
                (closeLoopT toks2 h2 p2).andThen fun cl =>
                  match cl with
                  | Closed.ret h3 toks3 =>
                    { events := [], result := .ok { init := init2, toks := toks3, heap := h3 } }
                  | Closed.brk h3 p3 toks3 => parseinitLoopT env n h3 p3 toks3 init2

/-- The function `parseinit`, with its log, which starts with the state after
`p.cur = NULL; p.sub = p.obj;`. -/
def parseinitT (env : Env) (h : Heap) (t : TypeId) (toks : List Token) : Traced Result :=
  let t := typeunqual h t
  let p : Initparser := initial t
  (if (h t).incomplete = true ∧ ¬ ((h t).kind = TypeKind.TYPEARRAY ∧ (h t).length = 0) then
    { events := [], result := .error Error.incompleteType }
  else parseinitLoopT env (toks.length + 1) h p toks []).after [Event.moved p]

/-- What the cursor invariant says of an entry of the log: after a move the
focus is one of the 32 slots and not below the anchor, if one is set; in the
state before `fatal` the focus is one past the last slot; `advance` lowers the
focus only when it is strictly above an anchor. -/
def Good : Event → Prop
  | Event.moved p => p.sub ≤ 31 ∧ ∀ c, p.cur = some c → c ≤ p.sub
  | Event.overflow p => p.sub = 32 ∧ ∀ c, p.cur = some c → c ≤ p.sub
  | Event.lowering p => p.sub ≤ 31 ∧ ∃ c, p.cur = some c ∧ c < p.sub

/-- Every entry of the log of `x` is `Good`, an `overflow` entry comes with the
fatal error "too many designators", and a result, if any, meets `post`. -/
def Traced.Meets {α : Type} (x : Traced α) (post : α → Prop) : Prop :=
  (∀ e ∈ x.events, Good e) ∧
    (∀ p, Event.overflow p ∈ x.events → x.result = .error Error.tooManyDesignators) ∧
    ∀ a, x.result = .ok a → post a

/-- The anchor and the focus of a state. -/
def cursorOf (p : Initparser) : Option Nat × Nat := (p.cur, p.sub)

/-- The anchor and the focus after the entries `es`, having been `c` before:
those of the last entry, if any. -/
def lastCursor (c : Option Nat × Nat) (es : List Event) : Option Nat × Nat :=
  es.foldl (fun _ e => cursorOf e.state) c

/-- The log of `x` follows the cursor: if `x` has a result, the anchor and the
focus of its state (`st`) are those of the last entry of the log, or, if
nothing was logged, the ones `c` from before. -/
def Traced.Tracks {α : Type} (x : Traced α) (c : Option Nat × Nat) (st : α → Initparser) :
    Prop :=
  ∀ a, x.result = .ok a → cursorOf (st a) = lastCursor c x.events

/-- The initializer `{1, 2}`. -/
def toksPair : List Token :=
  Token.TLBRACE :: (commaSep [[Token.EXPR (intconst 1)], [Token.EXPR (intconst 2)]] ++ [Token.TRBRACE])

/-- The initializer `{1}`. -/
def toksOne : List Token :=
  [Token.TLBRACE, Token.EXPR (intconst 1), Token.TRBRACE]

/-! ## Evaluation lemmas -/

section Evaluation

open TypeKind Token Expr

theorem wrap64_of_lt {n : Nat} (hn : n < UINT64) : wrap64 n = n := Nat.mod_eq_of_lt hn

@[simp] theorem wrap64_zero : wrap64 0 = 0 := rfl

theorem wrap64_lt (n : Nat) : wrap64 n < UINT64 := Nat.mod_lt _ (by decide)

@[simp] theorem pushed_sub (h : Heap) (p : Initparser) (t : TypeId) (off : Nat) :
    (pushed h p t off).sub = p.sub + 1 := rfl

@[simp] theorem pushed_cur (h : Heap) (p : Initparser) (t : TypeId) (off : Nat) :
    (pushed h p t off).cur = p.cur := rfl

theorem pushed_obj (h : Heap) (p : Initparser) (t : TypeId) (off : Nat) (i : Nat) :
    (pushed h p t off).obj i =
      if i = p.sub + 1 then
        { offset := wrap64 (off + (p.obj p.sub).offset), type := typeunqual h t,
          sel := (p.obj (p.sub + 1)).sel, iscur := false }
      else p.obj i := by
  simp only [pushed, Function.update_apply]

@[simp] theorem setsel_sub (p : Initparser) (s : Sel) : (setsel p s).sub = p.sub := rfl

@[simp] theorem setsel_cur (p : Initparser) (s : Sel) : (setsel p s).cur = p.cur := rfl

theorem setsel_obj (p : Initparser) (s : Sel) (i : Nat) :
    (setsel p s).obj i =
      if i = p.sub then { p.obj p.sub with sel := s } else p.obj i := by
  simp only [setsel, Function.update_apply]

@[simp] theorem anchored_sub (p : Initparser) : (anchored p).sub = p.sub := rfl

@[simp] theorem anchored_cur (p : Initparser) : (anchored p).cur = some p.sub := rfl

theorem anchored_obj (p : Initparser) (i : Nat) :
    (anchored p).obj i = if i = p.sub then { p.obj p.sub with iscur := true } else p.obj i := by
  simp only [anchored, Function.update_apply]

@[simp] theorem popanchor_sub (p : Initparser) (c : Nat) : (popanchor p c).sub = c := rfl

@[simp] theorem popanchor_cur (p : Initparser) (c : Nat) :
    (popanchor p c).cur = popcur p.obj c := rfl

@[simp] theorem popanchor_obj (p : Initparser) (c : Nat) : (popanchor p c).obj = p.obj := rfl

@[simp] theorem initial_sub (t : TypeId) : (initial t).sub = 0 := rfl

@[simp] theorem initial_cur (t : TypeId) : (initial t).cur = none := rfl

theorem initial_obj (t : TypeId) (i : Nat) :
    (initial t).obj i =
      if i = 0 then { offset := 0, type := t, sel := Sel.uninit, iscur := false } else obj0 i := by
  simp only [initial, Function.update_apply, obj0]

@[simp] theorem popcur_zero (obj : Nat → Object) : popcur obj 0 = none := rfl

theorem subobj_eq (h : Heap) (p : Initparser) (t : TypeId) (off : Nat) :
    subobj h p t off =
      if p.sub + 1 = LEN_obj then .error Error.tooManyDesignators else .ok (pushed h p t off) := rfl

theorem subobj_ok {h : Heap} {p : Initparser} (t : TypeId) (off : Nat) (hp : p.sub + 1 ≠ LEN_obj) :
    subobj h p t off = .ok (pushed h p t off) := by
  rw [subobj_eq, if_neg hp]

theorem typeunqual_of_scalar {h : Heap} {t : TypeId} (hs : IsScalar h t) : typeunqual h t = t := by
  simp [typeunqual, hs.2.1]

theorem typeunqual_of_kind {h : Heap} {t : TypeId} (hk : (h t).kind ≠ TYPEQUALIFIED) :
    typeunqual h t = t := by
  simp [typeunqual, hk]

theorem ite_updatearray (h : Heap) (t : TypeId) (i : Nat) :
    (if (h t).incomplete = true then updatearray h t i else h) = updatearray h t i := by
  by_cases hi : (h t).incomplete = true
  · simp [hi]
  · simp [updatearray, hi]

theorem updatearray_complete {h : Heap} {t : TypeId} (i : Nat) (hc : (h t).incomplete = false) :
    updatearray h t i = h := by
  simp [updatearray, hc]

theorem freeze_of_not_array {h : Heap} {t : TypeId} (hk : (h t).kind ≠ TYPEARRAY) :
    freeze h t = h := by
  simp [freeze, hk]

theorem freeze_of_complete {h : Heap} {t : TypeId} (hc : (h t).incomplete = false) :
    freeze h t = h := by
  simp [freeze, hc]

theorem focus_scalar {h : Heap} {p : Initparser} (hs : IsScalar h (p.obj p.sub).type) :
    focus h p = (subobj h p (p.obj p.sub).type 0).map (fun q => (h, q)) := by
  obtain ⟨_, h1, h2, h3, h4⟩ := hs
  unfold focus
  cases hk : (h (p.obj p.sub).type).kind <;> simp_all

theorem focus_array {h : Heap} {p : Initparser} (hk : (h (p.obj p.sub).type).kind = TYPEARRAY)
    (hp : p.sub + 1 ≠ LEN_obj) :
    focus h p = .ok (updatearray h (p.obj p.sub).type 0,
      pushed (updatearray h (p.obj p.sub).type 0) (setsel p (Sel.idx 0))
        (updatearray h (p.obj p.sub).type 0 (p.obj p.sub).type).base 0) := by
  unfold focus
  simp only [hk, ite_updatearray]
  rw [subobj_ok _ _ (by simpa using hp)]
  rfl

theorem focus_struct {h : Heap} {p : Initparser} {m : Member} {ms : List Member}
    (hk : (h (p.obj p.sub).type).kind = TYPESTRUCT ∨ (h (p.obj p.sub).type).kind = TYPEUNION)
    (hm : (h (p.obj p.sub).type).members = m :: ms) (hp : p.sub + 1 ≠ LEN_obj) :
    focus h p = .ok (h, pushed h (setsel p (Sel.mem (m :: ms))) m.type 0) := by
  unfold focus
  rcases hk with hk | hk <;> simp only [hk, hm] <;>
    rw [subobj_ok _ _ (by simpa using hp)] <;> rfl

theorem matchexpr_scalar (env : Env) {h : Heap} {t : TypeId} (e : Expr) (hs : IsScalar h t) :
    matchexpr env h t e = .ok (some (h, env.exprconvert h e t)) := by
  obtain ⟨h0, h1, h2, h3, h4⟩ := hs
  unfold matchexpr
  cases hk : (h t).kind <;> simp_all

theorem matchLoop_scalar (env : Env) (n : Nat) {h : Heap} {p : Initparser} (e : Expr)
    (hs : IsScalar h (p.obj p.sub).type) :
    matchLoop env (n + 1) h p e = .ok (h, p, env.exprconvert h e (p.obj p.sub).type) := by
  rw [matchLoop, matchexpr_scalar env e hs]

theorem matchLoop_compatible (env : Env) (n : Nat) {h : Heap} {p : Initparser} (e : Expr)
    (hk : (h (p.obj p.sub).type).kind = TYPESTRUCT ∨ (h (p.obj p.sub).type).kind = TYPEUNION)
    (hc : env.typecompatible h e.type (p.obj p.sub).type = true) :
    matchLoop env (n + 1) h p e = .ok (h, p, e) := by
  rw [matchLoop]
  unfold matchexpr
  rcases hk with hk | hk <;> simp [hk, hc]

theorem reposition_none {h : Heap} {p : Initparser} (toks : List Token) (hc : p.cur = none) :
    reposition h p toks = .ok (h, p, toks) := by
  simp [reposition, hc]

theorem designatorLoop_assign (rest : List Token) (h : Heap) (p : Initparser) :
    designatorLoop (TASSIGN :: rest) h p = .ok (h, p, rest) := by
  rw [designatorLoop]

theorem designatorLoop_index {h : Heap} {p : Initparser} (ty : TypeId) (i : Nat)
    (rest : List Token) (hk : (h (p.obj p.sub).type).kind = TYPEARRAY)
    (hi : (h (p.obj p.sub).type).incomplete = false → wrap64 i < (h (p.obj p.sub).type).length)
    (hp : p.sub + 1 ≠ LEN_obj) :
    designatorLoop (TLBRACK :: EXPR (EXPRCONST ty i) :: TRBRACK :: rest) h p =
      designatorLoop rest (updatearray h (p.obj p.sub).type (wrap64 i))
        (pushed (updatearray h (p.obj p.sub).type (wrap64 i)) (setsel p (Sel.idx (wrap64 i)))
          (updatearray h (p.obj p.sub).type (wrap64 i) (p.obj p.sub).type).base
          (wrap64 (wrap64 i *
            (updatearray h (p.obj p.sub).type (wrap64 i)
              (updatearray h (p.obj p.sub).type (wrap64 i) (p.obj p.sub).type).base).size))) := by
  rw [designatorLoop]
  simp only [hk, ne_eq, not_true_eq_false, if_false, ite_updatearray]
  rw [if_neg (by intro hc; exact absurd (hi hc.1) (by omega))]
  rw [subobj_ok _ _ (by simpa using hp)]

theorem designatorLoop_member {h : Heap} {p p2 : Initparser} (name : String) (rest : List Token)
    (hk : (h (p.obj p.sub).type).kind = TYPESTRUCT ∨ (h (p.obj p.sub).type).kind = TYPEUNION)
    (hf : findmember h p name = .ok (true, p2)) :
    designatorLoop (TPERIOD :: TIDENT name :: rest) h p = designatorLoop rest h p2 := by
  rw [designatorLoop]
  rcases hk with hk | hk <;> simp [hk, hf]

end Evaluation

section Evaluation2

open TypeKind Token Expr

theorem parseinit_eq (env : Env) (h : Heap) (t : TypeId) (toks : List Token) :
    parseinit env h t toks =
      if (h (typeunqual h t)).incomplete = true ∧
          ¬ ((h (typeunqual h t)).kind = TYPEARRAY ∧ (h (typeunqual h t)).length = 0) then
        .error Error.incompleteType
      else parseinitLoop env (toks.length + 1) h (initial (typeunqual h t)) toks [] := rfl

theorem parseinitLoop_succ (env : Env) (n : Nat) (h : Heap) (p : Initparser) (toks : List Token)
    (init : List Init) :
    parseinitLoop env (n + 1) h p toks init =
      match reposition h p toks with
      | .error e => .error e
      | .ok (h1, p1, toks1) =>
        match toks1 with
        | Token.TLBRACE :: rest =>
          if (p1.cur.map (fun c => (p1.obj c).type)) = some (p1.obj p1.sub).type then
            .error Error.nestedBraces
          else parseinitLoop env n h1 (anchored p1) rest init
        | _ =>
          match assignexpr toks1 with
          | .error e => .error e
          | .ok (expr, toks2) =>
            match matchLoop env 32 h1 p1 expr with
            | .error e => .error e
            | .ok (h2, p2, expr2) =>
              match closeLoop toks2 h2 p2 with
              | .error e => .error e
              | .ok (Closed.ret h3 toks3) =>
                .ok { init := initadd init (mkinit (p2.obj p2.sub).offset
                        (wrap64 ((p2.obj p2.sub).offset + (h2 (p2.obj p2.sub).type).size)) expr2)
                      toks := toks3, heap := h3 }
              | .ok (Closed.brk h3 p3 toks3) =>
                parseinitLoop env n h3 p3 toks3 (initadd init (mkinit (p2.obj p2.sub).offset
                        (wrap64 ((p2.obj p2.sub).offset + (h2 (p2.obj p2.sub).type).size)) expr2)) := by
  rw [parseinitLoop]; rfl

theorem matchLoop_scalar_top (env : Env) {h : Heap} {p : Initparser} (e : Expr)
    (hs : IsScalar h (p.obj p.sub).type) :
    matchLoop env 32 h p e = .ok (h, p, env.exprconvert h e (p.obj p.sub).type) :=
  matchLoop_scalar env 31 e hs

theorem matchLoop_compatible_top (env : Env) {h : Heap} {p : Initparser} (e : Expr)
    (hk : (h (p.obj p.sub).type).kind = TYPESTRUCT ∨ (h (p.obj p.sub).type).kind = TYPEUNION)
    (hc : env.typecompatible h e.type (p.obj p.sub).type = true) :
    matchLoop env 32 h p e = .ok (h, p, e) :=
  matchLoop_compatible env 31 e hk hc

theorem findmemberLoop_named (self : Initparser → Except Error (Bool × Initparser)) (h : Heap)
    (name : String) (pre : List Member) (m : Member) (post : List Member) (p : Initparser)
    (hpre : ∀ x ∈ pre, ∃ n, x.name = some n ∧ n ≠ name) (hm : m.name = some name) :
    findmemberLoop self h name (pre ++ m :: post) p =
      (subobj h (setsel p (Sel.mem (m :: post))) m.type m.offset).map (fun q => (true, q)) := by
  induction pre with
  | nil => simp [findmemberLoop, hm]
  | cons x pre ih =>
    obtain ⟨n, hn, hne⟩ := hpre x (List.mem_cons_self _ _)
    rw [List.cons_append, findmemberLoop]
    simp only [hn, hne, if_false]
    exact ih (fun y hy => hpre y (List.mem_cons_of_mem _ hy))

theorem findmember_named {h : Heap} {p : Initparser} (name : String) (pre : List Member)
    (m : Member) (post : List Member)
    (hms : (h (p.obj p.sub).type).members = pre ++ m :: post)
    (hpre : ∀ x ∈ pre, ∃ n, x.name = some n ∧ n ≠ name) (hm : m.name = some name)
    (hp : p.sub + 1 < LEN_obj) :
    findmember h p name = .ok (true, pushed h (setsel p (Sel.mem (m :: post))) m.type m.offset) := by
  unfold findmember
  obtain ⟨d, hd⟩ : ∃ d, LEN_obj - p.sub = d + 1 := ⟨LEN_obj - p.sub - 1, by omega⟩
  rw [hd, findmemberDepth, hms, findmemberLoop_named _ _ _ _ _ _ _ hpre hm,
    subobj_ok _ _ (by simp; omega)]
  rfl

end Evaluation2

/-! ## Arrays of scalars -/

section Arrays

open TypeKind Token Expr

theorem updatearray_other {h : Heap} {t x : TypeId} (i : Nat) (hx : x ≠ t) :
    updatearray h t i x = h x := by
  unfold updatearray
  split
  · rfl
  · split
    · simp [Function.update_apply, hx]
    · rfl

theorem updatearray_kind (h : Heap) (t : TypeId) (i : Nat) (x : TypeId) :
    (updatearray h t i x).kind = (h x).kind := by
  unfold updatearray
  split
  · rfl
  · split
    · by_cases hx : x = t
      · subst hx; simp
      · simp [Function.update_apply, hx]
    · rfl

theorem updatearray_base (h : Heap) (t : TypeId) (i : Nat) (x : TypeId) :
    (updatearray h t i x).base = (h x).base := by
  unfold updatearray
  split
  · rfl
  · split
    · by_cases hx : x = t
      · subst hx; simp
      · simp [Function.update_apply, hx]
    · rfl

theorem updatearray_incomplete (h : Heap) (t : TypeId) (i : Nat) (x : TypeId) :
    (updatearray h t i x).incomplete = (h x).incomplete := by
  unfold updatearray
  split
  · rfl
  · split
    · by_cases hx : x = t
      · subst hx; simp
      · simp [Function.update_apply, hx]
    · rfl

theorem updatearray_length {h : Heap} {t : TypeId} (i : Nat) (hi : (h t).incomplete = true) :
    (updatearray h t i t).length = max (h t).length (wrap64 (i + 1)) := by
  unfold updatearray
  simp only [hi, Bool.true_eq_false, if_false]
  split
  · simp; omega
  · omega

theorem updatearray_size {h : Heap} {t : TypeId} (i : Nat) (hi : (h t).incomplete = true)
    (hs : (h t).size = wrap64 ((h t).length * (h (h t).base).size)) :
    (updatearray h t i t).size =
      wrap64 ((updatearray h t i t).length * (h (h t).base).size) := by
  unfold updatearray
  simp only [hi, Bool.true_eq_false, if_false]
  split
  · simp
  · exact hs

namespace ArrayOfScalars

variable {h : Heap} {t b : TypeId} {es : Nat}

theorem base_ne (H : ArrayOfScalars h t b es) : (h t).base ≠ t := by
  intro hc
  have h1 := H.unqual
  rw [hc, typeunqual_of_kind (by rw [H.kind]; decide)] at h1
  exact H.scalar.2.2.1 (h1 ▸ H.kind)

theorem elem_ne (H : ArrayOfScalars h t b es) : b ≠ t := by
  intro hc
  exact H.scalar.2.2.1 (hc ▸ H.kind)

theorem update (H : ArrayOfScalars h t b es) (i : Nat) :
    ArrayOfScalars (updatearray h t i) t b es := by
  have hb := H.base_ne
  have he := H.elem_ne
  refine ⟨?_, ?_, ?_, ?_, ?_⟩
  · rw [updatearray_kind]; exact H.kind
  · rw [updatearray_base]
    unfold typeunqual
    rw [updatearray_other _ hb]
    exact H.unqual
  · unfold IsScalar
    rw [updatearray_other _ he]
    exact H.scalar
  · rw [updatearray_base, updatearray_other _ hb]; exact H.size_base
  · rw [updatearray_other _ he]; exact H.size_elem

end ArrayOfScalars

theorem advance_array_next {h : Heap} {p : Initparser} {s k : Nat}
    (hs : p.sub = s + 1) (hk : (h (p.obj s).type).kind = TYPEARRAY)
    (hsel : (p.obj s).sel = Sel.idx k)
    (hlt : wrap64 (k + 1) < (updatearray h (p.obj s).type (wrap64 (k + 1)) (p.obj s).type).length)
    (hp : s + 1 ≠ LEN_obj) :
    advance h p = .ok (updatearray h (p.obj s).type (wrap64 (k + 1)),
      pushed (updatearray h (p.obj s).type (wrap64 (k + 1)))
        (setsel { p with sub := s } (Sel.idx (wrap64 (k + 1))))
        (h (p.obj s).type).base
        (wrap64 ((updatearray h (p.obj s).type (wrap64 (k + 1)) (h (p.obj s).type).base).size
          * wrap64 (k + 1)))) := by
  unfold advance
  rw [hs, advanceLoop]
  unfold advanceStep
  simp only [hk, hsel, ite_updatearray, hlt, if_true, updatearray_base]
  rw [subobj_ok _ _ (by simpa using hp)]
  rfl

theorem advance_array_full {h : Heap} {p : Initparser} {s k : Nat}
    (hs : p.sub = s + 1) (hk : (h (p.obj s).type).kind = TYPEARRAY)
    (hsel : (p.obj s).sel = Sel.idx k)
    (hlt : ¬ wrap64 (k + 1) < (updatearray h (p.obj s).type (wrap64 (k + 1)) (p.obj s).type).length)
    (hc : p.cur = some s) :
    advance h p = .error Error.tooManyInitializers := by
  unfold advance
  rw [hs, advanceLoop]
  unfold advanceStep
  simp only [hk, hsel, ite_updatearray, hlt, if_false, setsel_cur, hc]
  simp

theorem closeLoop_none {h : Heap} {p : Initparser} (toks : List Token) (hc : p.cur = none) :
    closeLoop toks h p = .ok (Closed.ret (freeze h (p.obj p.sub).type) toks) := by
  unfold closeLoop
  split <;> simp [hc]

theorem closeLoop_rbrace {h : Heap} {p : Initparser} {c : Nat} (rest : List Token)
    (hc : p.cur = some c) :
    closeLoop (TRBRACE :: rest) h p =
      closeLoop rest (freeze h (p.obj p.sub).type) (popanchor p c) := by
  rw [closeLoop]; simp [hc]

theorem closeLoop_comma_rbrace {h : Heap} {p : Initparser} {c : Nat} (rest : List Token)
    (hc : p.cur = some c) :
    closeLoop (TCOMMA :: TRBRACE :: rest) h p =
      closeLoop rest (freeze h (p.obj p.sub).type) (popanchor p c) := by
  rw [closeLoop]; simp [hc]

theorem closeLoop_comma {h : Heap} {p : Initparser} {c : Nat} (rest : List Token)
    (hc : p.cur = some c) (hr : ∀ r, rest ≠ TRBRACE :: r) :
    closeLoop (TCOMMA :: rest) h p = .ok (Closed.brk (freeze h (p.obj p.sub).type) p rest) := by
  rw [closeLoop]
  · simp [hc]
  · intro r hr2; exact hr r hr2

/-- Closing the outermost brace: the anchor is slot 0, so the loop returns
after freezing the type at the focus and the type of the anchor. -/
theorem closeLoop_rbrace_top {h : Heap} {p : Initparser} (rest : List Token)
    (hc : p.cur = some 0) :
    closeLoop (TRBRACE :: rest) h p =
      .ok (Closed.ret (freeze (freeze h (p.obj p.sub).type) (p.obj 0).type) rest) := by
  rw [closeLoop_rbrace rest hc, closeLoop_none _ (by simp)]
  simp

/-- From a state in which the focus is a scalar slot: parse the value `v`,
bind it and go on with the closing loop. -/
theorem parseinitLoop_scalar_value (env : Env) {h h1 : Heap} {p p1 : Initparser}
    {toks toks2 : List Token} {v : Expr} (n : Nat) (init : List Init)
    (hr : reposition h p toks = .ok (h1, p1, EXPR v :: toks2))
    (hs : IsScalar h1 (p1.obj p1.sub).type) :
    parseinitLoop env (n + 1) h p toks init =
      match closeLoop toks2 h1 p1 with
      | .error e => .error e
      | .ok (Closed.ret h3 toks3) =>
        .ok { init := initadd init (mkinit (p1.obj p1.sub).offset
                (wrap64 ((p1.obj p1.sub).offset + (h1 (p1.obj p1.sub).type).size))
                (env.exprconvert h1 v (p1.obj p1.sub).type))
              toks := toks3, heap := h3 }
      | .ok (Closed.brk h3 p3 toks3) =>
        parseinitLoop env n h3 p3 toks3 (initadd init (mkinit (p1.obj p1.sub).offset
                (wrap64 ((p1.obj p1.sub).offset + (h1 (p1.obj p1.sub).type).size))
                (env.exprconvert h1 v (p1.obj p1.sub).type))) := by
  rw [parseinitLoop_succ, hr]
  simp only [assignexpr]
  rw [matchLoop_scalar_top env v hs]

theorem array_step_designated (env : Env) {h : Heap} {p : Initparser} {t b : TypeId} {es : Nat}
    {last : Option Nat} (H : ArrayOfScalars h t b es) (hJ : ArrayAt p t b last)
    (ty : TypeId) (d : Nat) (v : Expr) (toks2 : List Token)
    (hd : d < UINT64) (hoff : (d + 1) * es < UINT64)
    (hc : (h t).incomplete = false → d < (h t).length) :
    ∃ p1, ArrayAt p1 t b (some d) ∧ ∀ n init,
      parseinitLoop env (n + 1) h p (designated ty d v ++ toks2) init =
        match closeLoop toks2 (updatearray h t d) p1 with
        | .error e => .error e
        | .ok (Closed.ret h3 toks3) =>
          .ok { init := initadd init
                  (mkinit (d * es) (d * es + es) (env.exprconvert (updatearray h t d) v b))
                toks := toks3, heap := h3 }
        | .ok (Closed.brk h3 p3 toks3) =>
          parseinitLoop env n h3 p3 toks3 (initadd init
            (mkinit (d * es) (d * es + es) (env.exprconvert (updatearray h t d) v b))) := by
  obtain ⟨hcur, hty, hoff0, -⟩ := hJ
  have H1 := H.update d
  have hwd : wrap64 d = d := wrap64_of_lt hd
  have hde : d * es < UINT64 := by nlinarith
  have hwde : wrap64 (d * es) = d * es := wrap64_of_lt hde
  have hwde2 : wrap64 (d * es + es) = d * es + es := wrap64_of_lt (by nlinarith)
  obtain ⟨p1, hp1⟩ : ∃ p1, p1 = pushed (updatearray h t d)
      (setsel { p with sub := 0 } (Sel.idx d)) (updatearray h t d t).base (d * es) := ⟨_, rfl⟩
  have hsub1 : p1.sub = 1 := by simp [hp1]
  have hcur1 : p1.cur = some 0 := by simp [hp1, hcur]
  have hobj0 : p1.obj 0 = { p.obj 0 with sel := Sel.idx d } := by
    simp [hp1, pushed_obj, setsel_obj]
  have hty1 : (p1.obj 1).type = b := by simp [hp1, pushed_obj, H1.unqual]
  have hoff1 : (p1.obj 1).offset = d * es := by
    simp [hp1, pushed_obj, setsel_obj, hoff0, hwde]
  refine ⟨p1, ?_, ?_⟩
  · simp [ArrayAt, hcur1, hobj0, hty, hoff0, hsub1, hty1]
  · intro n init
    have hdl : designatorLoop (designated ty d v ++ toks2) h { p with sub := 0 } =
        .ok (updatearray h t d, p1, EXPR v :: toks2) := by
      have := designatorLoop_index (h := h) (p := { p with sub := 0 }) ty d
        (TASSIGN :: EXPR v :: toks2) (by simp [hty, H.kind]) (by simpa [hty, hwd] using hc)
        (by simp [LEN_obj])
      simp only [hty, hwd, H1.size_base, hwde] at this
      simp only [designated, List.cons_append, List.nil_append, this, designatorLoop_assign, hp1]
    have hrep : reposition h p (designated ty d v ++ toks2) =
        .ok (updatearray h t d, p1, EXPR v :: toks2) := by
      rw [← hdl]
      simp [reposition, hcur, designated, designator]
    rw [parseinitLoop_scalar_value env n init hrep (by rw [hsub1, hty1]; exact H1.scalar)]
    simp only [hsub1, hty1, hoff1, H1.size_elem, hwde2]

theorem array_step_positional (env : Env) {h : Heap} {p : Initparser} {t b : TypeId} {es : Nat}
    {last : Option Nat} (H : ArrayOfScalars h t b es) (hJ : ArrayAt p t b last)
    (v : Expr) (toks2 : List Token)
    (hi : nextIndex last + 1 < UINT64) (hoff : (nextIndex last + 1) * es < UINT64)
    (hc : (h t).incomplete = false → nextIndex last < (h t).length) :
    ∃ p1, ArrayAt p1 t b (some (nextIndex last)) ∧ ∀ n init,
      parseinitLoop env (n + 1) h p (EXPR v :: toks2) init =
        match closeLoop toks2 (updatearray h t (nextIndex last)) p1 with
        | .error e => .error e
        | .ok (Closed.ret h3 toks3) =>
          .ok { init := initadd init
                  (mkinit (nextIndex last * es) (nextIndex last * es + es)
                    (env.exprconvert (updatearray h t (nextIndex last)) v b))
                toks := toks3, heap := h3 }
        | .ok (Closed.brk h3 p3 toks3) =>
          parseinitLoop env n h3 p3 toks3 (initadd init
            (mkinit (nextIndex last * es) (nextIndex last * es + es)
              (env.exprconvert (updatearray h t (nextIndex last)) v b))) := by
  obtain ⟨hcur, hty, hoff0, hlast⟩ := hJ
  generalize hidx : nextIndex last = i at *
  have H1 := H.update i
  have hwi : wrap64 i = i := wrap64_of_lt (by omega)
  have hie : i * es < UINT64 := by nlinarith
  have hwie : wrap64 (i * es) = i * es := wrap64_of_lt hie
  have hwie' : wrap64 (es * i) = i * es := by rw [Nat.mul_comm]; exact hwie
  have hwie2 : wrap64 (i * es + es) = i * es + es := wrap64_of_lt (by nlinarith)
  obtain ⟨p1, hp1⟩ : ∃ p1, p1 = pushed (updatearray h t i)
      (setsel { p with sub := 0 } (Sel.idx i)) (h t).base (i * es) := ⟨_, rfl⟩
  have hsub1 : p1.sub = 1 := by simp [hp1]
  have hcur1 : p1.cur = some 0 := by simp [hp1, hcur]
  have hobj0 : p1.obj 0 = { p.obj 0 with sel := Sel.idx i } := by
    simp [hp1, pushed_obj, setsel_obj]
  have hunq := H1.unqual
  rw [updatearray_base] at hunq
  have hty1 : (p1.obj 1).type = b := by simp [hp1, pushed_obj, hunq]
  have hoff1 : (p1.obj 1).offset = i * es := by
    simp [hp1, pushed_obj, setsel_obj, hoff0, hwie]
  refine ⟨p1, ?_, ?_⟩
  · simp [ArrayAt, hcur1, hobj0, hty, hoff0, hsub1, hty1]
  · intro n init
    have hrep : reposition h p (EXPR v :: toks2) =
        .ok (updatearray h t i, p1, EXPR v :: toks2) := by
      cases last with
      | none =>
        simp only [nextIndex] at hidx
        subst hidx
        simp only at hlast
        have hf := focus_array (h := h) (p := p) (by rw [hlast, hty]; exact H.kind)
          (by simp [hlast, LEN_obj])
        simp only [hlast, hty, updatearray_base] at hf
        have hpp : ({ p with sub := 0 } : Initparser) = p := by
          cases p; simp_all
        rw [hpp, Nat.zero_mul] at hp1
        rw [hp1]
        simp [reposition, hcur, hlast, hf, Except.map]
      | some k =>
        simp only [nextIndex] at hidx
        subst hidx
        obtain ⟨hsub, hsel, -⟩ := hlast
        have hlt : wrap64 (k + 1) <
            (updatearray h (p.obj 0).type (wrap64 (k + 1)) (p.obj 0).type).length := by
          rw [hty, hwi]
          by_cases hinc : (h t).incomplete = true
          · rw [updatearray_length _ hinc, wrap64_of_lt hi]; omega
          · simp only [Bool.not_eq_true] at hinc
            rw [updatearray_complete _ hinc]; exact hc hinc
        have ha := advance_array_next (h := h) (p := p) (s := 0) (k := k) hsub
          (by rw [hty]; exact H.kind) hsel hlt (by simp [LEN_obj])
        simp only [hty, hwi] at ha
        have hsz := H1.size_base
        rw [updatearray_base] at hsz
        simp only [hsz, hwie'] at ha
        simp [reposition, hcur, hsub, ha, Except.map, hp1]
    rw [parseinitLoop_scalar_value env n init hrep (by rw [hsub1, hty1]; exact H1.scalar)]
    simp only [hsub1, hty1, hoff1, H1.size_elem, hwie2]

theorem array_step_full (env : Env) {h : Heap} {p : Initparser} {t b : TypeId} {es : Nat}
    {k : Nat} (H : ArrayOfScalars h t b es) (hJ : ArrayAt p t b (some k))
    (v : Expr) (toks2 : List Token) (n : Nat) (init : List Init)
    (hi : k + 1 < UINT64) (hinc : (h t).incomplete = false) (hc : (h t).length ≤ k + 1) :
    parseinitLoop env (n + 1) h p (EXPR v :: toks2) init = .error Error.tooManyInitializers := by
  obtain ⟨hcur, hty, hoff0, hsub, hsel, -⟩ := hJ
  have ha := advance_array_full (h := h) (p := p) (s := 0) (k := k) hsub
    (by rw [hty]; exact H.kind) hsel
    (by rw [hty, updatearray_complete _ hinc, wrap64_of_lt hi]; omega) hcur
  rw [parseinitLoop_succ]
  simp [reposition, hcur, hsub, ha, Except.map]

theorem freeze_scalar {h : Heap} {b : TypeId} (hs : IsScalar h b) : freeze h b = h :=
  freeze_of_not_array hs.2.2.1

theorem array_close {h : Heap} {p : Initparser} {t b : TypeId} {es k : Nat}
    (H : ArrayOfScalars h t b es) (hJ : ArrayAt p t b (some k)) (rest : List Token) :
    closeLoop (TRBRACE :: rest) h p = .ok (Closed.ret (freeze h t) rest) := by
  obtain ⟨hcur, hty, -, hsub, -, hty1⟩ := hJ
  rw [closeLoop_rbrace_top rest hcur, hsub, hty1, hty, freeze_scalar H.scalar]

theorem array_close_comma {h : Heap} {p : Initparser} {t b : TypeId} {es k : Nat}
    (H : ArrayOfScalars h t b es) (hJ : ArrayAt p t b (some k)) (rest : List Token) :
    closeLoop (TCOMMA :: TRBRACE :: rest) h p = .ok (Closed.ret (freeze h t) rest) := by
  obtain ⟨hcur, hty, -, hsub, -, hty1⟩ := hJ
  rw [closeLoop_comma_rbrace rest hcur, closeLoop_none _ (by simp), hsub, hty1,
    freeze_scalar H.scalar]
  simp [hty]

theorem array_more {h : Heap} {p : Initparser} {t b : TypeId} {es k : Nat}
    (H : ArrayOfScalars h t b es) (hJ : ArrayAt p t b (some k)) (rest : List Token)
    (hr : ∀ r, rest ≠ TRBRACE :: r) :
    closeLoop (TCOMMA :: rest) h p = .ok (Closed.brk h p rest) := by
  obtain ⟨hcur, hty, -, hsub, -, hty1⟩ := hJ
  rw [closeLoop_comma rest hcur hr, hsub, hty1, freeze_scalar H.scalar]

/-- The first turn of the outer loop on an opening brace: the target becomes
the anchor. -/
theorem parseinit_brace (env : Env) (h : Heap) (t0 : TypeId) (toks : List Token)
    (hok : ¬ ((h (typeunqual h t0)).incomplete = true ∧
      ¬ ((h (typeunqual h t0)).kind = TYPEARRAY ∧ (h (typeunqual h t0)).length = 0))) :
    parseinit env h t0 (TLBRACE :: toks) =
      parseinitLoop env (toks.length + 1) h (anchored (initial (typeunqual h t0))) toks [] := by
  rw [parseinit_eq, if_neg hok, List.length_cons, parseinitLoop_succ,
    reposition_none _ (by simp)]
  simp

theorem arrayAt_start (t b : TypeId) : ArrayAt (anchored (initial t)) t b none := by
  simp [ArrayAt, anchored_obj, initial_obj]

theorem initadd_same (a b : Init) (hs : a.start = b.start) (he : a.stop = b.stop)
    (hlt : a.start < a.stop) : initadd (initadd [] a) b = [b] := by
  have h1 : ¬ b.start ≥ a.stop := by omega
  have h2 : ¬ b.stop ≤ a.start := by omega
  have h3 : b.stop ≥ a.stop := by omega
  simp only [initadd, h1, h2, h3, if_true, if_false, initskip]

theorem nextIndex_some (k : Nat) : nextIndex (some k) = k + 1 := rfl

theorem initadd_append (l : List Init) (new : Init) (hl : ∀ o ∈ l, o.stop ≤ new.start) :
    initadd l new = l ++ [new] := by
  induction l with
  | nil => rfl
  | cons o l ih =>
    have h1 : new.start ≥ o.stop := hl o (List.mem_cons_self _ _)
    rw [initadd, if_pos h1, ih (fun x hx => hl x (List.mem_cons_of_mem _ hx))]
    rfl

theorem positional_run (env : Env) {h : Heap} {t b : TypeId} {es N : Nat}
    (H : ArrayOfScalars h t b es) (hc : (h t).incomplete = false) (hN : (h t).length = N)
    (hN64 : N < UINT64) (hsz : N * es < UINT64) (rest : List Token) :
    ∀ (vs : List Expr) (v : Expr) (last : Option Nat) (p : Initparser) (init : List Init)
      (n : Nat), ArrayAt p t b last → (last = none → 0 < N) → nextIndex last ≤ N →
      vs.length + 1 ≤ n → (∀ o ∈ init, o.stop ≤ nextIndex last * es) →
      parseinitLoop env n h p
          (commaSep ((v :: vs).map fun x => [EXPR x]) ++ TRBRACE :: rest) init =
        if nextIndex last + vs.length + 1 ≤ N then
          .ok { init := init ++ ((v :: vs).enumFrom (nextIndex last)).map
                  (fun iv => mkinit (iv.1 * es) ((iv.1 + 1) * es) (env.exprconvert h iv.2 b))
                toks := rest, heap := h }
        else .error Error.tooManyInitializers := by
  intro vs
  induction vs with
  | nil =>
    intro v last p init n hJ hfirst hle hn hinit
    obtain ⟨m, rfl⟩ : ∃ m, n = m + 1 := ⟨n - 1, by simp at hn; omega⟩
    simp only [List.map_cons, List.map_nil, commaSep, List.cons_append, List.nil_append,
      List.length_nil, Nat.add_zero]
    by_cases hin : nextIndex last < N
    · have hmul : (nextIndex last + 1) * es ≤ N * es := Nat.mul_le_mul_right _ hin
      obtain ⟨p1, hJ1, hstep⟩ := array_step_positional env H hJ v (TRBRACE :: rest)
        (by omega) (by omega) (by intro _; omega)
      rw [updatearray_complete _ hc] at hstep
      rw [hstep, array_close H hJ1, if_pos (by omega)]
      simp only [freeze_of_complete hc]
      rw [initadd_append _ _ (by simpa [mkinit] using hinit)]
      simp [List.enumFrom, Nat.add_mul]
    · cases last with
      | none => exact absurd (hfirst rfl) (by simpa [nextIndex] using hin)
      | some k =>
        simp only [nextIndex_some] at hin hle
        rw [array_step_full env H hJ v _ m init (by omega) hc (by omega), if_neg (by
          simp only [nextIndex_some]; omega)]
  | cons v2 vs ih =>
    intro v last p init n hJ hfirst hle hn hinit
    obtain ⟨m, rfl⟩ : ∃ m, n = m + 1 := ⟨n - 1, by simp at hn; omega⟩
    simp only [List.map_cons, commaSep, List.cons_append, List.nil_append, List.append_assoc]
    by_cases hin : nextIndex last < N
    · have hmul : (nextIndex last + 1) * es ≤ N * es := Nat.mul_le_mul_right _ hin
      obtain ⟨p1, hJ1, hstep⟩ := array_step_positional env H hJ v
        (TCOMMA :: (commaSep ([EXPR v2] :: vs.map fun x => [EXPR x]) ++ TRBRACE :: rest))
        (by omega) (by omega) (by intro _; omega)
      rw [updatearray_complete _ hc] at hstep
      rw [hstep, array_more H hJ1 _ (by
        intro r
        cases vs <;> simp [commaSep])]
      simp only []
      rw [initadd_append _ _ (by simpa [mkinit] using hinit)]
      have := ih v2 (some (nextIndex last)) p1
        (init ++ [mkinit (nextIndex last * es) (nextIndex last * es + es) (env.exprconvert h v b)])
        m hJ1 (by simp) (by simp only [nextIndex_some]; omega) (by simp at hn ⊢; omega) (by
          intro o ho
          simp only [List.mem_append, List.mem_singleton] at ho
          simp only [nextIndex_some]
          rcases ho with ho | ho
          · have := hinit o ho
            nlinarith
          · subst ho; simp [mkinit, Nat.add_mul])
      simp only [List.map_cons] at this
      rw [this]
      simp only [nextIndex_some, List.length_cons]
      by_cases hfit : nextIndex last + (vs.length + 1) + 1 ≤ N
      · rw [if_pos (by omega), if_pos hfit]
        simp [List.enumFrom, Nat.add_mul]
      · rw [if_neg (by omega), if_neg hfit]
    · cases last with
      | none => exact absurd (hfirst rfl) (by simpa [nextIndex] using hin)
      | some k =>
        simp only [nextIndex_some] at hin hle
        rw [array_step_full env H hJ v _ m init (by omega) hc (by omega), if_neg (by
          simp only [nextIndex_some, List.length_cons]; omega)]

theorem item_toks_ne_rbrace (it : Item) (its : List Item) (rest r : List Token) :
    commaSep ((it :: its).map Item.toks) ++ rest ≠ TRBRACE :: r := by
  cases it <;> cases its <;> simp [commaSep, Item.toks, designated]

theorem array_step_item (env : Env) {h : Heap} {p : Initparser} {t b : TypeId} {es : Nat}
    {last : Option Nat} (H : ArrayOfScalars h t b es) (hJ : ArrayAt p t b last)
    (it : Item) (toks2 : List Token)
    (hi : it.index last + 1 < UINT64) (hoff : (it.index last + 1) * es < UINT64)
    (hc : (h t).incomplete = false → it.index last < (h t).length) :
    ∃ p1 e, ArrayAt p1 t b (some (it.index last)) ∧ ∀ n init,
      parseinitLoop env (n + 1) h p (it.toks ++ toks2) init =
        match closeLoop toks2 (updatearray h t (it.index last)) p1 with
        | .error e => .error e
        | .ok (Closed.ret h3 toks3) =>
          .ok { init := initadd init
                  (mkinit (it.index last * es) (it.index last * es + es) e)
                toks := toks3, heap := h3 }
        | .ok (Closed.brk h3 p3 toks3) =>
          parseinitLoop env n h3 p3 toks3 (initadd init
            (mkinit (it.index last * es) (it.index last * es + es) e)) := by
  cases it with
  | pos v =>
    obtain ⟨p1, hJ1, hstep⟩ := array_step_positional env H hJ v toks2 hi hoff hc
    exact ⟨p1, _, hJ1, hstep⟩
  | des ty d v =>
    obtain ⟨p1, hJ1, hstep⟩ := array_step_designated env H hJ ty d v toks2
      (by simp only [Item.index] at hi; omega) hoff hc
    exact ⟨p1, _, hJ1, hstep⟩

theorem freeze_incomplete_array {h : Heap} {t : TypeId} (hk : (h t).kind = TYPEARRAY) :
    (freeze h t t).incomplete = false ∧ (freeze h t t).length = (h t).length ∧
      (freeze h t t).size = (h t).size := by
  unfold freeze
  by_cases hi : (h t).incomplete = true
  · simp [hk, hi]
  · simp [hi]

theorem updatearray_consistent {h : Heap} {t b : TypeId} {es : Nat} (i : Nat)
    (H : ArrayOfScalars h t b es) (hinc : (h t).incomplete = true)
    (hsize : (h t).length = 0 ∨ (h t).size = (h t).length * es)
    (hi1 : i + 1 < UINT64) (hi2 : (i + 1) * es < UINT64) :
    (updatearray h t i t).length = max (h t).length (i + 1) ∧
      (updatearray h t i t).size = (updatearray h t i t).length * es := by
  have hw : wrap64 (i + 1) = i + 1 := wrap64_of_lt hi1
  unfold updatearray
  simp only [hinc, Bool.true_eq_false, if_false, hw, H.size_base, wrap64_of_lt hi2]
  split
  · simp; omega
  · rcases hsize with h0 | hs
    · omega
    · exact ⟨by omega, hs⟩

theorem incomplete_run (env : Env) {t b : TypeId} {es : Nat} (rest : List Token) :
    ∀ (its : List Item) (it : Item) (last : Option Nat) (h : Heap) (p : Initparser)
      (init : List Init) (n : Nat), ArrayOfScalars h t b es → (h t).incomplete = true →
      ((h t).length = 0 ∨ (h t).size = (h t).length * es) →
      ArrayAt p t b last → its.length + 1 ≤ n →
      (∀ i ∈ resolve last (it :: its), i + 1 < UINT64 ∧ (i + 1) * es < UINT64) →
      ∃ r, parseinitLoop env n h p
          (commaSep ((it :: its).map Item.toks) ++ TRBRACE :: rest) init = .ok r ∧
        r.toks = rest ∧ (r.heap t).incomplete = false ∧
        (r.heap t).length = max (h t).length (maxSucc (resolve last (it :: its))) ∧
        (r.heap t).size = (r.heap t).length * es := by
  intro its
  induction its with
  | nil =>
    intro it last h p init n H hinc hsize hJ hn hidx
    obtain ⟨m, rfl⟩ : ∃ m, n = m + 1 := ⟨n - 1, by simp at hn; omega⟩
    obtain ⟨hi1, hi2⟩ := hidx (it.index last) (by simp [resolve])
    obtain ⟨p1, e, hJ1, hstep⟩ := array_step_item env H hJ it (TRBRACE :: rest) hi1 hi2
      (by intro hcc; rw [hinc] at hcc; cases hcc)
    have H1 := H.update (it.index last)
    simp only [List.map_cons, List.map_nil, commaSep]
    rw [hstep, array_close H1 hJ1]
    refine ⟨_, rfl, rfl, ?_⟩
    obtain ⟨f1, f2, f3⟩ := freeze_incomplete_array H1.kind
    obtain ⟨hlen, hsz⟩ := updatearray_consistent (it.index last) H hinc hsize hi1 hi2
    refine ⟨f1, ?_, ?_⟩
    · simp only [f2, hlen, resolve, maxSucc]; omega
    · simp only [f2, f3, hsz]
  | cons it2 its ih =>
    intro it last h p init n H hinc hsize hJ hn hidx
    obtain ⟨m, rfl⟩ : ∃ m, n = m + 1 := ⟨n - 1, by simp at hn; omega⟩
    obtain ⟨hi1, hi2⟩ := hidx (it.index last) (by simp [resolve])
    obtain ⟨p1, e, hJ1, hstep⟩ := array_step_item env H hJ it
      (TCOMMA :: (commaSep ((it2 :: its).map Item.toks) ++ TRBRACE :: rest)) hi1 hi2
      (by intro hcc; rw [hinc] at hcc; cases hcc)
    have H1 := H.update (it.index last)
    obtain ⟨hlen, hsz⟩ := updatearray_consistent (it.index last) H hinc hsize hi1 hi2
    have htoks : commaSep ((it :: it2 :: its).map Item.toks) ++ TRBRACE :: rest =
        it.toks ++ TCOMMA :: (commaSep ((it2 :: its).map Item.toks) ++ TRBRACE :: rest) := by
      simp [commaSep]
    rw [htoks, hstep, array_more H1 hJ1 _ (fun r => item_toks_ne_rbrace it2 its _ r)]
    simp only []
    obtain ⟨r, hr, hr1, hr2, hr3, hr4⟩ := ih it2 (some (it.index last))
      (updatearray h t (it.index last)) p1
      (initadd init (mkinit (it.index last * es) (it.index last * es + es) e)) m H1
      (by rw [updatearray_incomplete]; exact hinc) (Or.inr hsz) hJ1
      (by simp at hn ⊢; omega)
      (fun i hi => hidx i (by simp only [resolve, List.mem_cons] at hi ⊢; exact Or.inr hi))
    refine ⟨r, hr, hr1, hr2, ?_, hr4⟩
    rw [hr3, hlen]
    simp only [resolve, maxSucc]
    omega

theorem resolve_pos (vs : List Expr) (last : Option Nat) :
    (∀ i ∈ resolve last (vs.map Item.pos), i < nextIndex last + vs.length) ∧
      (vs ≠ [] → maxSucc (resolve last (vs.map Item.pos)) = nextIndex last + vs.length) := by
  induction vs generalizing last with
  | nil => simp [resolve]
  | cons v vs ih =>
    obtain ⟨ih1, ih2⟩ := ih (some (nextIndex last))
    simp only [nextIndex_some] at ih1 ih2
    constructor
    · intro i hi
      simp only [List.map_cons, resolve, Item.index, List.mem_cons, List.length_cons] at hi ⊢
      rcases hi with rfl | hi
      · omega
      · have := ih1 i hi; omega
    · intro _
      simp only [List.map_cons, resolve, Item.index, maxSucc, List.length_cons]
      by_cases hvs : vs = []
      · subst hvs; simp [resolve, maxSucc]
      · rw [ih2 hvs]; omega

theorem resolve_des (ds : List (TypeId × Nat × Expr)) (last : Option Nat) :
    resolve last (ds.map fun d => Item.des d.1 d.2.1 d.2.2) = ds.map fun d => d.2.1 := by
  induction ds generalizing last with
  | nil => rfl
  | cons d ds ih => simp [resolve, Item.index, ih]

theorem maxSucc_eq (is : List Nat) (his : is ≠ []) : maxSucc is = is.foldr max 0 + 1 := by
  induction is with
  | nil => exact absurd rfl his
  | cons i is ih =>
    by_cases h : is = []
    · subst h; simp [maxSucc]
    · simp only [maxSucc, ih h, List.foldr_cons]; omega

theorem le_foldr_max (is : List Nat) : ∀ i ∈ is, i ≤ is.foldr max 0 := by
  induction is with
  | nil => simp
  | cons j is ih =>
    intro i hi
    simp only [List.mem_cons] at hi
    simp only [List.foldr_cons]
    rcases hi with rfl | hi
    · omega
    · have := ih i hi; omega

theorem commaSep_length (its : List Item) :
    its.length ≤ (commaSep (its.map Item.toks)).length := by
  induction its with
  | nil => simp [commaSep]
  | cons it its ih =>
    cases its with
    | nil => cases it <;> simp [commaSep, Item.toks, designated]
    | cons it2 its =>
      simp only [List.map_cons, commaSep, List.length_append, List.length_cons] at ih ⊢
      omega

/-- A braced list of items, positional or index-designated, initializing an
incomplete array of scalars: the array gets the length `maxSucc` of the
elements the items go to. -/
theorem incomplete_array_items (env : Env) (h : Heap) (t0 t b : TypeId) (es : Nat)
    (rest : List Token) (ht : typeunqual h t0 = t) (H : ArrayOfScalars h t b es)
    (hinc : (h t).incomplete = true) (hlen : (h t).length = 0)
    (its : List Item) (hits : its ≠ [])
    (hidx : ∀ i ∈ resolve none its, i + 1 < UINT64 ∧ (i + 1) * es < UINT64) :
    ∃ r, parseinit env h t0
        (TLBRACE :: (commaSep (its.map Item.toks) ++ TRBRACE :: rest)) = .ok r ∧
      (r.heap t).length = maxSucc (resolve none its) ∧
      (r.heap t).size = (r.heap t).length * es ∧ (r.heap t).incomplete = false := by
  have hok : ¬ ((h (typeunqual h t0)).incomplete = true ∧
      ¬ ((h (typeunqual h t0)).kind = TYPEARRAY ∧ (h (typeunqual h t0)).length = 0)) := by
    rw [ht]; simp [H.kind, hlen]
  obtain ⟨it, its, rfl⟩ := List.exists_cons_of_ne_nil hits
  rw [parseinit_brace env h t0 _ hok, ht]
  obtain ⟨r, hr, -, hri, hrl, hrs⟩ := incomplete_run env rest its it
    none h (anchored (initial t)) []
    ((commaSep ((it :: its).map Item.toks) ++ TRBRACE :: rest).length + 1)
    H hinc (Or.inl hlen) (arrayAt_start t b)
    (by
      have := commaSep_length (it :: its)
      simp only [List.length_append, List.length_cons] at this ⊢
      omega) hidx
  refine ⟨r, hr, ?_, hrs, hri⟩
  rw [hrl, hlen]
  simp

theorem matchLoop_string_top (env : Env) {h : Heap} {p : Initparser} (ty sty : TypeId)
    (n : Nat) (data : List Nat)
    (hk : (h (p.obj p.sub).type).kind = TYPEARRAY)
    (hchar : (h (typeunqual h (h (p.obj p.sub).type).base)).propchar = true) :
    matchLoop env 32 h p (EXPRUNARY ty true (EXPRSTRING sty n data)) =
      .ok (updatearray h (p.obj p.sub).type (wrap64 n), p, EXPRSTRING sty n data) := by
  rw [show (32 : Nat) = 31 + 1 from rfl, matchLoop]
  unfold matchexpr
  simp [hk, hchar, ite_updatearray]

theorem advance_struct_next {h : Heap} {p : Initparser} {s : Nat} {m0 m : Member}
    {ms : List Member}
    (hs : p.sub = s + 1) (hk : (h (p.obj s).type).kind = TYPESTRUCT)
    (hsel : (p.obj s).sel = Sel.mem (m0 :: m :: ms)) (hp : s + 1 ≠ LEN_obj) :
    advance h p = .ok (h,
      pushed h (setsel { p with sub := s } (Sel.mem (m :: ms))) m.type m.offset) := by
  unfold advance
  rw [hs, advanceLoop]
  unfold advanceStep
  simp only [hk, hsel]
  rw [subobj_ok _ _ (by simpa using hp)]
  rfl

end Arrays

/-! ## Member search -/

section Members
open TypeKind Token Expr

theorem wrap64_add_wrap64 (a b : Nat) : wrap64 (a + wrap64 b) = wrap64 (a + b) := by
  unfold wrap64 UINT64; omega

theorem findmemberDepth_succ (h : Heap) (name : String) (f : Nat) (p : Initparser) :
    findmemberDepth h name (f + 1) p =
      findmemberLoop (findmemberDepth h name f) h name (h (p.obj p.sub).type).members p := by
  rw [findmemberDepth]

/-- Skipping members that do not offer the name: the loop goes on with the
rest of the list from a state that differs from the one it started in only
above the focus. -/
theorem findmemberLoop_skip (h : Heap) (name : String) :
    ∀ (k f : Nat) (pre : List Member) (p : Initparser),
      notOffered h name k pre = true → k ≤ f → p.sub + k < LEN_obj →
      ∃ q, q.sub = p.sub ∧ q.cur = p.cur ∧ (∀ i, i ≤ p.sub → q.obj i = p.obj i) ∧
        ∀ suffix, findmemberLoop (findmemberDepth h name f) h name (pre ++ suffix) p =
          findmemberLoop (findmemberDepth h name f) h name suffix q := by
  intro k
  induction k with
  | zero =>
    intro f pre
    induction pre with
    | nil => intro p _ _ _; exact ⟨p, rfl, rfl, fun _ _ => rfl, fun _ => rfl⟩
    | cons m pre ih =>
      intro p hno hf hp
      simp only [notOffered, List.all_cons, Bool.and_eq_true] at hno
      obtain ⟨hm, hrest⟩ := hno
      cases hn : m.name with
      | none => simp [hn] at hm
      | some n =>
        simp only [hn, bne_iff_ne, ne_eq] at hm
        obtain ⟨q, h1, h2, h3, h4⟩ := ih p (by simpa [notOffered] using hrest) hf hp
        refine ⟨q, h1, h2, h3, fun suffix => ?_⟩
        rw [List.cons_append, findmemberLoop]
        simp only [hn, hm, if_false]
        exact h4 suffix
  | succ k ihk =>
    intro f pre
    induction pre with
    | nil => intro p _ _ _; exact ⟨p, rfl, rfl, fun _ _ => rfl, fun _ => rfl⟩
    | cons m pre ih =>
      intro p hno hf hp
      simp only [notOffered, List.all_cons, Bool.and_eq_true] at hno
      obtain ⟨hm, hrest⟩ := hno
      obtain ⟨f, rfl⟩ : ∃ f', f = f' + 1 := ⟨f - 1, by omega⟩
      cases hn : m.name with
      | some n =>
        simp only [hn, bne_iff_ne, ne_eq] at hm
        obtain ⟨q, h1, h2, h3, h4⟩ := ih p (by simpa [notOffered] using hrest) hf hp
        refine ⟨q, h1, h2, h3, fun suffix => ?_⟩
        rw [List.cons_append, findmemberLoop]
        simp only [hn, hm, if_false]
        exact h4 suffix
      | none =>
        simp only [hn] at hm
        -- the unnamed member is entered, searched in vain and left again
        obtain ⟨q1, a1, a2, a3, a4⟩ := ihk f (h (typeunqual h m.type)).members
          (pushed h p m.type m.offset) hm (by omega) (by simp; omega)
        have a5 := a4 []
        simp only [List.append_nil, findmemberLoop] at a5
        obtain ⟨q, h1, h2, h3, h4⟩ := ih { q1 with sub := q1.sub - 1 }
          (by simpa [notOffered] using hrest) hf (by simp [a1]; omega)
        refine ⟨q, ?_, ?_, ?_, fun suffix => ?_⟩
        · simp [h1, a1]
        · simp [h2, a2]
        · intro i hi
          rw [h3 i (by simp [a1]; omega)]
          show q1.obj i = p.obj i
          rw [a3 i (by simp; omega), pushed_obj, if_neg (by omega)]
        · have hs := subobj_ok (h := h) (p := p) m.type m.offset (by omega)
          rw [List.cons_append, findmemberLoop]
          simp only [hn, hs, findmemberDepth_succ, pushed_sub, pushed_obj, if_true, a5]
          exact h4 suffix


theorem findmemberDepth_resolves (h : Heap) (name : String) {d : Nat} {t : TypeId} {off : Nat}
    {m : Member} (hres : Resolves h name d t off m) :
    ∀ (f : Nat) (p : Initparser), d < f → p.sub + d < LEN_obj → (p.obj p.sub).type = t →
      ∃ q, findmemberDepth h name f p = .ok (true, q) ∧ p.sub < q.sub ∧ q.sub ≤ p.sub + d ∧
        q.cur = p.cur ∧ (q.obj q.sub).type = typeunqual h m.type ∧
        (q.obj q.sub).offset = wrap64 (off + (p.obj p.sub).offset) ∧
        (∀ i, i < p.sub → q.obj i = p.obj i) ∧
        (q.obj p.sub).type = (p.obj p.sub).type ∧
        (q.obj p.sub).offset = (p.obj p.sub).offset ∧
        (q.obj p.sub).iscur = (p.obj p.sub).iscur := by
  induction hres with
  | named d t pre post m hms hname hpre =>
    intro f p hf hp hty
    obtain ⟨f, rfl⟩ : ∃ f', f = f' + 1 := ⟨f - 1, by omega⟩
    obtain ⟨q, h1, h2, h3, h4⟩ := findmemberLoop_skip h name (d + 1) f pre p hpre (by omega) hp
    have hs := subobj_ok (h := h) (p := setsel q (Sel.mem (m :: post))) m.type m.offset
      (by simp [h1]; omega)
    refine ⟨pushed h (setsel q (Sel.mem (m :: post))) m.type m.offset, ?_, ?_, ?_, ?_, ?_, ?_,
      ?_, ?_, ?_, ?_⟩
    · rw [findmemberDepth_succ, hty, hms, h4, findmemberLoop]
      simp only [hname, if_true, hs]
      rfl
    · simp [h1]
    · simp [h1]
    · simp [h2]
    · simp [pushed_obj]
    · simp [pushed_obj, setsel_obj, h1, h3 p.sub (Nat.le_refl _)]
    · intro i hi
      rw [pushed_obj, if_neg (by simp [h1]; omega), setsel_obj, if_neg (by rw [h1]; omega),
        h3 i (by omega)]
    · rw [pushed_obj, if_neg (by simp [h1]), setsel_obj, h1]
      simp [h3 p.sub (Nat.le_refl _)]
    · rw [pushed_obj, if_neg (by simp [h1]), setsel_obj, h1]
      simp [h3 p.sub (Nat.le_refl _)]
    · rw [pushed_obj, if_neg (by simp [h1]), setsel_obj, h1]
      simp [h3 p.sub (Nat.le_refl _)]
  | anon d t pre post a off m hms hname hpre _ ih =>
    intro f p hf hp hty
    obtain ⟨f, rfl⟩ : ∃ f', f = f' + 1 := ⟨f - 1, by omega⟩
    obtain ⟨q, h1, h2, h3, h4⟩ := findmemberLoop_skip h name (d + 1) f pre p hpre (by omega) hp
    have hs := subobj_ok (h := h) (p := q) a.type a.offset (by rw [h1]; omega)
    obtain ⟨q2, b1, b2, b3, b4, b5, b6, b7, -⟩ := ih f (pushed h q a.type a.offset) (by omega)
      (by simp [h1]; omega) (by simp [pushed_obj])
    simp only [pushed_sub, pushed_cur, h1, h2] at b2 b3 b4
    have hq2 : ∀ i, i ≤ p.sub → q2.obj i = p.obj i := by
      intro i hi
      rw [b7 i (by simp [h1]; omega), pushed_obj, if_neg (by rw [h1]; omega), h3 i hi]
    refine ⟨q2, ?_, by omega, by omega, b4, b5, ?_, fun i hi => hq2 i (by omega), ?_, ?_, ?_⟩
    · rw [findmemberDepth_succ, hty, hms, h4, findmemberLoop]
      simp only [hname, hs, b1]
    · rw [b6]
      simp only [pushed_sub, pushed_obj, if_true, h1, wrap64_add_wrap64,
        h3 p.sub (Nat.le_refl _)]
      congr 1
      omega
    · rw [hq2 p.sub (Nat.le_refl _)]
    · rw [hq2 p.sub (Nat.le_refl _)]
    · rw [hq2 p.sub (Nat.le_refl _)]

theorem findmember_resolves (h : Heap) (name : String) {d : Nat} {t : TypeId} {off : Nat}
    {m : Member} (hres : Resolves h name d t off m) (p : Initparser)
    (hp : p.sub + d < LEN_obj) (hty : (p.obj p.sub).type = t) :
    ∃ q, findmember h p name = .ok (true, q) ∧ p.sub < q.sub ∧ q.sub ≤ p.sub + d ∧
      q.cur = p.cur ∧ (q.obj q.sub).type = typeunqual h m.type ∧
      (q.obj q.sub).offset = wrap64 (off + (p.obj p.sub).offset) ∧
      (∀ i, i < p.sub → q.obj i = p.obj i) ∧
      (q.obj p.sub).type = (p.obj p.sub).type ∧
      (q.obj p.sub).offset = (p.obj p.sub).offset ∧
      (q.obj p.sub).iscur = (p.obj p.sub).iscur :=
  findmemberDepth_resolves h name hres (LEN_obj - p.sub) p (by omega) hp hty

theorem findmemberLoop_bounds (h : Heap) (name : String)
    (self : Initparser → Except Error (Bool × Initparser)) (s : Nat)
    (hself : ∀ p1 : Initparser, p1.sub = s + 1 → p1.sub < LEN_obj →
      match self p1 with
      | .error e => e = Error.tooManyDesignators
      | .ok (true, q) => p1.sub < q.sub ∧ q.sub < LEN_obj
      | .ok (false, q) => q.sub = p1.sub) :
    ∀ (ms : List Member) (p : Initparser), p.sub = s → p.sub < LEN_obj →
      match findmemberLoop self h name ms p with
      | .error e => e = Error.tooManyDesignators
      | .ok (true, q) => p.sub < q.sub ∧ q.sub < LEN_obj
      | .ok (false, q) => q.sub = p.sub := by
  intro ms
  induction ms with
  | nil => intro p _ _; simp [findmemberLoop]
  | cons m ms ih =>
    intro p hs hp
    rw [findmemberLoop]
    cases hn : m.name with
    | some n =>
      simp only []
      by_cases hnn : n = name
      · simp only [hnn, if_true, subobj_eq, setsel_sub]
        by_cases hfull : p.sub + 1 = LEN_obj
        · simp [hfull, Except.map]
        · simp only [hfull, if_false, Except.map, pushed_sub, setsel_sub]
          omega
      · simp only [hnn, if_false]
        exact ih p hs hp
    | none =>
      simp only [subobj_eq]
      by_cases hfull : p.sub + 1 = LEN_obj
      · simp [hfull]
      · simp only [hfull, if_false]
        have hs1 := hself (pushed h p m.type m.offset) (by simp [hs]) (by simp; omega)
        cases hr : self (pushed h p m.type m.offset) with
        | error e => simp only [hr] at hs1 ⊢; exact hs1
        | ok r =>
          obtain ⟨b, q⟩ := r
          cases b with
          | true =>
            simp only [hr, pushed_sub] at hs1 ⊢
            omega
          | false =>
            simp only [hr, pushed_sub] at hs1 ⊢
            have := ih { q with sub := q.sub - 1 } (by simp [hs1, hs]) (by simp [hs1]; omega)
            simp only [hs1, Nat.add_sub_cancel] at this ⊢
            exact this

theorem findmemberDepth_bounds (h : Heap) (name : String) :
    ∀ (f : Nat) (p : Initparser), p.sub < LEN_obj → LEN_obj - p.sub ≤ f →
      match findmemberDepth h name f p with
      | .error e => e = Error.tooManyDesignators
      | .ok (true, q) => p.sub < q.sub ∧ q.sub < LEN_obj
      | .ok (false, q) => q.sub = p.sub := by
  intro f
  induction f with
  | zero => intro p hp hf; omega
  | succ f ih =>
    intro p hp hf
    rw [findmemberDepth_succ]
    exact findmemberLoop_bounds h name _ p.sub
      (fun p1 h1 h2 => ih p1 h2 (by omega)) _ p rfl hp

theorem findmember_bounds (h : Heap) (name : String) (p : Initparser)
    (hp : p.sub < LEN_obj) :
    match findmember h p name with
    | .error e => e = Error.tooManyDesignators
    | .ok (true, q) => p.sub < q.sub ∧ q.sub < LEN_obj
    | .ok (false, q) => q.sub = p.sub :=
  findmemberDepth_bounds h name _ p hp (Nat.le_refl _)

theorem designatorLoop_chain_full (rest : List Token) :
    ∀ (ds : List Desig) (h : Heap) (p : Initparser), p.sub < LEN_obj →
      LEN_obj ≤ p.sub + ds.length →
      ∃ e, designatorLoop (chainToks ds ++ rest) h p = .error e ∧
        (e = Error.tooManyDesignators ∨ rejectsDesignator e = true) := by
  intro ds
  induction ds with
  | nil => intro h p hp hlen; simp at hlen; omega
  | cons d ds ih =>
    intro h p hp hlen
    simp only [List.length_cons] at hlen
    cases d with
    | index ty i =>
      simp only [chainToks, Desig.toks, List.cons_append, List.nil_append]
      rw [designatorLoop]
      by_cases hk : (h (p.obj p.sub).type).kind = TYPEARRAY
      · simp only [hk, ne_eq, not_true_eq_false, if_false]
        by_cases hbig : (h (p.obj p.sub).type).incomplete = false ∧
            wrap64 i ≥ (h (p.obj p.sub).type).length
        · exact ⟨Error.indexTooLarge, by rw [if_pos hbig], Or.inr rfl⟩
        · rw [if_neg hbig]
          simp only [subobj_eq, setsel_sub]
          by_cases hfull : p.sub + 1 = LEN_obj
          · exact ⟨Error.tooManyDesignators, by simp only [hfull, if_true], Or.inl rfl⟩
          · simp only [hfull, if_false]
            exact ih _ _ (by simp; omega) (by simp; omega)
      · exact ⟨Error.indexNotArray, by simp only [ne_eq, hk, not_false_eq_true, if_true],
          Or.inr rfl⟩
    | member name =>
      simp only [chainToks, Desig.toks, List.cons_append, List.nil_append]
      rw [designatorLoop]
      by_cases hk : (h (p.obj p.sub).type).kind ≠ TYPESTRUCT ∧
          (h (p.obj p.sub).type).kind ≠ TYPEUNION
      · exact ⟨Error.memberNotStructUnion, by rw [if_pos hk], Or.inr rfl⟩
      · rw [if_neg hk]
        have hb := findmember_bounds h name p hp
        cases hr : findmember h p name with
        | error e =>
          simp only [hr] at hb ⊢
          exact ⟨_, rfl, Or.inl hb⟩
        | ok r =>
          obtain ⟨b, q⟩ := r
          cases b with
          | false => exact ⟨_, rfl, Or.inr rfl⟩
          | true =>
            simp only [hr] at hb ⊢
            exact ih h q hb.2 (by omega)


theorem designatorLoop_sub_lt (toks : List Token) (h : Heap) (p : Initparser) :
    p.sub < LEN_obj → ∀ h2 q r, designatorLoop toks h p = .ok (h2, q, r) →
      p.sub ≤ q.sub ∧ q.sub < LEN_obj := by
  induction toks, h, p using designatorLoop.induct with
  | case1 rest h p t hk =>
    intro _ h2 q r hd
    unfold designatorLoop at hd
    simp only [t] at hk
    simp [hk] at hd
  | case2 h p t hk ty i rest2 hbig =>
    intro _ h2 q r hd
    rw [designatorLoop] at hd
    simp only [t] at hk hbig
    simp [hk, hbig] at hd
  | case3 h p t hk ty i p1 hbig h1 rest3 e hs =>
    intro _ h2 q r hd
    rw [designatorLoop] at hd
    simp only [t] at hk hbig
    simp only [t, h1, p1] at hs
    simp [hk, hbig, hs] at hd
  | case4 h p t hk ty i p1 hbig h1 rest3 p2 hs ih =>
    intro hp h2 q r hd
    rw [designatorLoop] at hd
    simp only [t] at hk hbig
    simp only [t, h1, p1] at hs ih
    simp only [hk, hbig, if_false, hs] at hd
    rw [subobj_eq] at hs
    by_cases hfull : p.sub + 1 = LEN_obj
    · simp [hfull] at hs
    · simp only [setsel_sub, hfull, if_false, Except.ok.injEq] at hs
      subst hs
      have := ih (by simp; omega) h2 q r hd
      simp only [pushed_sub, setsel_sub] at this
      omega
  | case5 h p t hk ty i rest2 hbig hne =>
    intro _ h2 q r hd
    rw [designatorLoop] at hd
    · simp only [t] at hk hbig
      simp [hk, hbig] at hd
  | case6 rest h p t hk hne =>
    intro _ h2 q r hd
    rw [designatorLoop] at hd
    · simp only [t] at hk
      simp [hk] at hd
    · exact hne
  | case7 rest h p t hk =>
    intro _ h2 q r hd
    unfold designatorLoop at hd
    simp only [t] at hk
    simp [hk] at hd
  | case8 h p t hk name rest2 e hf =>
    intro _ h2 q r hd
    rw [designatorLoop] at hd
    simp only [t] at hk
    simp [hk, hf] at hd
  | case9 h p t hk name rest2 q1 hf =>
    intro _ h2 q r hd
    rw [designatorLoop] at hd
    simp only [t] at hk
    simp [hk, hf] at hd
  | case10 h p t hk name rest2 p2 hf ih =>
    intro hp h2 q r hd
    rw [designatorLoop] at hd
    simp only [t] at hk
    simp only [hk, if_false, hf] at hd
    have hb := findmember_bounds h name p hp
    simp only [hf] at hb
    have := ih hb.2 h2 q r hd
    omega
  | case11 rest h p t hk hne =>
    intro _ h2 q r hd
    rw [designatorLoop] at hd
    · simp only [t] at hk
      simp [hk] at hd
    · exact hne
  | case12 rest h p =>
    intro hp h2 q r hd
    rw [designatorLoop_assign] at hd
    simp only [Except.ok.injEq, Prod.mk.injEq] at hd
    obtain ⟨-, rfl, -⟩ := hd
    exact ⟨Nat.le_refl _, hp⟩
  | case13 toks h p n1 n2 n3 =>
    intro _ h2 q r hd
    rw [designatorLoop] at hd
    · simp at hd
    · exact n1
    · exact n2
    · exact n3

end Members

/-! ## The incomplete-type error is raised by the entry check only -/

section IncompleteType

open TypeKind Token Expr

theorem map_ne_incomplete {α β : Type} {x : Except Error α} (f : α → β)
    (hx : x ≠ .error Error.incompleteType) : x.map f ≠ .error Error.incompleteType := by
  cases x <;> simp_all [Except.map]

theorem subobj_ne_incomplete (h : Heap) (p : Initparser) (t : TypeId) (off : Nat) :
    subobj h p t off ≠ .error Error.incompleteType := by
  unfold subobj; split <;> simp

theorem findmemberLoop_ne_incomplete (self : Initparser → Except Error (Bool × Initparser))
    (hself : ∀ q, self q ≠ .error Error.incompleteType) (h : Heap) (name : String)
    (ms : List Member) (p : Initparser) :
    findmemberLoop self h name ms p ≠ .error Error.incompleteType := by
  induction ms generalizing p with
  | nil => simp [findmemberLoop]
  | cons m ms ih =>
    rw [findmemberLoop]
    split
    · split
      · exact map_ne_incomplete _ (subobj_ne_incomplete _ _ _ _)
      · exact ih _
    · split
      · rename_i e he
        intro hc
        injection hc with hc
        subst hc
        exact subobj_ne_incomplete _ _ _ _ he
      · split
        · rename_i e he
          intro hc
          injection hc with hc
          subst hc
          exact hself _ he
        · simp
        · exact ih _

theorem findmemberDepth_ne_incomplete (h : Heap) (name : String) (d : Nat) (p : Initparser) :
    findmemberDepth h name d p ≠ .error Error.incompleteType := by
  induction d generalizing p with
  | zero => simp [findmemberDepth]
  | succ d ih =>
    rw [findmemberDepth]
    exact findmemberLoop_ne_incomplete _ ih _ _ _ _

theorem designatorLoop_ne_incomplete (toks : List Token) (h : Heap) (p : Initparser) :
    designatorLoop toks h p ≠ .error Error.incompleteType := by
  induction toks, h, p using designatorLoop.induct <;> unfold designatorLoop <;>
    (try simp only []) <;> (repeat' split) <;> simp_all +zetaDelta
  · rename_i hs; intro hc; subst hc; exact subobj_ne_incomplete _ _ _ _ hs
  · rename_i hs; intro hc; subst hc; exact findmemberDepth_ne_incomplete _ _ _ _ hs

theorem focus_ne_incomplete (h : Heap) (p : Initparser) :
    focus h p ≠ .error Error.incompleteType := by
  unfold focus
  simp only []
  repeat' split
  all_goals first
    | exact map_ne_incomplete _ (subobj_ne_incomplete _ _ _ _)
    | simp

theorem advanceStep_ne_incomplete (h : Heap) (p : Initparser) :
    advanceStep h p ≠ .error Error.incompleteType := by
  unfold advanceStep
  simp only []
  repeat' split
  all_goals first
    | exact map_ne_incomplete _ (subobj_ne_incomplete _ _ _ _)
    | simp

theorem advanceLoop_ne_incomplete (h : Heap) (p : Initparser) (s : Nat) :
    advanceLoop h p s ≠ .error Error.incompleteType := by
  induction s generalizing h p with
  | zero => simp [advanceLoop]
  | succ s ih =>
    rw [advanceLoop]
    split
    · rename_i e he; intro hc; injection hc with hc; subst hc
      exact advanceStep_ne_incomplete _ _ he
    · simp
    · split
      · simp
      · exact ih _ _

theorem matchexpr_ne_incomplete (env : Env) (h : Heap) (t : TypeId) (e : Expr) :
    matchexpr env h t e ≠ .error Error.incompleteType := by
  unfold matchexpr
  repeat' split
  all_goals simp

theorem matchLoop_ne_incomplete (env : Env) (n : Nat) (h : Heap) (p : Initparser) (e : Expr) :
    matchLoop env n h p e ≠ .error Error.incompleteType := by
  induction n generalizing h p with
  | zero => simp [matchLoop]
  | succ n ih =>
    rw [matchLoop]
    split
    · rename_i e he; intro hc; injection hc with hc; subst hc
      exact matchexpr_ne_incomplete _ _ _ _ he
    · simp
    · split
      · rename_i e he; intro hc; injection hc with hc; subst hc
        exact focus_ne_incomplete _ _ he
      · exact ih _ _

theorem closeLoop_ne_incomplete (toks : List Token) (h : Heap) (p : Initparser) :
    closeLoop toks h p ≠ .error Error.incompleteType := by
  induction toks, h, p using closeLoop.induct <;> unfold closeLoop <;> simp_all

theorem reposition_ne_incomplete (h : Heap) (p : Initparser) (toks : List Token) :
    reposition h p toks ≠ .error Error.incompleteType := by
  unfold reposition designator
  repeat' split
  all_goals first
    | exact designatorLoop_ne_incomplete _ _ _
    | exact map_ne_incomplete _ (advanceLoop_ne_incomplete _ _ _)
    | exact map_ne_incomplete _ (focus_ne_incomplete _ _)
    | simp

theorem parseinitLoop_ne_incomplete (env : Env) (n : Nat) (h : Heap) (p : Initparser)
    (toks : List Token) (init : List Init) :
    parseinitLoop env n h p toks init ≠ .error Error.incompleteType := by
  induction n generalizing h p toks init with
  | zero => simp [parseinitLoop]
  | succ n ih =>
    rw [parseinitLoop]
    split
    · rename_i e he; intro hc; injection hc with hc; subst hc
      exact reposition_ne_incomplete _ _ _ he
    · split
      · split
        · simp
        · exact ih _ _ _ _
      · split
        · rename_i e he
          unfold assignexpr at he
          split at he <;> simp at he
          subst he; simp
        · split
          · rename_i e he; intro hc; injection hc with hc; subst hc
            exact matchLoop_ne_incomplete _ _ _ _ _ he
          · split
            · rename_i e he; intro hc; injection hc with hc; subst hc
              exact closeLoop_ne_incomplete _ _ _ he
            · simp
            · exact ih _ _ _ _

end IncompleteType

/-! ## Totality: the recursion budgets are never used up -/

section Total
open TypeKind Token Expr

theorem subobj_inStack {h : Heap} {p q : Initparser} {t : TypeId} {off : Nat}
    (hs : subobj h p t off = .ok q) (hp : InStack p) :
    InStack q ∧ q.sub = p.sub + 1 ∧ q.cur = p.cur := by
  rw [subobj_eq] at hs
  split at hs
  · cases hs
  · injection hs with hs
    subst hs
    exact ⟨⟨by simp only [pushed_sub]; have := hp.1; omega, hp.2⟩, rfl, rfl⟩

theorem subobj_ne_fuel (h : Heap) (p : Initparser) (t : TypeId) (off : Nat) :
    subobj h p t off ≠ .error Error.fuel := by
  rw [subobj_eq]; split <;> simp

theorem setsel_inStack {p : Initparser} (s : Sel) (hp : InStack p) : InStack (setsel p s) := hp

theorem focus_inStack {h h1 : Heap} {p q : Initparser} (hf : focus h p = .ok (h1, q))
    (hp : InStack p) : InStack q ∧ q.sub = p.sub + 1 ∧ q.cur = p.cur := by
  unfold focus at hf
  simp only [] at hf
  split at hf
  · cases hs : subobj (if (h (p.obj p.sub).type).incomplete = true then
        updatearray h (p.obj p.sub).type 0 else h) (setsel p (Sel.idx 0))
        ((if (h (p.obj p.sub).type).incomplete = true then
          updatearray h (p.obj p.sub).type 0 else h) (p.obj p.sub).type).base 0 with
    | error e => simp [hs, Except.map] at hf
    | ok q1 =>
      simp only [hs, Except.map, Except.ok.injEq, Prod.mk.injEq] at hf
      obtain ⟨-, rfl⟩ := hf
      exact subobj_inStack (p := setsel p _) hs (setsel_inStack _ hp)
  · split at hf
    · cases hf
    · rename_i m ms hms
      cases hs : subobj h (setsel p (Sel.mem (h (p.obj p.sub).type).members)) m.type 0 with
      | error e => simp [hs, Except.map] at hf
      | ok q1 =>
        simp only [hs, Except.map, Except.ok.injEq, Prod.mk.injEq] at hf
        obtain ⟨-, rfl⟩ := hf
        exact subobj_inStack (p := setsel p _) hs (setsel_inStack _ hp)
  · split at hf
    · cases hf
    · rename_i m ms hms
      cases hs : subobj h (setsel p (Sel.mem (h (p.obj p.sub).type).members)) m.type 0 with
      | error e => simp [hs, Except.map] at hf
      | ok q1 =>
        simp only [hs, Except.map, Except.ok.injEq, Prod.mk.injEq] at hf
        obtain ⟨-, rfl⟩ := hf
        exact subobj_inStack (p := setsel p _) hs (setsel_inStack _ hp)
  · cases hs : subobj h p (p.obj p.sub).type 0 with
    | error e => simp [hs, Except.map] at hf
    | ok q1 =>
      simp only [hs, Except.map, Except.ok.injEq, Prod.mk.injEq] at hf
      obtain ⟨-, rfl⟩ := hf
      exact subobj_inStack hs hp

theorem map_ne_fuel {α β : Type} {x : Except Error α} (f : α → β)
    (hx : x ≠ .error Error.fuel) : x.map f ≠ .error Error.fuel := by
  cases x <;> simp_all [Except.map]

theorem focus_ne_fuel (h : Heap) (p : Initparser) : focus h p ≠ .error Error.fuel := by
  unfold focus
  simp only []
  repeat' split
  all_goals first
    | exact map_ne_fuel _ (subobj_ne_fuel _ _ _ _)
    | simp

end Total

section Total2
open TypeKind Token Expr

theorem findmemberLoop_cur (h : Heap) (name : String)
    (self : Initparser → Except Error (Bool × Initparser))
    (hself : ∀ p1 b q, self p1 = .ok (b, q) → q.cur = p1.cur) :
    ∀ (ms : List Member) (p : Initparser) (b : Bool) (q : Initparser),
      findmemberLoop self h name ms p = .ok (b, q) → q.cur = p.cur := by
  intro ms
  induction ms with
  | nil =>
    intro p b q hq
    simp only [findmemberLoop, Except.ok.injEq, Prod.mk.injEq] at hq
    rw [← hq.2]
  | cons m ms ih =>
    intro p b q hq
    rw [findmemberLoop] at hq
    cases hn : m.name with
    | some n =>
      simp only [hn] at hq
      by_cases hnn : n = name
      · simp only [hnn, if_true, subobj_eq] at hq
        split at hq
        · simp [Except.map] at hq
        · simp only [Except.map, Except.ok.injEq, Prod.mk.injEq] at hq
          rw [← hq.2]; rfl
      · simp only [hnn, if_false] at hq
        exact ih p b q hq
    | none =>
      simp only [hn] at hq
      by_cases hfull : p.sub + 1 = LEN_obj
      · simp [subobj_eq, hfull] at hq
      · rw [subobj_ok _ _ hfull] at hq
        cases hr : self (pushed h p m.type m.offset) with
        | error e => simp [hr] at hq
        | ok r =>
          obtain ⟨b1, q1⟩ := r
          have hc := hself _ _ _ hr
          cases b1 with
          | true =>
            simp only [hr, Except.ok.injEq, Prod.mk.injEq] at hq
            rw [← hq.2, hc]; rfl
          | false =>
            simp only [hr] at hq
            have := ih _ b q hq
            rw [this]
            exact hc

theorem findmember_cur {h : Heap} {p q : Initparser} {name : String} {b : Bool}
    (hf : findmember h p name = .ok (b, q)) : q.cur = p.cur := by
  unfold findmember at hf
  have key : ∀ (f : Nat) (p1 : Initparser) (b : Bool) (q : Initparser),
      findmemberDepth h name f p1 = .ok (b, q) → q.cur = p1.cur := by
    intro f
    induction f with
    | zero => intro p1 b q hq; simp [findmemberDepth] at hq
    | succ f ih =>
      intro p1 b q hq
      rw [findmemberDepth_succ] at hq
      exact findmemberLoop_cur h name _ ih _ p1 b q hq
  exact key _ p b q hf

/-- A successful `designator` loop keeps the anchor and consumes tokens. -/
theorem designatorLoop_frame (toks : List Token) (h : Heap) (p : Initparser) :
    ∀ h2 q r, designatorLoop toks h p = .ok (h2, q, r) →
      q.cur = p.cur ∧ r.length < toks.length := by
  induction toks, h, p using designatorLoop.induct with
  | case1 rest h p t hk =>
    intro h2 q r hd
    unfold designatorLoop at hd
    simp only [t] at hk
    simp [hk] at hd
  | case2 h p t hk ty i rest2 hbig =>
    intro h2 q r hd
    rw [designatorLoop] at hd
    simp only [t] at hk hbig
    simp [hk, hbig] at hd
  | case3 h p t hk ty i p1 hbig h1 rest3 e hs =>
    intro h2 q r hd
    rw [designatorLoop] at hd
    simp only [t] at hk hbig
    simp only [t, h1, p1] at hs
    simp [hk, hbig, hs] at hd
  | case4 h p t hk ty i p1 hbig h1 rest3 p2 hs ih =>
    intro h2 q r hd
    rw [designatorLoop] at hd
    simp only [t] at hk hbig
    simp only [t, h1, p1] at hs ih
    simp only [hk, hbig, if_false, hs] at hd
    rw [subobj_eq] at hs
    split at hs
    · cases hs
    · simp only [Except.ok.injEq] at hs
      subst hs
      have := ih h2 q r hd
      simp only [pushed_cur, setsel_cur, List.length_cons] at this ⊢
      exact ⟨this.1, by omega⟩
  | case5 h p t hk ty i rest2 hbig hne =>
    intro h2 q r hd
    rw [designatorLoop] at hd
    · simp only [t] at hk hbig
      simp [hk, hbig] at hd
  | case6 rest h p t hk hne =>
    intro h2 q r hd
    rw [designatorLoop] at hd
    · simp only [t] at hk
      simp [hk] at hd
    · exact hne
  | case7 rest h p t hk =>
    intro h2 q r hd
    unfold designatorLoop at hd
    simp only [t] at hk
    simp [hk] at hd
  | case8 h p t hk name rest2 e hf =>
    intro h2 q r hd
    rw [designatorLoop] at hd
    simp only [t] at hk
    simp [hk, hf] at hd
  | case9 h p t hk name rest2 q1 hf =>
    intro h2 q r hd
    rw [designatorLoop] at hd
    simp only [t] at hk
    simp [hk, hf] at hd
  | case10 h p t hk name rest2 p2 hf ih =>
    intro h2 q r hd
    rw [designatorLoop] at hd
    simp only [t] at hk
    simp only [hk, if_false, hf] at hd
    have := ih h2 q r hd
    rw [findmember_cur hf] at this
    simp only [List.length_cons]
    exact ⟨this.1, by omega⟩
  | case11 rest h p t hk hne =>
    intro h2 q r hd
    rw [designatorLoop] at hd
    · simp only [t] at hk
      simp [hk] at hd
    · exact hne
  | case12 rest h p =>
    intro h2 q r hd
    rw [designatorLoop_assign] at hd
    simp only [Except.ok.injEq, Prod.mk.injEq] at hd
    obtain ⟨-, rfl, rfl⟩ := hd
    exact ⟨rfl, by simp⟩
  | case13 toks h p n1 n2 n3 =>
    intro h2 q r hd
    rw [designatorLoop] at hd
    · simp at hd
    · exact n1
    · exact n2
    · exact n3

theorem designatorLoop_ne_fuel (toks : List Token) (h : Heap) (p : Initparser) :
    p.sub < LEN_obj → designatorLoop toks h p ≠ .error Error.fuel := by
  induction toks, h, p using designatorLoop.induct with
  | case1 rest h p t hk =>
    intro _
    unfold designatorLoop
    simp only [t] at hk
    simp [hk]
  | case2 h p t hk ty i rest2 hbig =>
    intro _
    rw [designatorLoop]
    simp only [t] at hk hbig
    simp [hk, hbig]
  | case3 h p t hk ty i p1 hbig h1 rest3 e hs =>
    intro _
    rw [designatorLoop]
    simp only [t] at hk hbig
    simp only [t, h1, p1] at hs
    simp only [hk, hbig, if_false, hs, ne_eq, not_true_eq_false]
    intro hc
    injection hc with hc
    subst hc
    exact subobj_ne_fuel _ _ _ _ hs
  | case4 h p t hk ty i p1 hbig h1 rest3 p2 hs ih =>
    intro hp
    rw [designatorLoop]
    simp only [t] at hk hbig
    simp only [t, h1, p1] at hs ih
    simp only [hk, hbig, if_false, hs, ne_eq, not_true_eq_false]
    apply ih
    rw [subobj_eq] at hs
    split at hs
    · cases hs
    · rename_i hfull
      simp only [Except.ok.injEq] at hs
      subst hs
      simp only [pushed_sub, setsel_sub] at hfull ⊢
      omega
  | case5 h p t hk ty i rest2 hbig hne =>
    intro _
    rw [designatorLoop]
    · simp only [t] at hk hbig
      simp [hk, hbig]
  | case6 rest h p t hk hne =>
    intro _
    rw [designatorLoop]
    · simp only [t] at hk
      simp [hk]
    · exact hne
  | case7 rest h p t hk =>
    intro _
    unfold designatorLoop
    simp only [t] at hk
    simp [hk]
  | case8 h p t hk name rest2 e hf =>
    intro hp
    rw [designatorLoop]
    simp only [t] at hk
    have hb := findmember_bounds h name p hp
    simp only [hf] at hb
    simp [hk, hf, hb]
  | case9 h p t hk name rest2 q1 hf =>
    intro _
    rw [designatorLoop]
    simp only [t] at hk
    simp [hk, hf]
  | case10 h p t hk name rest2 p2 hf ih =>
    intro hp
    rw [designatorLoop]
    simp only [t] at hk
    simp only [hk, if_false, hf]
    have hb := findmember_bounds h name p hp
    simp only [hf] at hb
    exact ih hb.2
  | case11 rest h p t hk hne =>
    intro _
    rw [designatorLoop]
    · simp only [t] at hk
      simp [hk]
    · exact hne
  | case12 rest h p =>
    intro _
    rw [designatorLoop_assign]
    simp
  | case13 toks h p n1 n2 n3 =>
    intro _
    rw [designatorLoop]
    · simp
    · exact n1
    · exact n2
    · exact n3

end Total2

section Total3
open TypeKind Token Expr

theorem map_subobj_frame {h h1 h2 : Heap} {p q : Initparser} {t : TypeId} {off : Nat} {b : Bool}
    (ha : (subobj h p t off).map (fun q => (h1, q, true)) = .ok (h2, q, b)) :
    q.cur = p.cur ∧ q.sub = p.sub + 1 ∧ b = true := by
  rw [subobj_eq] at ha
  by_cases hfull : p.sub + 1 = LEN_obj
  · simp [hfull, Except.map] at ha
  · simp only [hfull, if_false, Except.map, Except.ok.injEq, Prod.mk.injEq] at ha
    obtain ⟨-, rfl, rfl⟩ := ha
    simp

theorem advanceStep_frame {h h1 : Heap} {p q : Initparser} {b : Bool}
    (ha : advanceStep h p = .ok (h1, q, b)) :
    q.cur = p.cur ∧ ((b = true → q.sub = p.sub + 1) ∧ (b = false → q.sub = p.sub)) := by
  unfold advanceStep at ha
  simp only [] at ha
  repeat' split at ha
  all_goals first
    | cases ha; done
    | (obtain ⟨c1, c2, rfl⟩ := map_subobj_frame ha
       exact ⟨c1, fun _ => c2, fun hb => by cases hb⟩)
    | (simp only [Except.ok.injEq, Prod.mk.injEq] at ha
       obtain ⟨-, rfl, rfl⟩ := ha
       simp)

theorem advanceStep_ne_fuel (h : Heap) (p : Initparser) :
    advanceStep h p ≠ .error Error.fuel := by
  unfold advanceStep
  simp only []
  repeat' split
  all_goals first
    | exact map_ne_fuel _ (subobj_ne_fuel _ _ _ _)
    | simp

theorem advanceLoop_frame (h : Heap) (p : Initparser) (s : Nat) :
    ∀ h1 q, advanceLoop h p s = .ok (h1, q) → q.cur = p.cur ∧ q.sub ≤ s := by
  induction s generalizing h p with
  | zero => intro h1 q ha; simp [advanceLoop] at ha
  | succ s ih =>
    intro h1 q ha
    rw [advanceLoop] at ha
    cases hst : advanceStep h { p with sub := s } with
    | error e => simp [hst] at ha
    | ok r =>
      obtain ⟨h2, q2, b⟩ := r
      obtain ⟨c1, c2, c3⟩ := advanceStep_frame hst
      cases b with
      | true =>
        simp only [hst, Except.ok.injEq, Prod.mk.injEq] at ha
        obtain ⟨-, rfl⟩ := ha
        exact ⟨c1, by rw [c2 rfl]⟩
      | false =>
        simp only [hst] at ha
        split at ha
        · cases ha
        · obtain ⟨d1, d2⟩ := ih h2 q2 h1 q ha
          exact ⟨by rw [d1, c1], by omega⟩

theorem advanceLoop_ne_fuel (h : Heap) (p : Initparser) (s : Nat) :
    advanceLoop h p s ≠ .error Error.fuel := by
  induction s generalizing h p with
  | zero => simp [advanceLoop]
  | succ s ih =>
    rw [advanceLoop]
    split
    · rename_i e he; intro hc; injection hc with hc; subst hc
      exact advanceStep_ne_fuel _ _ he
    · simp
    · split
      · simp
      · exact ih _ _

theorem matchexpr_ne_fuel (env : Env) (h : Heap) (t : TypeId) (e : Expr) :
    matchexpr env h t e ≠ .error Error.fuel := by
  unfold matchexpr
  repeat' split
  all_goals simp

theorem matchLoop_inStack (env : Env) (n : Nat) :
    ∀ (h : Heap) (p : Initparser) (e : Expr) h2 q e2, matchLoop env n h p e = .ok (h2, q, e2) →
      InStack p → InStack q := by
  induction n with
  | zero => intro h p e h2 q e2 hm; simp [matchLoop] at hm
  | succ n ih =>
    intro h p e h2 q e2 hm hp
    rw [matchLoop] at hm
    split at hm
    · cases hm
    · simp only [Except.ok.injEq, Prod.mk.injEq] at hm
      obtain ⟨-, rfl, -⟩ := hm
      exact hp
    · split at hm
      · cases hm
      · rename_i h1 p1 hf
        exact ih _ _ _ _ _ _ hm (focus_inStack hf hp).1

theorem matchLoop_ne_fuel (env : Env) (n : Nat) :
    ∀ (h : Heap) (p : Initparser) (e : Expr), InStack p → LEN_obj - p.sub ≤ n →
      matchLoop env n h p e ≠ .error Error.fuel := by
  induction n with
  | zero => intro h p e hp hn; have := hp.1; omega
  | succ n ih =>
    intro h p e hp hn
    rw [matchLoop]
    split
    · rename_i e1 he; intro hc; injection hc with hc; subst hc
      exact matchexpr_ne_fuel _ _ _ _ he
    · simp
    · split
      · rename_i e1 he; intro hc; injection hc with hc; subst hc
        exact focus_ne_fuel _ _ he
      · rename_i h1 p1 hf
        obtain ⟨i1, i2, -⟩ := focus_inStack hf hp
        exact ih _ _ _ i1 (by omega)

theorem popcur_lt (obj : Nat → Object) (c : Nat) : ∀ c2, popcur obj c = some c2 → c2 < c := by
  induction c with
  | zero => intro c2 hc; simp at hc
  | succ c ih =>
    intro c2 hc
    rw [popcur] at hc
    split at hc
    · injection hc with hc; omega
    · have := ih c2 hc; omega

theorem popanchor_inStack {p : Initparser} {c : Nat} (hp : InStack p) (hc : p.cur = some c) :
    InStack (popanchor p c) := by
  refine ⟨hp.2 c hc, fun c2 hc2 => ?_⟩
  have := popcur_lt p.obj c c2 hc2
  have := hp.2 c hc
  omega

theorem closeLoop_frame (toks : List Token) (h : Heap) (p : Initparser) :
    closeLoop toks h p ≠ .error Error.fuel ∧
      ∀ h3 p3 toks3, closeLoop toks h p = .ok (Closed.brk h3 p3 toks3) → InStack p →
        InStack p3 ∧ toks3.length < toks.length := by
  induction toks, h, p using closeLoop.induct with
  | case1 rest h p hc => unfold closeLoop; simp [hc]
  | case2 rest h p c hc ih =>
    rw [closeLoop]
    simp only [hc]
    refine ⟨ih.1, fun h3 p3 toks3 hb hp => ?_⟩
    have := ih.2 h3 p3 toks3 hb (popanchor_inStack hp hc)
    exact ⟨this.1, by simp only [List.length_cons]; omega⟩
  | case3 rest h p hne hc =>
    rw [closeLoop]
    · simp [hc]
    · exact hne
  | case4 rest h p hne c hc =>
    rw [closeLoop]
    · simp only [hc, ne_eq, not_false_eq_true, Except.ok.injEq, Closed.brk.injEq, true_and,
        reduceCtorEq]
      rintro h3 p3 toks3 ⟨-, rfl, rfl⟩ hp
      exact ⟨hp, by simp⟩
    · exact hne
  | case5 rest h p hc => rw [closeLoop]; simp [hc]
  | case6 rest h p c hc ih =>
    rw [closeLoop]
    simp only [hc]
    refine ⟨ih.1, fun h3 p3 toks3 hb hp => ?_⟩
    have := ih.2 h3 p3 toks3 hb (popanchor_inStack hp hc)
    exact ⟨this.1, by simp only [List.length_cons]; omega⟩
  | case7 toks h p n1 n2 n3 hc =>
    rw [closeLoop]
    · simp [hc]
    · exact n1
    · exact n2
    · exact n3
  | case8 toks h p n1 n2 n3 c hc =>
    rw [closeLoop]
    · simp [hc]
    · exact n1
    · exact n2
    · exact n3

end Total3

section Total4
open TypeKind Token Expr

theorem reposition_frame {h h1 : Heap} {p p1 : Initparser} {toks toks1 : List Token}
    (hr : reposition h p toks = .ok (h1, p1, toks1)) (hp : InStack p) :
    InStack p1 ∧ toks1.length ≤ toks.length := by
  unfold reposition at hr
  cases hc : p.cur with
  | none =>
    simp only [hc, Except.ok.injEq, Prod.mk.injEq] at hr
    obtain ⟨-, rfl, rfl⟩ := hr
    exact ⟨hp, le_refl _⟩
  | some c =>
    have hcl : c < LEN_obj := hp.2 c hc
    have hdes : designator h p toks = .ok (h1, p1, toks1) →
        InStack p1 ∧ toks1.length ≤ toks.length := by
      intro hd
      simp only [designator, hc] at hd
      obtain ⟨f1, f2⟩ := designatorLoop_frame _ _ _ _ _ _ hd
      obtain ⟨-, g2⟩ := designatorLoop_sub_lt _ _ _ hcl _ _ _ hd
      refine ⟨⟨g2, fun c2 hc2 => ?_⟩, by omega⟩
      rw [f1] at hc2
      simp only [Option.some.injEq] at hc2
      subst hc2
      exact hcl
    simp only [hc] at hr
    split at hr
    · exact hdes hr
    · exact hdes hr
    · split at hr
      · cases ha : advance h p with
        | error e => simp [ha, Except.map] at hr
        | ok r =>
          obtain ⟨h2, q⟩ := r
          simp only [ha, Except.map, Except.ok.injEq, Prod.mk.injEq] at hr
          obtain ⟨rfl, rfl, rfl⟩ := hr
          obtain ⟨a1, a2⟩ := advanceLoop_frame _ _ _ _ _ ha
          refine ⟨⟨by have := hp.1; omega, fun c2 hc2 => ?_⟩, le_refl _⟩
          rw [a1] at hc2
          exact hp.2 c2 hc2
      · cases hf : focus h p with
        | error e => simp [hf, Except.map] at hr
        | ok r =>
          obtain ⟨h2, q⟩ := r
          simp only [hf, Except.map, Except.ok.injEq, Prod.mk.injEq] at hr
          obtain ⟨rfl, rfl, rfl⟩ := hr
          exact ⟨(focus_inStack hf hp).1, le_refl _⟩

theorem reposition_ne_fuel (h : Heap) (p : Initparser) (toks : List Token) (hp : InStack p) :
    reposition h p toks ≠ .error Error.fuel := by
  unfold reposition
  cases hc : p.cur with
  | none => simp
  | some c =>
    have hcl : c < LEN_obj := hp.2 c hc
    have hdes : designator h p toks ≠ .error Error.fuel := by
      simp only [designator, hc]
      exact designatorLoop_ne_fuel _ _ _ hcl
    simp only []
    split
    · exact hdes
    · exact hdes
    · split
      · exact map_ne_fuel _ (advanceLoop_ne_fuel _ _ _)
      · exact map_ne_fuel _ (focus_ne_fuel _ _)

theorem assignexpr_length {toks toks2 : List Token} {e : Expr}
    (ha : assignexpr toks = .ok (e, toks2)) : toks2.length < toks.length := by
  unfold assignexpr at ha
  split at ha
  · simp only [Except.ok.injEq, Prod.mk.injEq] at ha
    obtain ⟨-, rfl⟩ := ha
    simp
  · cases ha

theorem parseinitLoop_ne_fuel (env : Env) (n : Nat) :
    ∀ (h : Heap) (p : Initparser) (toks : List Token) (init : List Init),
      toks.length < n → InStack p → parseinitLoop env n h p toks init ≠ .error Error.fuel := by
  induction n with
  | zero => intro h p toks init hn; omega
  | succ n ih =>
    intro h p toks init hn hp
    rw [parseinitLoop]
    cases hr : reposition h p toks with
    | error e =>
      simp only []
      intro hc; injection hc with hc; subst hc
      exact reposition_ne_fuel _ _ _ hp hr
    | ok r =>
      obtain ⟨h1, p1, toks1⟩ := r
      obtain ⟨i1, l1⟩ := reposition_frame hr hp
      simp only []
      split
      · rename_i rest
        split
        · simp
        · refine ih _ _ _ _ (by simp only [List.length_cons] at l1; omega) ⟨i1.1, ?_⟩
          intro c hc
          simp only [Option.some.injEq] at hc
          subst hc
          exact i1.1
      · cases ha : assignexpr toks1 with
        | error e =>
          simp only []
          unfold assignexpr at ha
          split at ha
          · cases ha
          · injection ha with ha; subst ha; simp
        | ok r2 =>
          obtain ⟨expr, toks2⟩ := r2
          have l2 := assignexpr_length ha
          simp only []
          cases hm : matchLoop env LEN_obj h1 p1 expr with
          | error e =>
            simp only []
            intro hc; injection hc with hc; subst hc
            exact matchLoop_ne_fuel env _ _ _ _ i1 (by omega) hm
          | ok r3 =>
            obtain ⟨h2, p2, expr2⟩ := r3
            have i2 := matchLoop_inStack env _ _ _ _ _ _ _ hm i1
            simp only []
            obtain ⟨k1, k2⟩ := closeLoop_frame toks2 h2 p2
            cases hcl : closeLoop toks2 h2 p2 with
            | error e =>
              simp only []
              intro hc; injection hc with hc; subst hc
              exact k1 hcl
            | ok cl =>
              cases cl with
              | ret h3 toks3 => simp
              | brk h3 p3 toks3 =>
                simp only []
                obtain ⟨i3, l3⟩ := k2 _ _ _ hcl i2
                exact ih _ _ _ _ (by omega) i3

end Total4

section Total5

/-- The budget of the model is never used up: `parseinit` ends with a result or
with one of the diagnostics of the source, for every type and token list. -/
theorem parseinit_ne_fuel (env : Env) (h : Heap) (t : TypeId) (toks : List Token) :
    parseinit env h t toks ≠ .error Error.fuel := by
  unfold parseinit
  simp only []
  split
  · simp
  · refine parseinitLoop_ne_fuel env _ _ _ _ _ (Nat.lt_succ_self _) ⟨?_, ?_⟩
    · simp [LEN_obj]
    · intro c hc; cases hc

end Total5
/-! ## One designator -/

section OneDesignator

open TypeKind Token Expr

theorem designatorLoop_index_eq (h : Heap) (p : Initparser) (ty : TypeId) (i : Nat)
    (rest : List Token) (hk : (h (p.obj p.sub).type).kind = TYPEARRAY) :
    designatorLoop (TLBRACK :: EXPR (EXPRCONST ty i) :: TRBRACK :: rest) h p =
      if (h (p.obj p.sub).type).incomplete = false ∧ wrap64 i ≥ (h (p.obj p.sub).type).length then
        .error Error.indexTooLarge
      else if p.sub + 1 = LEN_obj then .error Error.tooManyDesignators
      else
        designatorLoop rest (updatearray h (p.obj p.sub).type (wrap64 i))
          (pushed (updatearray h (p.obj p.sub).type (wrap64 i)) (setsel p (Sel.idx (wrap64 i)))
            (updatearray h (p.obj p.sub).type (wrap64 i) (p.obj p.sub).type).base
            (wrap64 (wrap64 i *
              (updatearray h (p.obj p.sub).type (wrap64 i)
                (updatearray h (p.obj p.sub).type (wrap64 i) (p.obj p.sub).type).base).size))) := by
  rw [designatorLoop]
  simp only [hk, ne_eq, not_true_eq_false, if_false, ite_updatearray]
  split
  · rfl
  · rw [subobj_eq]
    simp only [setsel_sub]
    by_cases hfull : p.sub + 1 = LEN_obj
    · simp only [hfull, if_true]
    · simp only [hfull, if_false]

theorem updatearray_grow {h : Heap} {t : TypeId} (i : Nat) (hinc : (h t).incomplete = true)
    (hi : i + 1 < UINT64) :
    (updatearray h t i t).length = max (h t).length (i + 1) ∧
      ((h t).size = (h t).length * (h (h t).base).size →
        max (h t).length (i + 1) * (h (h t).base).size < UINT64 →
        (updatearray h t i t).size = (updatearray h t i t).length * (h (h t).base).size) := by
  unfold updatearray
  simp only [hinc, Bool.true_eq_false, if_false, wrap64_of_lt hi]
  split
  · rename_i hgt
    have hmax : max (h t).length (i + 1) = i + 1 := by omega
    simp only [Function.update_same, hmax]
    exact ⟨trivial, fun _ hsz => wrap64_of_lt hsz⟩
  · rename_i hle
    have hmax : max (h t).length (i + 1) = (h t).length := by omega
    rw [hmax]
    exact ⟨rfl, fun hs _ => hs⟩

end OneDesignator
/-! ## The member search of `findmember` -/

section Search

open TypeKind Token Expr

theorem anonWithin_succ (h : Heap) : ∀ (d : Nat) (t : TypeId),
    anonWithin h d t = true → anonWithin h (d + 1) t = true := by
  intro d
  induction d with
  | zero =>
    intro t ht
    simp only [anonWithin, List.all_eq_true, Bool.or_eq_true] at ht ⊢
    exact fun m hm => Or.inl (ht m hm)
  | succ d ih =>
    intro t ht
    rw [anonWithin] at ht ⊢
    simp only [List.all_eq_true, Bool.or_eq_true] at ht ⊢
    intro m hm
    rcases ht m hm with hn | ha
    · exact Or.inl hn
    · exact Or.inr (ih _ ha)

theorem notOffered_of_unreachable (h : Heap) (name : String) : ∀ (d : Nat) (t : TypeId),
    anonWithin h d t = true → ¬ Reachable h name t →
    notOffered h name d (h t).members = true := by
  intro d
  induction d with
  | zero =>
    intro t ht hr
    simp only [anonWithin, List.all_eq_true] at ht
    simp only [notOffered, List.all_eq_true]
    intro m hm
    have hsome := ht m hm
    cases hn : m.name with
    | none => rw [hn] at hsome; cases hsome
    | some n =>
      simp only [bne_iff_ne, ne_eq]
      rintro rfl
      exact hr (Reachable.named t m hm hn)
  | succ d ih =>
    intro t ht hr
    rw [anonWithin] at ht
    simp only [List.all_eq_true, Bool.or_eq_true] at ht
    rw [notOffered]
    simp only [List.all_eq_true]
    intro m hm
    cases hn : m.name with
    | none =>
      simp only []
      rcases ht m hm with hs | ha
      · rw [hn] at hs; cases hs
      · exact ih _ ha (fun hr2 => hr (Reachable.anon t m hm hn hr2))
    | some n =>
      simp only [bne_iff_ne, ne_eq]
      rintro rfl
      exact hr (Reachable.named t m hm hn)

theorem first_split {α : Type} (P : α → Prop) : ∀ (l : List α), (∃ x ∈ l, P x) →
    ∃ pre x post, l = pre ++ x :: post ∧ P x ∧ ∀ y ∈ pre, ¬ P y := by
  intro l
  induction l with
  | nil => rintro ⟨x, hx, -⟩; cases hx
  | cons a l ih =>
    intro hex
    by_cases ha : P a
    · exact ⟨[], a, l, rfl, ha, fun y hy => by cases hy⟩
    · obtain ⟨x, hx, hpx⟩ := hex
      have hxl : x ∈ l := by
        rcases List.mem_cons.mp hx with rfl | hxl
        · exact absurd hpx ha
        · exact hxl
      obtain ⟨pre, y, post, hl, hy, hpre⟩ := ih ⟨x, hxl, hpx⟩
      refine ⟨a :: pre, y, post, by rw [hl]; rfl, hy, ?_⟩
      intro z hz
      rcases List.mem_cons.mp hz with rfl | hz
      · exact ha
      · exact hpre z hz

theorem anonWithin_member {h : Heap} {d : Nat} {t : TypeId} {m : Member}
    (ht : anonWithin h d t = true) (hm : m ∈ (h t).members) (hn : m.name = none) :
    ∃ d2, d = d2 + 1 ∧ anonWithin h d2 (typeunqual h m.type) = true := by
  cases d with
  | zero =>
    simp only [anonWithin, List.all_eq_true] at ht
    have := ht m hm
    rw [hn] at this
    cases this
  | succ d2 =>
    rw [anonWithin] at ht
    simp only [List.all_eq_true, Bool.or_eq_true] at ht
    rcases ht m hm with hs | ha
    · rw [hn] at hs; cases hs
    · exact ⟨d2, rfl, ha⟩

theorem notOffered_before (h : Heap) (name : String) {d : Nat} {t : TypeId} {pre : List Member}
    (ht : anonWithin h d t = true) (hsub : ∀ y ∈ pre, y ∈ (h t).members)
    (hpre : ∀ y ∈ pre, ¬ (y.name = some name ∨
      (y.name = none ∧ Reachable h name (typeunqual h y.type)))) :
    notOffered h name (d + 1) pre = true := by
  rw [notOffered]
  simp only [List.all_eq_true]
  intro y hy
  have hno := hpre y hy
  cases hn : y.name with
  | none =>
    simp only []
    obtain ⟨d2, rfl, ha⟩ := anonWithin_member ht (hsub y hy) hn
    exact notOffered_of_unreachable h name _ _ (anonWithin_succ h _ _ ha)
      (fun hr => hno (Or.inr ⟨hn, hr⟩))
  | some n =>
    simp only [bne_iff_ne, ne_eq]
    rintro rfl
    exact hno (Or.inl hn)

theorem resolves_of_reachable (h : Heap) (name : String) : ∀ (d : Nat) (t : TypeId),
    anonWithin h d t = true → Reachable h name t → ∃ off m, Resolves h name (d + 1) t off m := by
  intro d
  induction d with
  | zero =>
    intro t ht hr
    have hex : ∃ x ∈ (h t).members, (x.name = some name ∨
        (x.name = none ∧ Reachable h name (typeunqual h x.type))) := by
      cases hr with
      | named _ m hm hn => exact ⟨m, hm, Or.inl hn⟩
      | anon _ a ha hn hr2 => exact ⟨a, ha, Or.inr ⟨hn, hr2⟩⟩
    obtain ⟨pre, x, post, hl, hx, hpre⟩ := first_split _ _ hex
    have hsub : ∀ y ∈ pre, y ∈ (h t).members := fun y hy => by rw [hl]; simp [hy]
    have hxm : x ∈ (h t).members := by rw [hl]; simp
    rcases hx with hx | ⟨hxn, -⟩
    · exact ⟨_, _, Resolves.named 0 t pre post x hl hx (notOffered_before h name ht hsub hpre)⟩
    · obtain ⟨d2, hd, -⟩ := anonWithin_member ht hxm hxn
      cases hd
  | succ d ih =>
    intro t ht hr
    have hex : ∃ x ∈ (h t).members, (x.name = some name ∨
        (x.name = none ∧ Reachable h name (typeunqual h x.type))) := by
      cases hr with
      | named _ m hm hn => exact ⟨m, hm, Or.inl hn⟩
      | anon _ a ha hn hr2 => exact ⟨a, ha, Or.inr ⟨hn, hr2⟩⟩
    obtain ⟨pre, x, post, hl, hx, hpre⟩ := first_split _ _ hex
    have hsub : ∀ y ∈ pre, y ∈ (h t).members := fun y hy => by rw [hl]; simp [hy]
    have hxm : x ∈ (h t).members := by rw [hl]; simp
    rcases hx with hx | ⟨hxn, hxr⟩
    · exact ⟨_, _, Resolves.named (d + 1) t pre post x hl hx
        (notOffered_before h name ht hsub hpre)⟩
    · obtain ⟨d2, hd, ha⟩ := anonWithin_member ht hxm hxn
      have hd2 : d2 = d := by omega
      subst hd2
      obtain ⟨off, m, hres⟩ := ih _ ha hxr
      exact ⟨_, _, Resolves.anon (d2 + 1) t pre post x off m hl hxn
        (notOffered_before h name ht hsub hpre) hres⟩

theorem findmember_unreachable (h : Heap) (name : String) {d : Nat} {p : Initparser}
    (ht : anonWithin h d (p.obj p.sub).type = true)
    (hr : ¬ Reachable h name (p.obj p.sub).type) (hp : p.sub + d < LEN_obj) :
    ∃ q, findmember h p name = .ok (false, q) ∧ q.sub = p.sub ∧ q.cur = p.cur ∧
      ∀ i, i ≤ p.sub → q.obj i = p.obj i := by
  have hno := notOffered_of_unreachable h name d _ ht hr
  obtain ⟨f, hf⟩ : ∃ f, LEN_obj - p.sub = f + 1 := ⟨LEN_obj - p.sub - 1, by omega⟩
  obtain ⟨q, h1, h2, h3, h4⟩ := findmemberLoop_skip h name d f _ p hno (by omega) hp
  refine ⟨q, ?_, h1, h2, h3⟩
  have := h4 []
  rw [List.append_nil] at this
  rw [findmember, hf, findmemberDepth_succ, this]
  rfl

theorem designatorLoop_nomember {h : Heap} {p q : Initparser} (name : String) (rest : List Token)
    (hk : (h (p.obj p.sub).type).kind = TYPESTRUCT ∨ (h (p.obj p.sub).type).kind = TYPEUNION)
    (hf : findmember h p name = .ok (false, q)) :
    designatorLoop (TPERIOD :: TIDENT name :: rest) h p =
      .error (Error.noMember (decide ((h (p.obj p.sub).type).kind = TYPEUNION)) name) := by
  rw [designatorLoop]
  rcases hk with hk | hk <;> simp [hk, hf]

end Search
/-! ## Unions and the members of a braced struct -/

section Unions

open TypeKind Token Expr

theorem advance_union_top {h : Heap} {p : Initparser} {s : Nat}
    (hs : p.sub = s + 1) (hk : (h (p.obj s).type).kind = TYPEUNION) (hc : p.cur = some s) :
    advance h p = .error Error.tooManyInitializers := by
  unfold advance
  rw [hs, advanceLoop]
  unfold advanceStep
  simp only [hk, hc]
  simp

theorem advance_union_up {h : Heap} {p : Initparser} {s : Nat} {m0 m : Member}
    {ms : List Member}
    (hs : p.sub = s + 2) (hku : (h (p.obj (s + 1)).type).kind = TYPEUNION)
    (hc : p.cur ≠ some (s + 1)) (hk : (h (p.obj s).type).kind = TYPESTRUCT)
    (hsel : (p.obj s).sel = Sel.mem (m0 :: m :: ms)) (hp : s + 1 ≠ LEN_obj) :
    advance h p = .ok (h,
      pushed h (setsel { p with sub := s } (Sel.mem (m :: ms))) m.type m.offset) := by
  unfold advance
  rw [hs, advanceLoop]
  have h1 : advanceStep h { p with sub := s + 1 } = .ok (h, { p with sub := s + 1 }, false) := by
    unfold advanceStep
    simp only [hku]
  rw [h1]
  simp only []
  rw [if_neg (by intro hh; exact hc hh.symm), advanceLoop]
  unfold advanceStep
  simp only [hk, hsel]
  rw [subobj_ok _ _ (by simpa using hp)]
  rfl

theorem matchLoop_descend (env : Env) (n : Nat) {h : Heap} {p : Initparser} {m : Member}
    {ms : List Member} (e : Expr)
    (hk : (h (p.obj p.sub).type).kind = TYPESTRUCT ∨ (h (p.obj p.sub).type).kind = TYPEUNION)
    (hc : env.typecompatible h e.type (p.obj p.sub).type = false)
    (hm : (h (p.obj p.sub).type).members = m :: ms) (hp : p.sub + 1 ≠ LEN_obj) :
    matchLoop env (n + 1) h p e =
      matchLoop env n h (pushed h (setsel p (Sel.mem (m :: ms))) m.type 0) e := by
  rw [matchLoop]
  have hme : matchexpr env h (p.obj p.sub).type e = .ok none := by
    unfold matchexpr
    rcases hk with hk | hk <;> simp [hk, hc]
  rw [hme, focus_struct hk hm hp]

end Unions

section Structs

open TypeKind Token Expr

theorem reposition_before {h : Heap} {p : Initparser} {s : TypeId} {m : Member}
    {ms : List Member} (toks : List Token)
    (hB : Before h p s (m :: ms)) (hk : (h s).kind = TYPESTRUCT)
    (hfirst : ∀ x xs, (h s).members = x :: xs → x.offset = 0)
    (hoff : m.offset < UINT64)
    (h1 : ∀ r, toks ≠ TLBRACK :: r) (h2 : ∀ r, toks ≠ TPERIOD :: r) :
    ∃ p1, reposition h p toks = .ok (h, p1, toks) ∧ MemberAt h p1 s m ms := by
  obtain ⟨hcur, hty, hof, hcase⟩ := hB
  have hrep : reposition h p toks =
      if p.sub ≠ 0 then (advance h p).map (fun q => (q.1, q.2, toks))
      else (focus h p).map (fun q => (q.1, q.2, toks)) := by
    unfold reposition
    rw [hcur]
    simp only []
  rcases hcase with ⟨hsub, hms⟩ | ⟨hsub, m0, hsel⟩
  · have hf := @focus_struct h p m ms
      (Or.inl (by rw [hsub, hty]; exact hk)) (by rw [hsub, hty]; exact hms)
      (by rw [hsub]; simp [LEN_obj])
    refine ⟨_, by rw [hrep, if_neg (by simp [hsub]), hf]; rfl, ?_⟩
    have hm0 := hfirst m ms hms
    simp [MemberAt, pushed_obj, setsel_obj, hsub, hcur, hty, hof, hm0]
  · have ha := advance_struct_next (h := h) (p := p) (s := 0) hsub (by rw [hty]; exact hk)
      hsel (by simp [LEN_obj])
    refine ⟨_, by rw [hrep, if_pos (by simp [hsub]), ha]; rfl, ?_⟩
    simp [MemberAt, pushed_obj, setsel_obj, hcur, hty, hof, wrap64_of_lt hoff]

theorem memberAt_before {h : Heap} {p : Initparser} {s : TypeId} {m : Member}
    {ms : List Member} (hM : MemberAt h p s m ms) : Before h p s ms := by
  obtain ⟨a, b, c, d, e, -⟩ := hM
  exact ⟨a, c, d, Or.inr ⟨b, m, e⟩⟩

theorem struct_value_step (env : Env) {h : Heap} {p : Initparser} {s : TypeId} {m : Member}
    {ms : List Member} (x : Expr) (toks2 : List Token) (n : Nat) (init : List Init)
    (hB : Before h p s (m :: ms)) (hk : (h s).kind = TYPESTRUCT)
    (hfirst : ∀ x xs, (h s).members = x :: xs → x.offset = 0)
    (hs : IsScalar h (typeunqual h m.type))
    (hfit : m.offset + (h (typeunqual h m.type)).size < UINT64)
    (hr : ∀ r, toks2 ≠ TRBRACE :: r) :
    ∃ p1, Before h p1 s ms ∧
      parseinitLoop env (n + 1) h p (EXPR x :: TCOMMA :: toks2) init =
        parseinitLoop env n h p1 toks2 (initadd init (memberInit env h m x)) := by
  obtain ⟨p1, hrep, hM⟩ := reposition_before (EXPR x :: TCOMMA :: toks2) hB hk hfirst
    (by omega) (by simp) (by simp)
  refine ⟨p1, memberAt_before hM, ?_⟩
  obtain ⟨a, b, c, d, e, f, g⟩ := hM
  rw [parseinitLoop_scalar_value env n init hrep (by rw [b, f]; exact hs),
    closeLoop_comma _ a hr]
  simp only [b, f, g, freeze_scalar hs, wrap64_of_lt hfit, memberInit]

theorem commaSep_values_cons (x : Expr) (vs : List Expr) (hvs : vs ≠ []) (rest : List Token) :
    commaSep ((x :: vs).map fun v => [EXPR v]) ++ rest =
      EXPR x :: TCOMMA :: (commaSep (vs.map fun v => [EXPR v]) ++ rest) := by
  obtain ⟨y, ys, rfl⟩ := List.exists_cons_of_ne_nil hvs
  simp [commaSep]

theorem commaSep_values_head (vs : List Expr) (hvs : vs ≠ []) (rest : List Token) :
    ∃ v t, commaSep (vs.map fun v => [EXPR v]) ++ rest = EXPR v :: t := by
  obtain ⟨y, ys, rfl⟩ := List.exists_cons_of_ne_nil hvs
  cases ys with
  | nil => exact ⟨y, rest, by simp [commaSep]⟩
  | cons z zs => exact ⟨y, _, commaSep_values_cons y (z :: zs) (by simp) rest⟩

theorem commaSep_values_length (vs : List Expr) :
    vs.length ≤ (commaSep (vs.map fun v => [EXPR v])).length := by
  induction vs with
  | nil => simp
  | cons v vs ih =>
    cases vs with
    | nil => simp [commaSep]
    | cons w ws =>
      have := commaSep_values_cons v (w :: ws) (by simp) []
      simp only [List.append_nil] at this
      rw [this]
      simp only [List.length_cons] at ih ⊢
      omega

theorem struct_run (env : Env) {h : Heap} {s : TypeId} (hk : (h s).kind = TYPESTRUCT)
    (hfirst : ∀ x xs, (h s).members = x :: xs → x.offset = 0)
    (tail : List Expr) (htail : tail ≠ []) (rest : List Token) (nxt : List Member) :
    ∀ (pre : List Member) (xs : List Expr) (p : Initparser) (init : List Init) (n : Nat),
      xs.length = pre.length → Before h p s (pre ++ nxt) →
      (∀ m ∈ pre, IsScalar h (typeunqual h m.type) ∧
        m.offset + (h (typeunqual h m.type)).size < UINT64) →
      ∃ p1, Before h p1 s nxt ∧
        parseinitLoop env (n + pre.length) h p
            (commaSep ((xs ++ tail).map fun v => [EXPR v]) ++ rest) init =
          parseinitLoop env n h p1 (commaSep (tail.map fun v => [EXPR v]) ++ rest)
            (initaddAll init (List.zipWith (memberInit env h) pre xs)) := by
  intro pre
  induction pre with
  | nil =>
    intro xs p init n hlen hB _
    have : xs = [] := List.length_eq_zero.mp hlen
    subst this
    exact ⟨p, hB, rfl⟩
  | cons m pre ih =>
    intro xs p init n hlen hB hsc
    obtain ⟨x, xs, rfl⟩ : ∃ x xs2, xs = x :: xs2 := by
      cases xs with
      | nil => simp at hlen
      | cons x xs2 => exact ⟨x, xs2, rfl⟩
    have hne : xs ++ tail ≠ [] := by simp [htail]
    obtain ⟨v, t, hvt⟩ := commaSep_values_head (xs ++ tail) hne rest
    obtain ⟨p1, hB1, hstep⟩ := struct_value_step env x
      (commaSep ((xs ++ tail).map fun v => [EXPR v]) ++ rest) (n + pre.length) init hB hk hfirst
      (hsc m (by simp)).1 (hsc m (by simp)).2 (by rw [hvt]; simp)
    obtain ⟨p2, hB2, hrun⟩ := ih xs p1 (initadd init (memberInit env h m x)) n
      (by simpa using hlen) hB1 (fun y hy => hsc y (by simp [hy]))
    refine ⟨p2, hB2, ?_⟩
    rw [List.cons_append, commaSep_values_cons x (xs ++ tail) hne rest]
    show parseinitLoop env (n + pre.length + 1) h p _ init = _
    rw [hstep, hrun]
    rfl

theorem union_member_step (env : Env) {h : Heap} {p : Initparser} {s t : TypeId}
    {u c m0 : Member} {post ms0 : List Member} (v1 v2 : Expr) (rest : List Token) (n : Nat)
    (init : List Init)
    (hB : Before h p s (u :: c :: post)) (hk : (h s).kind = TYPESTRUCT)
    (hfirst : ∀ x xs, (h s).members = x :: xs → x.offset = 0)
    (hu : typeunqual h u.type = t) (hkt : (h t).kind = TYPEUNION)
    (hmt : (h t).members = m0 :: ms0) (hs0 : IsScalar h (typeunqual h m0.type))
    (hcompat : env.typecompatible h v1.type t = false)
    (hfit0 : u.offset + (h (typeunqual h m0.type)).size < UINT64)
    (hsc : IsScalar h (typeunqual h c.type))
    (hfitc : c.offset + (h (typeunqual h c.type)).size < UINT64) :
    parseinitLoop env (n + 1 + 1) h p (EXPR v1 :: TCOMMA :: EXPR v2 :: TRBRACE :: rest) init =
      .ok { init := initadd
              (initadd init (mkinit u.offset (u.offset + (h (typeunqual h m0.type)).size)
                (env.exprconvert h v1 (typeunqual h m0.type))))
              (memberInit env h c v2)
            toks := rest, heap := h } := by
  obtain ⟨p1, hrep, a, b, c1, d, e, f, g⟩ := reposition_before
    (EXPR v1 :: TCOMMA :: EXPR v2 :: TRBRACE :: rest) hB hk hfirst (by omega) (by simp) (by simp)
  rw [hu] at f
  -- the value `v1` does not fit the union: descend to its first member
  obtain ⟨p2, hp2⟩ : ∃ p2, p2 = pushed h (setsel p1 (Sel.mem (m0 :: ms0))) m0.type 0 := ⟨_, rfl⟩
  have hsub2 : p2.sub = 2 := by simp [hp2, b]
  have hcur2 : p2.cur = some 0 := by simp [hp2, a]
  have hty2 : (p2.obj 2).type = typeunqual h m0.type := by simp [hp2, pushed_obj, b]
  have hoff2 : (p2.obj 2).offset = u.offset := by
    simp [hp2, pushed_obj, setsel_obj, b, g, wrap64_of_lt (show u.offset < UINT64 by omega)]
  have hty1 : (p2.obj 1).type = t := by simp [hp2, pushed_obj, setsel_obj, b, f]
  have hty0 : (p2.obj 0).type = s := by simp [hp2, pushed_obj, setsel_obj, b, c1]
  have hoff0 : (p2.obj 0).offset = 0 := by simp [hp2, pushed_obj, setsel_obj, b, d]
  have hsel0 : (p2.obj 0).sel = Sel.mem (u :: c :: post) := by
    simp [hp2, pushed_obj, setsel_obj, b, e]
  have hmatch : matchLoop env 32 h p1 v1 =
      .ok (h, p2, env.exprconvert h v1 (typeunqual h m0.type)) := by
    rw [matchLoop_descend env 31 v1 (Or.inr (by rw [b, f]; exact hkt))
      (by rw [b, f]; exact hcompat) (by rw [b, f]; exact hmt) (by rw [b]; simp [LEN_obj]),
      ← hp2, matchLoop_scalar env 30 v1 (by rw [hsub2, hty2]; exact hs0), hsub2, hty2]
  rw [parseinitLoop_succ, hrep]
  simp only [assignexpr]
  rw [hmatch]
  simp only []
  rw [closeLoop_comma _ hcur2 (by simp)]
  simp only [hsub2, hty2, hoff2, freeze_scalar hs0, wrap64_of_lt hfit0]
  -- the value `v2`: the union has no next member, the struct has
  obtain ⟨p3, hp3⟩ : ∃ p3, p3 = pushed h (setsel { p2 with sub := 0 } (Sel.mem (c :: post)))
      c.type c.offset := ⟨_, rfl⟩
  have hrep3 : reposition h p2 (EXPR v2 :: TRBRACE :: rest) =
      .ok (h, p3, EXPR v2 :: TRBRACE :: rest) := by
    have := advance_union_up (h := h) (p := p2) (s := 0) hsub2 (by rw [hty1]; exact hkt)
      (by rw [hcur2]; simp) (by rw [hty0]; exact hk) hsel0 (by simp [LEN_obj])
    simp [reposition, hcur2, hsub2, this, Except.map, hp3]
  have hsub3 : p3.sub = 1 := by simp [hp3]
  have hcur3 : p3.cur = some 0 := by simp [hp3, hcur2]
  have hty3 : (p3.obj 1).type = typeunqual h c.type := by simp [hp3, pushed_obj]
  have hoff3 : (p3.obj 1).offset = c.offset := by
    simp [hp3, pushed_obj, setsel_obj, hoff0, wrap64_of_lt (show c.offset < UINT64 by omega)]
  have hty30 : (p3.obj 0).type = s := by simp [hp3, pushed_obj, setsel_obj, hty0]
  rw [parseinitLoop_scalar_value env _ _ hrep3 (by rw [hsub3, hty3]; exact hsc),
    closeLoop_rbrace_top _ hcur3]
  simp only [hsub3, hty3, hoff3, freeze_scalar hsc, hty30, wrap64_of_lt hfitc, memberInit,
    freeze_of_not_array (show (h s).kind ≠ TYPEARRAY by rw [hk]; decide)]

theorem mem_initadd_self (l : List Init) (new : Init) : new ∈ initadd l new := by
  induction l with
  | nil => simp [initadd]
  | cons old rest ih =>
    rw [initadd]
    split
    · exact List.mem_cons_of_mem _ ih
    · split
      · exact List.mem_cons_self _ _
      · split
        · exact List.mem_cons_self _ _
        · exact List.mem_cons_of_mem _ ih

theorem focus_sub {h h1 : Heap} {p q : Initparser} (hf : focus h p = .ok (h1, q)) :
    q.sub = p.sub + 1 ∧ q.cur = p.cur := by
  have key : ∀ (hh : Heap) (pp : Initparser) (t : TypeId) (off : Nat),
      (subobj hh pp t off).map (fun q => (hh, q)) = .ok (h1, q) →
      q.sub = pp.sub + 1 ∧ q.cur = pp.cur := by
    intro hh pp t off hq
    rw [subobj_eq] at hq
    split at hq
    · simp [Except.map] at hq
    · simp only [Except.map, Except.ok.injEq, Prod.mk.injEq] at hq
      obtain ⟨-, rfl⟩ := hq
      exact ⟨rfl, rfl⟩
  unfold focus at hf
  simp only [] at hf
  repeat' split at hf
  all_goals first
    | cases hf
    | (have hh := key _ _ _ _ hf
       exact hh)

end Structs
/-! ## The cursor invariant -/

section Cursor

open TypeKind Token Expr

theorem CursorInv.inStack {p : Initparser} (hp : CursorInv p) : InStack p :=
  ⟨hp.1, fun c hc => Nat.lt_of_le_of_lt (hp.2 c hc) hp.1⟩

theorem advanceLoop_lower (c : Nat) (s : Nat) :
    ∀ (h : Heap) (p : Initparser), p.cur = some c → c < s →
      ∀ h1 q, advanceLoop h p s = .ok (h1, q) → c < q.sub := by
  induction s with
  | zero => intro h p _ hc; omega
  | succ s ih =>
    intro h p hcur hc h1 q ha
    rw [advanceLoop] at ha
    cases hst : advanceStep h { p with sub := s } with
    | error e => simp [hst] at ha
    | ok r =>
      obtain ⟨h2, q2, b⟩ := r
      obtain ⟨c1, c2, c3⟩ := advanceStep_frame hst
      cases b with
      | true =>
        simp only [hst, Except.ok.injEq, Prod.mk.injEq] at ha
        obtain ⟨-, rfl⟩ := ha
        rw [c2 rfl]
        show c < s + 1
        exact hc
      | false =>
        simp only [hst] at ha
        split at ha
        · cases ha
        · rename_i hne
          have hq2 : q2.cur = some c := by rw [c1]; exact hcur
          rw [hq2] at hne
          have hlt : c < s := by
            have : c ≠ s := fun hcs => hne (by rw [hcs])
            omega
          exact ih h2 q2 hq2 hlt h1 q ha

theorem matchLoop_frame (env : Env) (n : Nat) :
    ∀ (h : Heap) (p : Initparser) (e : Expr) h2 q e2, matchLoop env n h p e = .ok (h2, q, e2) →
      q.cur = p.cur ∧ p.sub ≤ q.sub := by
  induction n with
  | zero => intro h p e h2 q e2 hm; simp [matchLoop] at hm
  | succ n ih =>
    intro h p e h2 q e2 hm
    rw [matchLoop] at hm
    split at hm
    · cases hm
    · simp only [Except.ok.injEq, Prod.mk.injEq] at hm
      obtain ⟨-, rfl, -⟩ := hm
      exact ⟨rfl, le_refl _⟩
    · split at hm
      · cases hm
      · rename_i h1 p1 hf
        obtain ⟨a, b⟩ := focus_sub hf
        obtain ⟨c, d⟩ := ih _ _ _ _ _ _ hm
        exact ⟨by rw [c, b], by omega⟩

theorem popanchor_inv {p : Initparser} {c : Nat} (hp : CursorInv p) (hc : p.cur = some c) :
    CursorInv (popanchor p c) := by
  have hcs := hp.2 c hc
  refine ⟨by show c < LEN_obj; have := hp.1; omega, fun c2 hc2 => ?_⟩
  have := popcur_lt p.obj c c2 hc2
  show c2 ≤ c
  omega

theorem closeLoop_inv (toks : List Token) (h : Heap) (p : Initparser) :
    ∀ h3 p3 toks3, closeLoop toks h p = .ok (Closed.brk h3 p3 toks3) → CursorInv p →
      CursorInv p3 := by
  induction toks, h, p using closeLoop.induct with
  | case1 rest h p hc => intro h3 p3 toks3 hb; unfold closeLoop at hb; simp [hc] at hb
  | case2 rest h p c hc ih =>
    intro h3 p3 toks3 hb hp
    rw [closeLoop] at hb
    simp only [hc] at hb
    exact ih h3 p3 toks3 hb (popanchor_inv hp hc)
  | case3 rest h p hne hc =>
    intro h3 p3 toks3 hb
    rw [closeLoop] at hb
    · simp [hc] at hb
    · exact hne
  | case4 rest h p hne c hc =>
    intro h3 p3 toks3 hb hp
    rw [closeLoop] at hb
    · simp only [hc, Except.ok.injEq, Closed.brk.injEq] at hb
      obtain ⟨-, rfl, -⟩ := hb
      exact hp
    · exact hne
  | case5 rest h p hc => intro h3 p3 toks3 hb; rw [closeLoop] at hb; simp [hc] at hb
  | case6 rest h p c hc ih =>
    intro h3 p3 toks3 hb hp
    rw [closeLoop] at hb
    simp only [hc] at hb
    exact ih h3 p3 toks3 hb (popanchor_inv hp hc)
  | case7 toks h p n1 n2 n3 hc =>
    intro h3 p3 toks3 hb
    rw [closeLoop] at hb
    · simp [hc] at hb
    · exact n1
    · exact n2
    · exact n3
  | case8 toks h p n1 n2 n3 c hc =>
    intro h3 p3 toks3 hb
    rw [closeLoop] at hb
    · simp [hc] at hb
    · exact n1
    · exact n2
    · exact n3

theorem reposition_inv {h h1 : Heap} {p p1 : Initparser} {toks toks1 : List Token}
    (hr : reposition h p toks = .ok (h1, p1, toks1)) (hp : CursorInv p) : CursorInv p1 := by
  unfold reposition at hr
  cases hc : p.cur with
  | none =>
    simp only [hc, Except.ok.injEq, Prod.mk.injEq] at hr
    obtain ⟨-, rfl, -⟩ := hr
    exact hp
  | some c =>
    have hcs : c ≤ p.sub := hp.2 c hc
    have hcl : c < LEN_obj := Nat.lt_of_le_of_lt hcs hp.1
    have hdes : designator h p toks = .ok (h1, p1, toks1) → CursorInv p1 := by
      intro hd
      simp only [designator, hc] at hd
      obtain ⟨f1, -⟩ := designatorLoop_frame _ _ _ _ _ _ hd
      obtain ⟨g1, g2⟩ := designatorLoop_sub_lt _ _ _ hcl _ _ _ hd
      refine ⟨g2, fun c2 hc2 => ?_⟩
      rw [f1] at hc2
      simp only [Option.some.injEq] at hc2
      subst hc2
      exact g1
    simp only [hc] at hr
    split at hr
    · exact hdes hr
    · exact hdes hr
    · split at hr
      · rename_i hne
        cases ha : advance h p with
        | error e => simp [ha, Except.map] at hr
        | ok r =>
          obtain ⟨h2, q⟩ := r
          simp only [ha, Except.map, Except.ok.injEq, Prod.mk.injEq] at hr
          obtain ⟨-, rfl, -⟩ := hr
          obtain ⟨a1, a2⟩ := advanceLoop_frame _ _ _ _ _ ha
          have a3 := advanceLoop_lower c p.sub h p hc (by omega) _ _ ha
          refine ⟨by have := hp.1; omega, fun c2 hc2 => ?_⟩
          rw [a1, hc] at hc2
          simp only [Option.some.injEq] at hc2
          omega
      · cases hf : focus h p with
        | error e => simp [hf, Except.map] at hr
        | ok r =>
          obtain ⟨h2, q⟩ := r
          simp only [hf, Except.map, Except.ok.injEq, Prod.mk.injEq] at hr
          obtain ⟨-, rfl, -⟩ := hr
          obtain ⟨i1, i2, i3⟩ := focus_inStack hf hp.inStack
          refine ⟨i1.1, fun c2 hc2 => ?_⟩
          rw [i3] at hc2
          have := hp.2 c2 hc2
          omega

end Cursor
/-! ## The log of the cursor -/

section Trace

open TypeKind Token Expr

theorem Traced.Meets.andThen {α β : Type} {x : Traced α} {f : α → Traced β} {post1 : α → Prop}
    {post2 : β → Prop} (hx : x.Meets post1)
    (hf : ∀ a, x.result = .ok a → post1 a → (f a).Meets post2) :
    (x.andThen f).Meets post2 := by
  obtain ⟨x1, x2, x3⟩ := hx
  cases hr : x.result with
  | error e =>
    refine ⟨fun e he => ?_, fun p hp => ?_, fun a ha => ?_⟩
    · simp only [Traced.andThen, hr, List.append_nil] at he
      exact x1 e he
    · simp only [Traced.andThen, hr, List.append_nil] at hp ⊢
      have := x2 p hp
      rw [hr] at this
      injection this with this
      rw [this]
    · simp [Traced.andThen, hr] at ha
  | ok a =>
    obtain ⟨f1, f2, f3⟩ := hf a hr (x3 a hr)
    refine ⟨fun e he => ?_, fun p hp => ?_, fun b hb => ?_⟩
    · simp only [Traced.andThen, hr, List.mem_append] at he
      rcases he with he | he
      · exact x1 e he
      · exact f1 e he
    · simp only [Traced.andThen, hr, List.mem_append] at hp ⊢
      rcases hp with hp | hp
      · have := x2 p hp
        rw [hr] at this
        cases this
      · exact f2 p hp
    · simp only [Traced.andThen, hr] at hb
      exact f3 b hb

theorem Traced.Meets.map {α β : Type} {x : Traced α} {f : α → β} {post1 : α → Prop}
    {post2 : β → Prop} (hx : x.Meets post1) (hf : ∀ a, post1 a → post2 (f a)) :
    (x.map f).Meets post2 := by
  obtain ⟨x1, x2, x3⟩ := hx
  refine ⟨x1, fun p hp => ?_, fun b hb => ?_⟩
  · simp only [Traced.map, x2 p hp, Except.map]
  · simp only [Traced.map] at hb
    cases hr : x.result with
    | error e => simp [hr, Except.map] at hb
    | ok a =>
      simp only [hr, Except.map, Except.ok.injEq] at hb
      subst hb
      exact hf a (x3 a hr)

theorem Traced.Meets.after {α : Type} {x : Traced α} {es : List Event} {post : α → Prop}
    (hx : x.Meets post) (hes : ∀ e ∈ es, Good e ∧ e.isOverflow = false) :
    (x.after es).Meets post := by
  obtain ⟨x1, x2, x3⟩ := hx
  refine ⟨fun e he => ?_, fun p hp => ?_, x3⟩
  · simp only [Traced.after, List.mem_append] at he
    rcases he with he | he
    · exact (hes e he).1
    · exact x1 e he
  · simp only [Traced.after, List.mem_append] at hp ⊢
    rcases hp with hp | hp
    · have := (hes _ hp).2
      simp [Event.isOverflow] at this
    · exact x2 p hp

theorem Traced.Meets.weaken {α : Type} {x : Traced α} {post1 post2 : α → Prop}
    (hx : x.Meets post1) (hf : ∀ a, post1 a → post2 a) : x.Meets post2 :=
  ⟨hx.1, hx.2.1, fun a ha => hf a (hx.2.2 a ha)⟩

theorem Traced.Meets.ok {α : Type} {a : α} {post : α → Prop} (ha : post a) :
    Traced.Meets { events := [], result := .ok a } post :=
  ⟨fun e he => (by cases he), fun p hp => (by cases hp),
    fun b hb => (by simp only [Except.ok.injEq] at hb; subst hb; exact ha)⟩

theorem Traced.Meets.error {α : Type} (e : Error) (post : α → Prop) :
    Traced.Meets { events := [], result := (.error e : Except Error α) } post :=
  ⟨fun e he => (by cases he), fun p hp => (by cases hp), fun b hb => (by cases hb)⟩

/-! ### The logged functions compute the same results -/

theorem subobjT_result (h : Heap) (p : Initparser) (t : TypeId) (off : Nat) :
    (subobjT h p t off).result = subobj h p t off := by
  rw [subobj_eq]
  unfold subobjT
  split <;> rfl

theorem findmemberLoopT_result (h : Heap) (name : String)
    (selfT : Initparser → Traced (Bool × Initparser))
    (self : Initparser → Except Error (Bool × Initparser))
    (hself : ∀ p, (selfT p).result = self p) :
    ∀ (ms : List Member) (p : Initparser),
      (findmemberLoopT selfT h name ms p).result = findmemberLoop self h name ms p := by
  intro ms
  induction ms with
  | nil => intro p; rfl
  | cons m ms ih =>
    intro p
    rw [findmemberLoop, findmemberLoopT]
    cases hn : m.name with
    | some n =>
      simp only []
      split
      · simp only [Traced.map, subobjT_result]
      · exact ih p
    | none =>
      simp only [Traced.andThen, subobjT_result]
      cases hs : subobj h p m.type m.offset with
      | error e => rfl
      | ok p1 =>
        simp only [hself]
        cases hr : self p1 with
        | error e => rfl
        | ok r =>
          obtain ⟨b, p2⟩ := r
          cases b with
          | true => rfl
          | false => exact ih _

theorem findmemberDepthT_result (h : Heap) (name : String) :
    ∀ (f : Nat) (p : Initparser),
      (findmemberDepthT h name f p).result = findmemberDepth h name f p := by
  intro f
  induction f with
  | zero => intro p; rfl
  | succ f ih =>
    intro p
    rw [findmemberDepth_succ, findmemberDepthT]
    exact findmemberLoopT_result h name _ _ ih _ p

theorem findmemberT_result (h : Heap) (p : Initparser) (name : String) :
    (findmemberT h p name).result = findmember h p name :=
  findmemberDepthT_result h name _ p


theorem designatorLoopT_result (toks : List Token) (h : Heap) (p : Initparser) :
    (designatorLoopT toks h p).result = designatorLoop toks h p := by
  induction toks, h, p using designatorLoop.induct with
  | case1 rest h p t hk =>
    unfold designatorLoop designatorLoopT
    simp only [t] at hk
    simp [hk]
  | case2 h p t hk ty i rest2 hbig =>
    rw [designatorLoop, designatorLoopT]
    simp only [t] at hk hbig
    simp [hk, hbig]
  | case3 h p t hk ty i p1 hbig h1 rest3 e hs =>
    rw [designatorLoop, designatorLoopT]
    simp only [t] at hk hbig
    simp only [t, h1, p1] at hs
    simp [hk, hbig, hs, Traced.andThen, subobjT_result]
  | case4 h p t hk ty i p1 hbig h1 rest3 p2 hs ih =>
    rw [designatorLoop, designatorLoopT]
    simp only [t] at hk hbig
    simp only [t, h1, p1] at hs ih
    simp only [hk, hbig, if_false, hs, Traced.andThen, subobjT_result, ne_eq, not_true_eq_false]
    exact ih
  | case5 h p t hk ty i rest2 hbig hne =>
    rw [designatorLoop, designatorLoopT]
    simp only [t] at hk hbig
    simp only [hk, hbig, if_false]
  | case6 rest h p t hk hne =>
    rw [designatorLoop, designatorLoopT]
    · simp only [t] at hk
      simp [hk]
    · exact hne
    · exact hne
  | case7 rest h p t hk =>
    unfold designatorLoop designatorLoopT
    simp only [t] at hk
    simp [hk]
  | case8 h p t hk name rest2 e hf =>
    rw [designatorLoop, designatorLoopT]
    simp only [t] at hk
    simp only [hk, if_false, Traced.andThen, findmemberT_result, hf]
  | case9 h p t hk name rest2 q hf =>
    rw [designatorLoop, designatorLoopT]
    simp only [t] at hk
    simp only [hk, if_false, Traced.andThen, findmemberT_result, hf]
  | case10 h p t hk name rest2 p2 hf ih =>
    rw [designatorLoop, designatorLoopT]
    simp only [t] at hk
    simp only [hk, if_false, Traced.andThen, findmemberT_result, hf]
    exact ih
  | case11 rest h p t hk hne =>
    rw [designatorLoop, designatorLoopT]
    · simp only [t] at hk
      simp [hk]
    · exact hne
    · exact hne
  | case12 rest h p => rfl
  | case13 toks h p n1 n2 n3 =>
    rw [designatorLoop, designatorLoopT]
    · exact n1
    · exact n2
    · exact n3
    · exact n1
    · exact n2
    · exact n3

theorem designatorT_result (h : Heap) (p : Initparser) (toks : List Token) :
    (designatorT h p toks).result = designator h p toks := by
  unfold designatorT designator
  cases p.cur with
  | none => rfl
  | some c => exact designatorLoopT_result toks h _

theorem focusT_result (h : Heap) (p : Initparser) : (focusT h p).result = focus h p := by
  simp only [focusT, focus]
  cases hk : (h (p.obj p.sub).type).kind <;> simp only [hk, Traced.map, subobjT_result]
  all_goals cases hm : (h (p.obj p.sub).type).members <;> simp only [hm, Traced.map, subobjT_result]

theorem advanceStepT_result (h : Heap) (p : Initparser) :
    (advanceStepT h p).result = advanceStep h p := by
  simp only [advanceStepT, advanceStep]
  cases hk : (h (p.obj p.sub).type).kind <;> simp only [hk]
  · cases hs : (p.obj p.sub).sel <;> simp only [hs]
    rw [apply_ite Traced.result]
    simp only [Traced.map, subobjT_result]
  · cases hs : (p.obj p.sub).sel with
    | mem ms =>
      cases ms with
      | nil => rfl
      | cons m ms =>
        cases ms with
        | nil => rfl
        | cons m2 ms => simp only [Traced.map, subobjT_result]
    | _ => rfl

theorem advanceLoopT_result (s : Nat) :
    ∀ (h : Heap) (p : Initparser), (advanceLoopT h p s).result = advanceLoop h p s := by
  induction s with
  | zero => intro h p; rfl
  | succ s ih =>
    intro h p
    rw [advanceLoop, advanceLoopT]
    simp only [Traced.after, Traced.andThen, advanceStepT_result]
    cases hst : advanceStep h { p with sub := s } with
    | error e => rfl
    | ok r =>
      obtain ⟨h1, p1, b⟩ := r
      cases b with
      | true => rfl
      | false =>
        simp only []
        split
        · rfl
        · exact ih h1 p1

theorem advanceT_result (h : Heap) (p : Initparser) : (advanceT h p).result = advance h p :=
  advanceLoopT_result p.sub h p

theorem matchLoopT_result (env : Env) (n : Nat) :
    ∀ (h : Heap) (p : Initparser) (e : Expr),
      (matchLoopT env n h p e).result = matchLoop env n h p e := by
  induction n with
  | zero => intro h p e; rfl
  | succ n ih =>
    intro h p e
    rw [matchLoop, matchLoopT]
    cases hm : matchexpr env h (p.obj p.sub).type e with
    | error e => rfl
    | ok r =>
      cases r with
      | some r => rfl
      | none =>
        simp only [Traced.andThen, focusT_result]
        cases hf : focus h p with
        | error e => rfl
        | ok r =>
          obtain ⟨h1, p1⟩ := r
          exact ih h1 p1 e

theorem popcurT_result (p : Initparser) (c : Nat) :
    (popcurT p c).result = .ok (popcur p.obj c) := by
  induction c with
  | zero => rfl
  | succ c ih =>
    rw [popcurT, popcur]
    split
    · rfl
    · exact ih

theorem popanchorT_result (p : Initparser) (c : Nat) :
    (popanchorT p c).result = .ok (popanchor p c) := by
  simp only [popanchorT, Traced.after, Traced.map, popcurT_result, Except.map, popanchor]

theorem closeLoopT_result (toks : List Token) (h : Heap) (p : Initparser) :
    (closeLoopT toks h p).result = closeLoop toks h p := by
  induction toks, h, p using closeLoop.induct with
  | case1 rest h p hc => unfold closeLoop closeLoopT; simp [hc]
  | case2 rest h p c hc ih =>
    rw [closeLoop, closeLoopT]
    simp only [hc, Traced.andThen, popanchorT_result]
    exact ih
  | case3 rest h p hne hc =>
    rw [closeLoop, closeLoopT]
    · simp [hc]
    · exact hne
    · exact hne
  | case4 rest h p hne c hc =>
    rw [closeLoop, closeLoopT]
    · simp [hc]
    · exact hne
    · exact hne
  | case5 rest h p hc => rw [closeLoop, closeLoopT]; simp [hc]
  | case6 rest h p c hc ih =>
    rw [closeLoop, closeLoopT]
    simp only [hc, Traced.andThen, popanchorT_result]
    exact ih
  | case7 toks h p n1 n2 n3 hc =>
    rw [closeLoop, closeLoopT]
    · simp [hc]
    · exact n1
    · exact n2
    · exact n3
    · exact n1
    · exact n2
    · exact n3
  | case8 toks h p n1 n2 n3 c hc =>
    rw [closeLoop, closeLoopT]
    · simp [hc]
    · exact n1
    · exact n2
    · exact n3
    · exact n1
    · exact n2
    · exact n3

theorem repositionT_result (h : Heap) (p : Initparser) (toks : List Token) :
    (repositionT h p toks).result = reposition h p toks := by
  unfold repositionT reposition
  cases p.cur with
  | none => rfl
  | some c =>
    simp only []
    split
    · exact designatorT_result _ _ _
    · exact designatorT_result _ _ _
    · split
      · simp only [Traced.map, advanceT_result]
      · simp only [Traced.map, focusT_result]

theorem parseinitLoopT_result (env : Env) (n : Nat) :
    ∀ (h : Heap) (p : Initparser) (toks : List Token) (init : List Init),
      (parseinitLoopT env n h p toks init).result = parseinitLoop env n h p toks init := by
  induction n with
  | zero => intro h p toks init; rfl
  | succ n ih =>
    intro h p toks init
    rw [parseinitLoop, parseinitLoopT]
    simp only [Traced.andThen, repositionT_result]
    cases hr : reposition h p toks with
    | error e => rfl
    | ok r =>
      obtain ⟨h1, p1, toks1⟩ := r
      simp only []
      split
      · split
        · rfl
        · exact ih _ _ _ _
      · cases ha : assignexpr toks1 with
        | error e => rfl
        | ok r2 =>
          obtain ⟨expr, toks2⟩ := r2
          simp only [matchLoopT_result]
          cases hm : matchLoop env LEN_obj h1 p1 expr with
          | error e => rfl
          | ok r3 =>
            obtain ⟨h2, p2, expr2⟩ := r3
            simp only [closeLoopT_result]
            cases hc : closeLoop toks2 h2 p2 with
            | error e => rfl
            | ok cl =>
              cases cl with
              | ret h3 toks3 => rfl
              | brk h3 p3 toks3 => exact ih _ _ _ _

theorem parseinitT_result (env : Env) (h : Heap) (t : TypeId) (toks : List Token) :
    (parseinitT env h t toks).result = parseinit env h t toks := by
  unfold parseinitT parseinit
  simp only [Traced.after]
  split
  · rfl
  · exact parseinitLoopT_result env _ _ _ _ _

/-! ### Every entry of the log is good -/

theorem good_moved {p : Initparser} (hp : CursorInv p) : Good (Event.moved p) :=
  ⟨by have := hp.1; simp only [LEN_obj] at this; omega, hp.2⟩

theorem good_single {p : Initparser} (hp : CursorInv p) :
    ∀ e ∈ [Event.moved p], Good e ∧ e.isOverflow = false := by
  intro e he
  simp only [List.mem_singleton] at he
  subst he
  exact ⟨good_moved hp, rfl⟩

theorem subobjT_meets (h : Heap) (p : Initparser) (t : TypeId) (off : Nat) (hp : CursorInv p) :
    (subobjT h p t off).Meets fun q => CursorInv q ∧ q.cur = p.cur ∧ q.sub = p.sub + 1 := by
  unfold subobjT
  split
  · rename_i hfull
    refine ⟨fun e he => ?_, fun q _ => rfl, fun a ha => by cases ha⟩
    simp only [List.mem_singleton] at he
    subst he
    refine ⟨by simp only [LEN_obj] at hfull; exact hfull, fun c hc => ?_⟩
    have := hp.2 c hc
    show c ≤ p.sub + 1
    omega
  · rename_i hfull
    have hq : CursorInv (pushed h p t off) := by
      refine ⟨?_, fun c hc => ?_⟩
      · have := hp.1
        simp only [pushed_sub]
        omega
      · have := hp.2 c hc
        simp only [pushed_sub]
        omega
    refine ⟨fun e he => (good_single hq e he).1, fun q hq2 => ?_, fun a ha => ?_⟩
    · simp at hq2
    · simp only [Except.ok.injEq] at ha
      subst ha
      exact ⟨hq, rfl, rfl⟩

theorem findmemberLoopT_meets (h : Heap) (name : String)
    (self : Initparser → Traced (Bool × Initparser))
    (hself : ∀ p1, CursorInv p1 → (self p1).Meets fun r =>
      CursorInv r.2 ∧ r.2.cur = p1.cur ∧ p1.sub ≤ r.2.sub ∧ (r.1 = false → r.2.sub = p1.sub)) :
    ∀ (ms : List Member) (p : Initparser), CursorInv p →
      (findmemberLoopT self h name ms p).Meets fun r =>
        CursorInv r.2 ∧ r.2.cur = p.cur ∧ p.sub ≤ r.2.sub ∧ (r.1 = false → r.2.sub = p.sub) := by
  intro ms
  induction ms with
  | nil =>
    intro p hp
    exact Traced.Meets.ok ⟨hp, rfl, le_refl _, fun _ => rfl⟩
  | cons m ms ih =>
    intro p hp
    rw [findmemberLoopT]
    cases hn : m.name with
    | some n =>
      simp only []
      split
      · refine Traced.Meets.map (subobjT_meets h (setsel p (Sel.mem (m :: ms))) m.type m.offset hp) ?_
        rintro q ⟨q1, q2, q3⟩
        refine ⟨q1, q2, ?_, fun hc => by cases hc⟩
        rw [q3]
        exact Nat.le_succ _
      · exact ih p hp
    | none =>
      simp only []
      refine Traced.Meets.andThen (subobjT_meets h p m.type m.offset hp) ?_
      rintro p1 - ⟨a1, a2, a3⟩
      refine Traced.Meets.andThen (hself p1 a1) ?_
      rintro ⟨b, p2⟩ - ⟨b1, b2, b3, b4⟩
      cases b with
      | true =>
        refine Traced.Meets.ok ⟨b1, ?_, ?_, fun hc => by cases hc⟩
        · rw [b2, a2]
        · simp only at b3 ⊢
          omega
      | false =>
        simp only at b1 b2 b3 b4 ⊢
        have hsub := b4 trivial
        have h3 : CursorInv { p2 with sub := p2.sub - 1 } := by
          refine ⟨?_, fun c hc => ?_⟩
          · show p2.sub - 1 < LEN_obj
            have := hp.1
            omega
          · show c ≤ p2.sub - 1
            have hc2 : p.cur = some c := by rw [← a2, ← b2]; exact hc
            have := hp.2 c hc2
            omega
        refine Traced.Meets.weaken (Traced.Meets.after (ih _ h3) (good_single h3)) ?_
        rintro r ⟨r1, r2, r3, r4⟩
        refine ⟨r1, ?_, ?_, fun hf => ?_⟩
        · rw [r2]
          show p2.cur = p.cur
          rw [b2, a2]
        · have : p2.sub - 1 ≤ r.2.sub := r3
          omega
        · have : r.2.sub = p2.sub - 1 := r4 hf
          omega

theorem findmemberDepthT_meets (h : Heap) (name : String) :
    ∀ (f : Nat) (p : Initparser), CursorInv p →
      (findmemberDepthT h name f p).Meets fun r =>
        CursorInv r.2 ∧ r.2.cur = p.cur ∧ p.sub ≤ r.2.sub ∧ (r.1 = false → r.2.sub = p.sub) := by
  intro f
  induction f with
  | zero => intro p _; exact Traced.Meets.error _ _
  | succ f ih =>
    intro p hp
    rw [findmemberDepthT]
    exact findmemberLoopT_meets h name _ ih _ p hp

theorem findmemberT_meets (h : Heap) (p : Initparser) (name : String) (hp : CursorInv p) :
    (findmemberT h p name).Meets fun r =>
      CursorInv r.2 ∧ r.2.cur = p.cur ∧ p.sub ≤ r.2.sub ∧ (r.1 = false → r.2.sub = p.sub) :=
  findmemberDepthT_meets h name _ p hp

theorem designatorLoopT_meets (toks : List Token) (h : Heap) (p : Initparser) :
    CursorInv p → (designatorLoopT toks h p).Meets fun r =>
      CursorInv r.2.1 ∧ r.2.1.cur = p.cur := by
  induction toks, h, p using designatorLoop.induct with
  | case1 rest h p t hk =>
    intro _
    unfold designatorLoopT
    simp only [t] at hk
    rw [if_pos hk]
    exact Traced.Meets.error _ _
  | case2 h p t hk ty i rest2 hbig =>
    intro _
    rw [designatorLoopT]
    simp only [t] at hk hbig
    simp only [hk, hbig, if_true, if_false]
    exact Traced.Meets.error _ _
  | case3 h p t hk ty i p1 hbig h1 rest3 e hs =>
    intro hp
    rw [designatorLoopT]
    simp only [t] at hk hbig
    simp only [t, h1, p1] at hs
    simp only [hk, hbig, if_false]
    refine Traced.Meets.andThen (subobjT_meets _ _ _ _ hp) ?_
    intro p2 hres _
    rw [subobjT_result, hs] at hres
    cases hres
  | case4 h p t hk ty i p1 hbig h1 rest3 p2 hs ih =>
    intro hp
    rw [designatorLoopT]
    simp only [t] at hk hbig
    simp only [t, h1, p1] at hs ih
    simp only [hk, hbig, if_false]
    refine Traced.Meets.andThen (subobjT_meets _ _ _ _ hp) ?_
    rintro q hres ⟨q1, q2, -⟩
    rw [subobjT_result, hs] at hres
    injection hres with hres
    subst hres
    refine Traced.Meets.weaken (ih q1) ?_
    rintro r ⟨r1, r2⟩
    exact ⟨r1, by rw [r2, q2]; rfl⟩
  | case5 h p t hk ty i rest2 hbig hne =>
    intro _
    rw [designatorLoopT]
    simp only [t] at hk hbig
    simp only [hk, hbig, if_false]
    exact Traced.Meets.error _ _
  | case6 rest h p t hk hne =>
    intro _
    rw [designatorLoopT]
    · simp only [t] at hk
      simp only [hk, if_false]
      exact Traced.Meets.error _ _
    · exact hne
  | case7 rest h p t hk =>
    intro _
    unfold designatorLoopT
    simp only [t] at hk
    rw [if_pos hk]
    exact Traced.Meets.error _ _
  | case8 h p t hk name rest2 e hf =>
    intro hp
    rw [designatorLoopT]
    simp only [t] at hk
    simp only [hk, if_false]
    refine Traced.Meets.andThen (findmemberT_meets h p name hp) ?_
    intro r hres _
    rw [findmemberT_result, hf] at hres
    cases hres
  | case9 h p t hk name rest2 q hf =>
    intro hp
    rw [designatorLoopT]
    simp only [t] at hk
    simp only [hk, if_false]
    refine Traced.Meets.andThen (findmemberT_meets h p name hp) ?_
    intro r hres _
    rw [findmemberT_result, hf] at hres
    injection hres with hres
    subst hres
    exact Traced.Meets.error _ _
  | case10 h p t hk name rest2 p2 hf ih =>
    intro hp
    rw [designatorLoopT]
    simp only [t] at hk
    simp only [hk, if_false]
    refine Traced.Meets.andThen (findmemberT_meets h p name hp) ?_
    rintro r hres ⟨r1, r2, -, -⟩
    rw [findmemberT_result, hf] at hres
    injection hres with hres
    subst hres
    refine Traced.Meets.weaken (ih r1) ?_
    rintro s ⟨s1, s2⟩
    exact ⟨s1, by rw [s2]; exact r2⟩
  | case11 rest h p t hk hne =>
    intro _
    rw [designatorLoopT]
    · simp only [t] at hk
      simp only [hk, if_false]
      exact Traced.Meets.error _ _
    · exact hne
  | case12 rest h p =>
    intro hp
    rw [designatorLoopT]
    exact Traced.Meets.ok ⟨hp, rfl⟩
  | case13 toks h p n1 n2 n3 =>
    intro _
    rw [designatorLoopT]
    · exact Traced.Meets.error _ _
    · exact n1
    · exact n2
    · exact n3

theorem designatorT_meets (h : Heap) (p : Initparser) (toks : List Token) (hp : CursorInv p) :
    (designatorT h p toks).Meets fun r => CursorInv r.2.1 := by
  unfold designatorT
  split
  · exact Traced.Meets.error _ _
  · rename_i c hc
    have hq : CursorInv { p with sub := c } := by
      refine ⟨?_, fun c2 hc2 => ?_⟩
      · show c < LEN_obj
        have := hp.1
        have := hp.2 c hc
        omega
      · show c2 ≤ c
        have : p.cur = some c2 := hc2
        rw [hc] at this
        injection this with this
        omega
    exact Traced.Meets.weaken
      (Traced.Meets.after (designatorLoopT_meets toks h _ hq) (good_single hq)) (fun r hr => hr.1)

theorem focusT_meets (h : Heap) (p : Initparser) (hp : CursorInv p) :
    (focusT h p).Meets fun r => CursorInv r.2 ∧ r.2.cur = p.cur ∧ r.2.sub = p.sub + 1 := by
  have key : ∀ (hh : Heap) (s : Option Sel) (t : TypeId) (off : Nat),
      ((subobjT hh (match s with | none => p | some s => setsel p s) t off).map
        (fun q => (hh, q))).Meets fun r => CursorInv r.2 ∧ r.2.cur = p.cur ∧ r.2.sub = p.sub + 1 := by
    intro hh s t off
    cases s with
    | none => exact Traced.Meets.map (subobjT_meets hh p t off hp) (fun q hq => hq)
    | some s => exact Traced.Meets.map (subobjT_meets hh (setsel p s) t off hp) (fun q hq => hq)
  simp only [focusT]
  cases hk : (h (p.obj p.sub).type).kind <;> simp only [hk]
  case TYPEARRAY => exact key _ (some _) _ _
  case TYPESTRUCT =>
    cases hm : (h (p.obj p.sub).type).members with
    | nil => exact Traced.Meets.error _ _
    | cons m ms => exact key _ (some (Sel.mem (m :: ms))) _ _
  case TYPEUNION =>
    cases hm : (h (p.obj p.sub).type).members with
    | nil => exact Traced.Meets.error _ _
    | cons m ms => exact key _ (some (Sel.mem (m :: ms))) _ _
  all_goals exact key _ none _ _

theorem advanceStepT_meets (h : Heap) (p : Initparser) (hp : CursorInv p) :
    (advanceStepT h p).Meets fun r =>
      CursorInv r.2.1 ∧ r.2.1.cur = p.cur ∧ (r.2.2 = false → r.2.1.sub = p.sub) := by
  have key : ∀ (hh : Heap) (s : Sel) (t : TypeId) (off : Nat),
      ((subobjT hh (setsel p s) t off).map (fun q => (hh, q, true))).Meets fun r =>
        CursorInv r.2.1 ∧ r.2.1.cur = p.cur ∧ (r.2.2 = false → r.2.1.sub = p.sub) := by
    intro hh s t off
    refine Traced.Meets.map (subobjT_meets hh (setsel p s) t off hp) ?_
    rintro q ⟨q1, q2, -⟩
    exact ⟨q1, q2, fun hc => by cases hc⟩
  have stay : ∀ (hh : Heap) (s : Sel),
      Traced.Meets { events := [], result := .ok (hh, setsel p s, false) } fun r =>
        CursorInv r.2.1 ∧ r.2.1.cur = p.cur ∧ (r.2.2 = false → r.2.1.sub = p.sub) :=
    fun hh s => Traced.Meets.ok ⟨hp, rfl, fun _ => rfl⟩
  simp only [advanceStepT]
  cases hk : (h (p.obj p.sub).type).kind <;> simp only [hk]
  case TYPEARRAY =>
    cases hs : (p.obj p.sub).sel <;> simp only [hs, ite_updatearray]
    case idx i =>
      split
      · exact key _ _ _ _
      · exact stay _ _
    all_goals exact Traced.Meets.error _ _
  case TYPESTRUCT =>
    cases hs : (p.obj p.sub).sel with
    | mem ms =>
      cases ms with
      | nil => exact Traced.Meets.error _ _
      | cons m ms =>
        cases ms with
        | nil => exact stay _ _
        | cons m2 ms => exact key _ _ _ _
    | _ => exact Traced.Meets.error _ _
  all_goals exact Traced.Meets.ok ⟨hp, rfl, fun _ => rfl⟩

theorem advanceLoopT_meets (c : Nat) (s : Nat) :
    ∀ (h : Heap) (p : Initparser), p.cur = some c → c < s → s < LEN_obj →
      (advanceLoopT h p s).Meets fun r => CursorInv r.2 := by
  induction s with
  | zero => intro h p _ hc; omega
  | succ s ih =>
    intro h p hcur hc hs
    rw [advanceLoopT]
    have hq : CursorInv { p with sub := s } := by
      refine ⟨by show s < LEN_obj; omega, fun c2 hc2 => ?_⟩
      show c2 ≤ s
      have : p.cur = some c2 := hc2
      rw [hcur] at this
      injection this with this
      omega
    refine Traced.Meets.after ?_ ?_
    · refine Traced.Meets.andThen (advanceStepT_meets h _ hq) ?_
      rintro ⟨h1, p1, b⟩ - ⟨r1, r2, r3⟩
      cases b with
      | true => exact Traced.Meets.ok r1
      | false =>
        simp only at r1 r2 r3 ⊢
        have hcur1 : p1.cur = some c := by rw [r2]; exact hcur
        split
        · exact Traced.Meets.error _ _
        · rename_i hne
          rw [hcur1] at hne
          have hlt : c < s := by
            have : c ≠ s := fun hcs => hne (by rw [hcs])
            omega
          exact ih h1 p1 hcur1 hlt (by omega)
    · intro e he
      simp only [List.mem_cons, List.mem_singleton, List.not_mem_nil, or_false] at he
      rcases he with rfl | rfl
      · refine ⟨⟨?_, c, hcur, hc⟩, rfl⟩
        show s + 1 ≤ 31
        simp only [LEN_obj] at hs
        omega
      · exact ⟨good_moved hq, rfl⟩

theorem advanceT_meets (h : Heap) (p : Initparser) (c : Nat) (hp : CursorInv p)
    (hcur : p.cur = some c) (hne : p.sub ≠ c) :
    (advanceT h p).Meets fun r => CursorInv r.2 := by
  have := hp.2 c hcur
  exact advanceLoopT_meets c p.sub h p hcur (by omega) hp.1

theorem matchLoopT_meets (env : Env) (n : Nat) :
    ∀ (h : Heap) (p : Initparser) (e : Expr), CursorInv p →
      (matchLoopT env n h p e).Meets fun r => CursorInv r.2.1 := by
  induction n with
  | zero => intro h p e _; exact Traced.Meets.error _ _
  | succ n ih =>
    intro h p e hp
    rw [matchLoopT]
    cases hm : matchexpr env h (p.obj p.sub).type e with
    | error e => exact Traced.Meets.error _ _
    | ok r =>
      cases r with
      | some r => exact Traced.Meets.ok hp
      | none =>
        refine Traced.Meets.andThen (focusT_meets h p hp) ?_
        rintro r - ⟨r1, -, -⟩
        exact ih _ _ _ r1

theorem popcurT_meets (p : Initparser) (hp : p.sub < LEN_obj) (c : Nat) (hc : c ≤ p.sub) :
    (popcurT p c).Meets fun c2 => ∀ c3, c2 = some c3 → c3 < c := by
  induction c with
  | zero =>
    rw [popcurT]
    have hq : CursorInv { p with cur := none } := ⟨hp, fun c hc => by cases hc⟩
    refine ⟨fun e he => (good_single hq e he).1, fun q hq2 => ?_, fun a ha => ?_⟩
    · simp at hq2
    · simp only [Except.ok.injEq] at ha
      subst ha
      intro c3 hc3
      cases hc3
  | succ c ih =>
    rw [popcurT]
    have hq : CursorInv { p with cur := some c } := by
      refine ⟨hp, fun c2 hc2 => ?_⟩
      have : some c = some c2 := hc2
      injection this with this
      show c2 ≤ p.sub
      omega
    split
    · refine ⟨fun e he => (good_single hq e he).1, fun q hq2 => ?_, fun a ha => ?_⟩
      · simp at hq2
      · simp only [Except.ok.injEq] at ha
        subst ha
        intro c3 hc3
        injection hc3 with hc3
        omega
    · refine Traced.Meets.weaken (Traced.Meets.after (ih (by omega)) (good_single hq)) ?_
      intro c2 h2 c3 hc3
      have := h2 c3 hc3
      omega

theorem popanchorT_meets (p : Initparser) (c : Nat) (hp : CursorInv p) (hc : p.cur = some c) :
    (popanchorT p c).Meets fun q => CursorInv q := by
  unfold popanchorT
  have hcs := hp.2 c hc
  have hlt : c < LEN_obj := Nat.lt_of_le_of_lt hcs hp.1
  have hq : CursorInv { p with sub := c } := by
    refine ⟨hlt, fun c2 hc2 => ?_⟩
    have : p.cur = some c2 := hc2
    rw [hc] at this
    injection this with this
    show c2 ≤ c
    omega
  refine Traced.Meets.after ?_ (good_single hq)
  refine Traced.Meets.map (popcurT_meets { p with sub := c } hlt c (le_refl _)) ?_
  intro c2 h2
  refine ⟨hlt, fun c3 hc3 => ?_⟩
  have := h2 c3 hc3
  show c3 ≤ c
  omega

theorem closeLoopT_meets (toks : List Token) (h : Heap) (p : Initparser) :
    CursorInv p → (closeLoopT toks h p).Meets fun cl =>
      ∀ h3 p3 toks3, cl = Closed.brk h3 p3 toks3 → CursorInv p3 := by
  induction toks, h, p using closeLoopT.induct with
  | case1 rest h p hc =>
    intro _
    unfold closeLoopT
    simp only [hc]
    exact Traced.Meets.ok (fun _ _ _ hcl => by cases hcl)
  | case2 rest h p c hc ih =>
    intro hp
    rw [closeLoopT]
    simp only [hc]
    refine Traced.Meets.andThen (popanchorT_meets p c hp hc) ?_
    intro q _ hq
    exact ih q hq
  | case3 rest h p hne hc =>
    intro _
    rw [closeLoopT]
    · simp only [hc]
      exact Traced.Meets.ok (fun _ _ _ hcl => by cases hcl)
    · exact hne
  | case4 rest h p hne c hc =>
    intro hp
    rw [closeLoopT]
    · simp only [hc]
      refine Traced.Meets.ok (fun h3 p3 toks3 hcl => ?_)
      injection hcl with _ hcl _
      rw [← hcl]
      exact hp
    · exact hne
  | case5 rest h p hc =>
    intro _
    rw [closeLoopT]
    simp only [hc]
    exact Traced.Meets.ok (fun _ _ _ hcl => by cases hcl)
  | case6 rest h p c hc ih =>
    intro hp
    rw [closeLoopT]
    simp only [hc]
    refine Traced.Meets.andThen (popanchorT_meets p c hp hc) ?_
    intro q _ hq
    exact ih q hq
  | case7 toks h p n1 n2 n3 hc =>
    intro _
    rw [closeLoopT]
    · simp only [hc]
      exact Traced.Meets.ok (fun _ _ _ hcl => by cases hcl)
    · exact n1
    · exact n2
    · exact n3
  | case8 toks h p n1 n2 n3 c hc =>
    intro _
    rw [closeLoopT]
    · simp only [hc]
      exact Traced.Meets.error _ _
    · exact n1
    · exact n2
    · exact n3

theorem repositionT_meets (h : Heap) (p : Initparser) (toks : List Token) (hp : CursorInv p) :
    (repositionT h p toks).Meets fun r => CursorInv r.2.1 := by
  unfold repositionT
  split
  · exact Traced.Meets.ok hp
  · rename_i c hc
    split
    · exact designatorT_meets h p _ hp
    · exact designatorT_meets h p _ hp
    · split
      · rename_i hne
        exact Traced.Meets.map (advanceT_meets h p c hp hc hne) (fun q hq => hq)
      · exact Traced.Meets.map (focusT_meets h p hp) (fun q hq => hq.1)

theorem parseinitLoopT_meets (env : Env) (n : Nat) :
    ∀ (h : Heap) (p : Initparser) (toks : List Token) (init : List Init), CursorInv p →
      (parseinitLoopT env n h p toks init).Meets fun _ => True := by
  induction n with
  | zero => intro h p toks init _; exact Traced.Meets.error _ _
  | succ n ih =>
    intro h p toks init hp
    rw [parseinitLoopT]
    refine Traced.Meets.andThen (repositionT_meets h p toks hp) ?_
    rintro ⟨h1, p1, toks1⟩ - r1
    simp only at r1 ⊢
    split
    · split
      · exact Traced.Meets.error _ _
      · have hq : CursorInv (anchored p1) :=
          ⟨r1.1, fun c hc => by
            have : some p1.sub = some c := hc
            injection this with this
            show c ≤ p1.sub
            omega⟩
        exact Traced.Meets.after (ih _ _ _ _ hq) (good_single hq)
    · cases ha : assignexpr toks1 with
      | error e => exact Traced.Meets.error _ _
      | ok r2 =>
        obtain ⟨expr, toks2⟩ := r2
        simp only []
        refine Traced.Meets.andThen (matchLoopT_meets env LEN_obj h1 p1 expr r1) ?_
        rintro ⟨h2, p2, expr2⟩ - r2
        simp only at r2 ⊢
        refine Traced.Meets.andThen (closeLoopT_meets toks2 h2 p2 r2) ?_
        intro cl _ hcl
        cases cl with
        | ret h3 toks3 => exact Traced.Meets.ok trivial
        | brk h3 p3 toks3 => exact ih _ _ _ _ (hcl _ _ _ rfl)

theorem parseinitT_meets (env : Env) (h : Heap) (t : TypeId) (toks : List Token) :
    (parseinitT env h t toks).Meets fun _ => True := by
  unfold parseinitT
  have hq : CursorInv (initial (typeunqual h t)) :=
    ⟨by show 0 < LEN_obj; decide, fun c hc => by cases hc⟩
  refine Traced.Meets.after ?_ (good_single hq)
  split
  · exact Traced.Meets.error _ _
  · exact parseinitLoopT_meets env _ _ _ _ _ hq

end Trace

section TraceFacts

open TypeKind Token Expr

theorem cursorInv_iff (p : Initparser) :
    CursorInv p ↔ (p.sub ≤ 31 ∧ ∀ c, p.cur = some c → c ≤ p.sub) := by
  unfold CursorInv
  simp only [LEN_obj]
  constructor
  · rintro ⟨a, b⟩; exact ⟨by omega, b⟩
  · rintro ⟨a, b⟩; exact ⟨by omega, b⟩

theorem initial_logged (env : Env) (h : Heap) (t : TypeId) (toks : List Token) :
    Event.moved (initial (typeunqual h t)) ∈ (parseinitT env h t toks).events := by
  unfold parseinitT
  simp only [Traced.after, List.singleton_append, List.mem_cons, true_or]

theorem overflow_logged {es : List Event} {c : Option Nat} {s : Nat}
    (h : (es.any fun e => e.isOverflow && (e.state.cur == c && e.state.sub == s)) = true) :
    ∃ p, Event.overflow p ∈ es ∧ p.cur = c ∧ p.sub = s := by
  rw [List.any_eq_true] at h
  obtain ⟨e, he, hp⟩ := h
  simp only [Bool.and_eq_true, beq_iff_eq] at hp
  cases e with
  | overflow p => exact ⟨p, he, hp.2.1, hp.2.2⟩
  | moved p => simp [Event.isOverflow] at hp
  | lowering p => simp [Event.isOverflow] at hp

/-- The log of `int a[3] = {1, 2}`: the start, `{`, `focus` on the first
element, `advance` to the second (down to the array, then up again), and `}`
(`p.sub = p.cur`, then `p.cur = NULL`). -/
theorem log_sample :
    (parseinitT envCast heapEx 6 toksPair).events.map
        (fun e => (e.kind, e.state.cur, e.state.sub)) =
      [(EventKind.moved, none, 0), (EventKind.moved, some 0, 0), (EventKind.moved, some 0, 1),
        (EventKind.lowering, some 0, 1), (EventKind.moved, some 0, 0),
        (EventKind.moved, some 0, 1), (EventKind.moved, some 0, 0), (EventKind.moved, none, 0)] := by
  decide!

theorem run_toksOne :
    ((parseinitT envCast heapNest 0 toksOne).events.any fun e =>
      e.isOverflow && (e.state.cur == some 0 && e.state.sub == 32)) = true := by
  decide!

theorem run_toksOne_error :
    parseinit envCast heapNest 0 toksOne = .error Error.tooManyDesignators := by
  rw [← parseinitT_result]
  exact (parseinitT_meets envCast heapNest 0 toksOne).2.1 _ (overflow_logged run_toksOne).choose_spec.1

end TraceFacts

/-! ### The log follows the cursor -/

section Tracking

open TypeKind Token Expr

theorem Traced.Tracks.seq {α β : Type} {x : Traced α} {f : α → Traced β}
    {c : Option Nat × Nat} {st1 : α → Initparser} {st2 : β → Initparser} (hx : x.Tracks c st1)
    (hf : ∀ a, x.result = .ok a → (f a).Tracks (cursorOf (st1 a)) st2) :
    (x.andThen f).Tracks c st2 := by
  intro b hb
  cases hr : x.result with
  | error e => simp [Traced.andThen, hr] at hb
  | ok a =>
    simp only [Traced.andThen, hr] at hb ⊢
    rw [hf a hr b hb, hx a hr]
    simp only [lastCursor, List.foldl_append]

theorem Traced.Tracks.image {α β : Type} {x : Traced α} {f : α → β} {c : Option Nat × Nat}
    {st1 : α → Initparser} {st2 : β → Initparser} (hx : x.Tracks c st1)
    (hf : ∀ a, cursorOf (st2 (f a)) = cursorOf (st1 a)) : (x.map f).Tracks c st2 := by
  intro b hb
  simp only [Traced.map] at hb ⊢
  cases hr : x.result with
  | error e => simp [hr, Except.map] at hb
  | ok a =>
    simp only [hr, Except.map, Except.ok.injEq] at hb
    subst hb
    rw [hf a]
    exact hx a hr

theorem Traced.Tracks.later {α : Type} {x : Traced α} {es : List Event} {c : Option Nat × Nat}
    {st : α → Initparser} (hx : x.Tracks (lastCursor c es) st) : (x.after es).Tracks c st := by
  intro a ha
  simp only [Traced.after] at ha ⊢
  rw [hx a ha]
  simp only [lastCursor, List.foldl_append]

theorem Traced.Tracks.pure {α : Type} {a : α} {c : Option Nat × Nat} {st : α → Initparser}
    (ha : cursorOf (st a) = c) : Traced.Tracks { events := [], result := .ok a } c st := by
  intro b hb
  simp only [Except.ok.injEq] at hb
  subst hb
  exact ha

theorem Traced.Tracks.fail {α : Type} (e : Error) (c : Option Nat × Nat) (st : α → Initparser) :
    Traced.Tracks { events := [], result := (.error e : Except Error α) } c st :=
  fun b hb => (by cases hb)

theorem subobjT_tracks (h : Heap) (p : Initparser) (t : TypeId) (off : Nat)
    (c : Option Nat × Nat) : (subobjT h p t off).Tracks c id := by
  unfold subobjT
  split
  · exact fun b hb => (by cases hb)
  · intro b hb
    simp only [Except.ok.injEq] at hb
    subst hb
    rfl

theorem findmemberLoopT_tracks (h : Heap) (name : String)
    (self : Initparser → Traced (Bool × Initparser))
    (hself : ∀ p1, (self p1).Tracks (cursorOf p1) (fun r => r.2)) :
    ∀ (ms : List Member) (p : Initparser),
      (findmemberLoopT self h name ms p).Tracks (cursorOf p) (fun r => r.2) := by
  intro ms
  induction ms with
  | nil => intro p; exact Traced.Tracks.pure rfl
  | cons m ms ih =>
    intro p
    rw [findmemberLoopT]
    cases hn : m.name with
    | some n =>
      simp only []
      split
      · exact Traced.Tracks.image (subobjT_tracks h _ m.type m.offset _) (fun _ => rfl)
      · exact ih p
    | none =>
      simp only []
      refine Traced.Tracks.seq (subobjT_tracks h p m.type m.offset _) ?_
      intro p1 _
      refine Traced.Tracks.seq (hself p1) ?_
      rintro ⟨b, p2⟩ -
      cases b with
      | true => exact Traced.Tracks.pure rfl
      | false => exact Traced.Tracks.later (ih _)

theorem findmemberDepthT_tracks (h : Heap) (name : String) :
    ∀ (f : Nat) (p : Initparser),
      (findmemberDepthT h name f p).Tracks (cursorOf p) (fun r => r.2) := by
  intro f
  induction f with
  | zero => intro p; exact Traced.Tracks.fail _ _ _
  | succ f ih =>
    intro p
    rw [findmemberDepthT]
    exact findmemberLoopT_tracks h name _ ih _ p

theorem findmemberT_tracks (h : Heap) (p : Initparser) (name : String) :
    (findmemberT h p name).Tracks (cursorOf p) (fun r => r.2) :=
  findmemberDepthT_tracks h name _ p

theorem designatorLoopT_tracks (toks : List Token) (h : Heap) (p : Initparser) :
    (designatorLoopT toks h p).Tracks (cursorOf p) (fun r => r.2.1) := by
  induction toks, h, p using designatorLoop.induct with
  | case1 rest h p t hk =>
    unfold designatorLoopT
    simp only [t] at hk
    rw [if_pos hk]
    exact Traced.Tracks.fail _ _ _
  | case2 h p t hk ty i rest2 hbig =>
    rw [designatorLoopT]
    simp only [t] at hk hbig
    simp only [hk, hbig, if_true, if_false]
    exact Traced.Tracks.fail _ _ _
  | case3 h p t hk ty i p1 hbig h1 rest3 e hs =>
    rw [designatorLoopT]
    simp only [t] at hk hbig
    simp only [t, h1, p1] at hs
    simp only [hk, hbig, if_false]
    refine Traced.Tracks.seq (subobjT_tracks _ _ _ _ _) ?_
    intro p2 hres
    rw [subobjT_result, hs] at hres
    cases hres
  | case4 h p t hk ty i p1 hbig h1 rest3 p2 hs ih =>
    rw [designatorLoopT]
    simp only [t] at hk hbig
    simp only [t, h1, p1] at hs ih
    simp only [hk, hbig, if_false]
    refine Traced.Tracks.seq (subobjT_tracks _ _ _ _ _) ?_
    intro q hres
    rw [subobjT_result, hs] at hres
    injection hres with hres
    subst hres
    exact ih
  | case5 h p t hk ty i rest2 hbig hne =>
    rw [designatorLoopT]
    simp only [t] at hk hbig
    simp only [hk, hbig, if_false]
    exact Traced.Tracks.fail _ _ _
  | case6 rest h p t hk hne =>
    rw [designatorLoopT]
    · simp only [t] at hk
      simp only [hk, if_false]
      exact Traced.Tracks.fail _ _ _
    · exact hne
  | case7 rest h p t hk =>
    unfold designatorLoopT
    simp only [t] at hk
    rw [if_pos hk]
    exact Traced.Tracks.fail _ _ _
  | case8 h p t hk name rest2 e hf =>
    rw [designatorLoopT]
    simp only [t] at hk
    simp only [hk, if_false]
    refine Traced.Tracks.seq (findmemberT_tracks h p name) ?_
    intro r hres
    rw [findmemberT_result, hf] at hres
    cases hres
  | case9 h p t hk name rest2 q hf =>
    rw [designatorLoopT]
    simp only [t] at hk
    simp only [hk, if_false]
    refine Traced.Tracks.seq (findmemberT_tracks h p name) ?_
    intro r hres
    rw [findmemberT_result, hf] at hres
    injection hres with hres
    subst hres
    exact Traced.Tracks.fail _ _ _
  | case10 h p t hk name rest2 p2 hf ih =>
    rw [designatorLoopT]
    simp only [t] at hk
    simp only [hk, if_false]
    refine Traced.Tracks.seq (findmemberT_tracks h p name) ?_
    intro r hres
    rw [findmemberT_result, hf] at hres
    injection hres with hres
    subst hres
    exact ih
  | case11 rest h p t hk hne =>
    rw [designatorLoopT]
    · simp only [t] at hk
      simp only [hk, if_false]
      exact Traced.Tracks.fail _ _ _
    · exact hne
  | case12 rest h p =>
    rw [designatorLoopT]
    exact Traced.Tracks.pure rfl
  | case13 toks h p n1 n2 n3 =>
    rw [designatorLoopT]
    · exact Traced.Tracks.fail _ _ _
    · exact n1
    · exact n2
    · exact n3

theorem designatorT_tracks (h : Heap) (p : Initparser) (toks : List Token) :
    (designatorT h p toks).Tracks (cursorOf p) (fun r => r.2.1) := by
  unfold designatorT
  split
  · exact Traced.Tracks.fail _ _ _
  · exact Traced.Tracks.later (designatorLoopT_tracks toks h _)

theorem focusT_tracks (h : Heap) (p : Initparser) :
    (focusT h p).Tracks (cursorOf p) (fun r => r.2) := by
  have key : ∀ (hh : Heap) (q : Initparser) (t : TypeId) (off : Nat),
      ((subobjT hh q t off).map (fun q => (hh, q))).Tracks (cursorOf p) (fun r => r.2) :=
    fun hh q t off => Traced.Tracks.image (subobjT_tracks hh q t off _) (fun _ => rfl)
  simp only [focusT]
  cases hk : (h (p.obj p.sub).type).kind <;> simp only [hk]
  case TYPESTRUCT =>
    cases hm : (h (p.obj p.sub).type).members with
    | nil => exact Traced.Tracks.fail _ _ _
    | cons m ms => exact key _ _ _ _
  case TYPEUNION =>
    cases hm : (h (p.obj p.sub).type).members with
    | nil => exact Traced.Tracks.fail _ _ _
    | cons m ms => exact key _ _ _ _
  all_goals exact key _ _ _ _

theorem advanceStepT_tracks (h : Heap) (p : Initparser) :
    (advanceStepT h p).Tracks (cursorOf p) (fun r => r.2.1) := by
  have key : ∀ (hh : Heap) (q : Initparser) (t : TypeId) (off : Nat),
      ((subobjT hh q t off).map (fun q => (hh, q, true))).Tracks (cursorOf p) (fun r => r.2.1) :=
    fun hh q t off => Traced.Tracks.image (subobjT_tracks hh q t off _) (fun _ => rfl)
  have stay : ∀ (hh : Heap) (s : Sel),
      Traced.Tracks { events := [], result := .ok (hh, setsel p s, false) } (cursorOf p)
        (fun r => r.2.1) :=
    fun hh s => Traced.Tracks.pure rfl
  simp only [advanceStepT]
  cases hk : (h (p.obj p.sub).type).kind <;> simp only [hk]
  case TYPEARRAY =>
    cases hs : (p.obj p.sub).sel <;> simp only [hs, ite_updatearray]
    case idx i =>
      split
      · exact key _ _ _ _
      · exact stay _ _
    all_goals exact Traced.Tracks.fail _ _ _
  case TYPESTRUCT =>
    cases hs : (p.obj p.sub).sel with
    | mem ms =>
      cases ms with
      | nil => exact Traced.Tracks.fail _ _ _
      | cons m ms =>
        cases ms with
        | nil => exact stay _ _
        | cons m2 ms => exact key _ _ _ _
    | _ => exact Traced.Tracks.fail _ _ _
  all_goals exact Traced.Tracks.pure rfl

theorem advanceLoopT_tracks (s : Nat) :
    ∀ (h : Heap) (p : Initparser) (c : Option Nat × Nat),
      (advanceLoopT h p s).Tracks c (fun r => r.2) := by
  induction s with
  | zero => intro h p c; exact fun b hb => (by cases hb)
  | succ s ih =>
    intro h p c
    rw [advanceLoopT]
    refine Traced.Tracks.later ?_
    refine Traced.Tracks.seq (advanceStepT_tracks h _) ?_
    rintro ⟨h1, p1, b⟩ -
    cases b with
    | true => exact Traced.Tracks.pure rfl
    | false =>
      simp only []
      split
      · exact Traced.Tracks.fail _ _ _
      · exact ih h1 p1 _

theorem advanceT_tracks (h : Heap) (p : Initparser) :
    (advanceT h p).Tracks (cursorOf p) (fun r => r.2) :=
  advanceLoopT_tracks p.sub h p _

theorem matchLoopT_tracks (env : Env) (n : Nat) :
    ∀ (h : Heap) (p : Initparser) (e : Expr),
      (matchLoopT env n h p e).Tracks (cursorOf p) (fun r => r.2.1) := by
  induction n with
  | zero => intro h p e; exact Traced.Tracks.fail _ _ _
  | succ n ih =>
    intro h p e
    rw [matchLoopT]
    cases hm : matchexpr env h (p.obj p.sub).type e with
    | error e => exact Traced.Tracks.fail _ _ _
    | ok r =>
      cases r with
      | some r => exact Traced.Tracks.pure rfl
      | none =>
        refine Traced.Tracks.seq (focusT_tracks h p) ?_
        intro r _
        exact ih _ _ _

theorem popcurT_tracks (p : Initparser) (c : Nat) (c0 : Option Nat × Nat) :
    (popcurT p c).Tracks c0 (fun c2 => { p with cur := c2 }) := by
  induction c generalizing c0 with
  | zero =>
    rw [popcurT]
    intro b hb
    simp only [Except.ok.injEq] at hb
    subst hb
    rfl
  | succ c ih =>
    rw [popcurT]
    split
    · intro b hb
      simp only [Except.ok.injEq] at hb
      subst hb
      rfl
    · exact Traced.Tracks.later (ih _)

theorem popanchorT_tracks (p : Initparser) (c : Nat) (c0 : Option Nat × Nat) :
    (popanchorT p c).Tracks c0 id := by
  unfold popanchorT
  refine Traced.Tracks.later ?_
  exact Traced.Tracks.image (popcurT_tracks { p with sub := c } c _) (fun _ => rfl)

theorem closeLoopT_tracks_step (p : Initparser) (rest : List Token) (hf : Heap) (c : Nat)
    (ih : ∀ h3 q toks3,
      (closeLoopT rest hf (popanchor p c)).result = .ok (Closed.brk h3 q toks3) →
      cursorOf q = lastCursor (cursorOf (popanchor p c))
        (closeLoopT rest hf (popanchor p c)).events) :
    ∀ h3 q toks3,
      ((popanchorT p c).andThen fun q => closeLoopT rest hf q).result =
        .ok (Closed.brk h3 q toks3) →
      cursorOf q = lastCursor (cursorOf p)
        ((popanchorT p c).andThen fun q => closeLoopT rest hf q).events := by
  intro h3 q toks3 hq
  simp only [Traced.andThen, popanchorT_result] at hq ⊢
  rw [ih h3 q toks3 hq]
  have := popanchorT_tracks p c (cursorOf p) _ (popanchorT_result p c)
  simp only [id] at this
  rw [this]
  simp only [lastCursor, List.foldl_append]

theorem closeLoopT_tracks (toks : List Token) (h : Heap) (p : Initparser) :
    ∀ h3 q toks3, (closeLoopT toks h p).result = .ok (Closed.brk h3 q toks3) →
      cursorOf q = lastCursor (cursorOf p) (closeLoopT toks h p).events := by
  induction toks, h, p using closeLoopT.induct with
  | case1 rest h p hc =>
    intro h3 q toks3 hq
    unfold closeLoopT at hq
    simp [hc] at hq
  | case2 rest h p c hc ih =>
    rw [closeLoopT]
    simp only [hc]
    exact closeLoopT_tracks_step p rest _ c (ih (popanchor p c))
  | case3 rest h p hne hc =>
    intro h3 q toks3 hq
    rw [closeLoopT] at hq
    · simp [hc] at hq
    · exact hne
  | case4 rest h p hne c hc =>
    intro h3 q toks3 hq
    rw [closeLoopT] at hq ⊢
    · simp only [hc, Except.ok.injEq, Closed.brk.injEq] at hq ⊢
      obtain ⟨-, rfl, -⟩ := hq
      rfl
    · exact hne
    · exact hne
  | case5 rest h p hc =>
    intro h3 q toks3 hq
    rw [closeLoopT] at hq
    simp [hc] at hq
  | case6 rest h p c hc ih =>
    rw [closeLoopT]
    simp only [hc]
    exact closeLoopT_tracks_step p rest _ c (ih (popanchor p c))
  | case7 toks h p n1 n2 n3 hc =>
    intro h3 q toks3 hq
    rw [closeLoopT] at hq
    · simp [hc] at hq
    · exact n1
    · exact n2
    · exact n3
  | case8 toks h p n1 n2 n3 c hc =>
    intro h3 q toks3 hq
    rw [closeLoopT] at hq
    · simp [hc] at hq
    · exact n1
    · exact n2
    · exact n3

theorem repositionT_tracks (h : Heap) (p : Initparser) (toks : List Token) :
    (repositionT h p toks).Tracks (cursorOf p) (fun r => r.2.1) := by
  unfold repositionT
  split
  · exact Traced.Tracks.pure rfl
  · split
    · exact designatorT_tracks h p _
    · exact designatorT_tracks h p _
    · split
      · exact Traced.Tracks.image (advanceT_tracks h p) (fun _ => rfl)
      · exact Traced.Tracks.image (focusT_tracks h p) (fun _ => rfl)

end Tracking
/-! ## What the operations leave unchanged in slot 0, and the freezing of the target array -/

section Frames

open TypeKind Token Expr

theorem Keeps.same (p : Initparser) : Keeps p p := ⟨rfl, rfl⟩

theorem Keeps.step {p q r : Initparser} (h1 : Keeps p q) (h2 : Keeps q r) : Keeps p r :=
  ⟨h2.1.trans h1.1, h2.2.trans h1.2⟩

theorem SameKinds.equal (h : Heap) : SameKinds h h := fun _ => rfl

theorem SameKinds.chain {h h1 h2 : Heap} (a : SameKinds h h1) (b : SameKinds h1 h2) :
    SameKinds h h2 := fun x => (b x).trans (a x)

theorem updatearray_sameKinds (h : Heap) (t : TypeId) (i : Nat) :
    SameKinds h (updatearray h t i) := fun x => updatearray_kind h t i x

theorem ite_updatearray_sameKinds (h : Heap) (t : TypeId) (i : Nat) (c : Prop) [Decidable c] :
    SameKinds h (if c then updatearray h t i else h) := by
  split
  · exact updatearray_sameKinds h t i
  · exact SameKinds.equal h

theorem freeze_sameKinds (h : Heap) (t : TypeId) : SameKinds h (freeze h t) := by
  intro x
  unfold freeze
  split
  · by_cases hx : x = t
    · subst hx; simp
    · simp [Function.update_noteq hx]
  · rfl

theorem pushed_keeps (h : Heap) (p : Initparser) (t : TypeId) (off : Nat) :
    Keeps p (pushed h p t off) := by
  unfold Keeps
  rw [pushed_obj, if_neg (by omega)]
  exact ⟨rfl, rfl⟩

theorem setsel_keeps (p : Initparser) (s : Sel) : Keeps p (setsel p s) := by
  unfold Keeps
  rw [setsel_obj]
  split
  · rename_i h0; rw [← h0]; exact ⟨rfl, rfl⟩
  · exact ⟨rfl, rfl⟩

theorem subobj_keeps {h : Heap} {p q : Initparser} {t : TypeId} {off : Nat}
    (hs : subobj h p t off = .ok q) : Keeps p q := by
  rw [subobj_eq] at hs
  split at hs
  · cases hs
  · injection hs with hs
    subst hs
    exact pushed_keeps h p t off

theorem findmemberLoop_keeps (h : Heap) (name : String)
    (self : Initparser → Except Error (Bool × Initparser))
    (hself : ∀ p1 b q, self p1 = .ok (b, q) → Keeps p1 q) :
    ∀ (ms : List Member) (p : Initparser) (b : Bool) (q : Initparser),
      findmemberLoop self h name ms p = .ok (b, q) → Keeps p q := by
  intro ms
  induction ms with
  | nil =>
    intro p b q hq
    simp only [findmemberLoop, Except.ok.injEq, Prod.mk.injEq] at hq
    rw [← hq.2]
    exact Keeps.same p
  | cons m ms ih =>
    intro p b q hq
    rw [findmemberLoop] at hq
    cases hn : m.name with
    | some n =>
      simp only [hn] at hq
      by_cases hnn : n = name
      · simp only [hnn, if_true, subobj_eq] at hq
        split at hq
        · simp [Except.map] at hq
        · simp only [Except.map, Except.ok.injEq, Prod.mk.injEq] at hq
          rw [← hq.2]
          exact (setsel_keeps p _).step (pushed_keeps _ _ _ _)
      · simp only [hnn, if_false] at hq
        exact ih p b q hq
    | none =>
      simp only [hn] at hq
      by_cases hfull : p.sub + 1 = LEN_obj
      · simp [subobj_eq, hfull] at hq
      · rw [subobj_ok _ _ hfull] at hq
        cases hr : self (pushed h p m.type m.offset) with
        | error e => simp [hr] at hq
        | ok r =>
          obtain ⟨b1, q1⟩ := r
          have hc := (pushed_keeps h p m.type m.offset).step (hself _ _ _ hr)
          cases b1 with
          | true =>
            simp only [hr, Except.ok.injEq, Prod.mk.injEq] at hq
            rw [← hq.2]
            exact hc
          | false =>
            simp only [hr] at hq
            have := ih _ b q hq
            exact hc.step (Keeps.step ⟨rfl, rfl⟩ this)

theorem findmember_keeps {h : Heap} {p q : Initparser} {name : String} {b : Bool}
    (hf : findmember h p name = .ok (b, q)) : Keeps p q := by
  unfold findmember at hf
  have key : ∀ (f : Nat) (p1 : Initparser) (b : Bool) (q : Initparser),
      findmemberDepth h name f p1 = .ok (b, q) → Keeps p1 q := by
    intro f
    induction f with
    | zero => intro p1 b q hq; simp [findmemberDepth] at hq
    | succ f ih =>
      intro p1 b q hq
      rw [findmemberDepth_succ] at hq
      exact findmemberLoop_keeps h name _ ih _ p1 b q hq
  exact key _ p b q hf

theorem designatorLoop_keeps (toks : List Token) (h : Heap) (p : Initparser) :
    ∀ h2 q r, designatorLoop toks h p = .ok (h2, q, r) → Keeps p q ∧ SameKinds h h2 := by
  induction toks, h, p using designatorLoop.induct with
  | case1 rest h p t hk =>
    intro h2 q r hd
    unfold designatorLoop at hd
    simp only [t] at hk
    simp [hk] at hd
  | case2 h p t hk ty i rest2 hbig =>
    intro h2 q r hd
    rw [designatorLoop] at hd
    simp only [t] at hk hbig
    simp [hk, hbig] at hd
  | case3 h p t hk ty i p1 hbig h1 rest3 e hs =>
    intro h2 q r hd
    rw [designatorLoop] at hd
    simp only [t] at hk hbig
    simp only [t, h1, p1] at hs
    simp [hk, hbig, hs] at hd
  | case4 h p t hk ty i p1 hbig h1 rest3 p2 hs ih =>
    intro h2 q r hd
    rw [designatorLoop] at hd
    simp only [t] at hk hbig
    simp only [t, h1, p1] at hs ih
    simp only [hk, hbig, if_false, hs] at hd
    have hk2 := subobj_keeps hs
    obtain ⟨a, b⟩ := ih h2 q r hd
    exact ⟨((setsel_keeps p _).step hk2).step a,
      (ite_updatearray_sameKinds h _ _ _).chain b⟩
  | case5 h p t hk ty i rest2 hbig hne =>
    intro h2 q r hd
    rw [designatorLoop] at hd
    · simp only [t] at hk hbig
      simp [hk, hbig] at hd
  | case6 rest h p t hk hne =>
    intro h2 q r hd
    rw [designatorLoop] at hd
    · simp only [t] at hk
      simp [hk] at hd
    · exact hne
  | case7 rest h p t hk =>
    intro h2 q r hd
    unfold designatorLoop at hd
    simp only [t] at hk
    simp [hk] at hd
  | case8 h p t hk name rest2 e hf =>
    intro h2 q r hd
    rw [designatorLoop] at hd
    simp only [t] at hk
    simp [hk, hf] at hd
  | case9 h p t hk name rest2 q1 hf =>
    intro h2 q r hd
    rw [designatorLoop] at hd
    simp only [t] at hk
    simp [hk, hf] at hd
  | case10 h p t hk name rest2 p2 hf ih =>
    intro h2 q r hd
    rw [designatorLoop] at hd
    simp only [t] at hk
    simp only [hk, if_false, hf] at hd
    obtain ⟨a, b⟩ := ih h2 q r hd
    exact ⟨(findmember_keeps hf).step a, b⟩
  | case11 rest h p t hk hne =>
    intro h2 q r hd
    rw [designatorLoop] at hd
    · simp only [t] at hk
      simp [hk] at hd
    · exact hne
  | case12 rest h p =>
    intro h2 q r hd
    rw [designatorLoop_assign] at hd
    simp only [Except.ok.injEq, Prod.mk.injEq] at hd
    obtain ⟨rfl, rfl, -⟩ := hd
    exact ⟨Keeps.same _, SameKinds.equal _⟩
  | case13 toks h p n1 n2 n3 =>
    intro h2 q r hd
    rw [designatorLoop] at hd
    · simp at hd
    · exact n1
    · exact n2
    · exact n3

theorem focus_keeps {h h1 : Heap} {p q : Initparser} (hf : focus h p = .ok (h1, q)) :
    Keeps p q ∧ SameKinds h h1 := by
  have key : ∀ (hh : Heap) (pp : Initparser) (t : TypeId) (off : Nat),
      (subobj hh pp t off).map (fun q => (hh, q)) = .ok (h1, q) → Keeps pp q ∧ h1 = hh := by
    intro hh pp t off hq
    cases hs : subobj hh pp t off with
    | error e => simp [hs, Except.map] at hq
    | ok q1 =>
      simp only [hs, Except.map, Except.ok.injEq, Prod.mk.injEq] at hq
      obtain ⟨rfl, rfl⟩ := hq
      exact ⟨subobj_keeps hs, rfl⟩
  unfold focus at hf
  simp only [] at hf
  repeat' split at hf
  all_goals first
    | (have hh := key _ _ _ _ hf
       obtain ⟨k, e⟩ := hh
       subst e
       exact ⟨(setsel_keeps p _).step k, updatearray_sameKinds _ _ _⟩)
    | (have hh := key _ _ _ _ hf
       obtain ⟨k, e⟩ := hh
       subst e
       exact ⟨(setsel_keeps p _).step k, SameKinds.equal _⟩)
    | (have hh := key _ _ _ _ hf
       obtain ⟨k, e⟩ := hh
       subst e
       exact ⟨k, SameKinds.equal _⟩)
    | cases hf

theorem advanceStep_keeps {h h1 : Heap} {p q : Initparser} {b : Bool}
    (ha : advanceStep h p = .ok (h1, q, b)) : Keeps p q ∧ SameKinds h h1 := by
  have key : ∀ (hh : Heap) (pp : Initparser) (t : TypeId) (off : Nat),
      (subobj hh pp t off).map (fun q => (hh, q, true)) = .ok (h1, q, b) →
      Keeps pp q ∧ h1 = hh := by
    intro hh pp t off hq
    cases hs : subobj hh pp t off with
    | error e => simp [hs, Except.map] at hq
    | ok q1 =>
      simp only [hs, Except.map, Except.ok.injEq, Prod.mk.injEq] at hq
      obtain ⟨rfl, rfl, -⟩ := hq
      exact ⟨subobj_keeps hs, rfl⟩
  unfold advanceStep at ha
  simp only [] at ha
  repeat' split at ha
  all_goals first
    | (have hh := key _ _ _ _ ha
       obtain ⟨k, e⟩ := hh
       subst e
       exact ⟨(setsel_keeps p _).step k, updatearray_sameKinds _ _ _⟩)
    | (have hh := key _ _ _ _ ha
       obtain ⟨k, e⟩ := hh
       subst e
       exact ⟨(setsel_keeps p _).step k, SameKinds.equal _⟩)
    | (simp only [Except.ok.injEq, Prod.mk.injEq] at ha
       obtain ⟨rfl, rfl, -⟩ := ha
       exact ⟨setsel_keeps p _, updatearray_sameKinds _ _ _⟩)
    | (simp only [Except.ok.injEq, Prod.mk.injEq] at ha
       obtain ⟨rfl, rfl, -⟩ := ha
       exact ⟨setsel_keeps p _, SameKinds.equal _⟩)
    | (simp only [Except.ok.injEq, Prod.mk.injEq] at ha
       obtain ⟨rfl, rfl, -⟩ := ha
       exact ⟨Keeps.same _, SameKinds.equal _⟩)
    | cases ha

theorem advanceLoop_keeps (s : Nat) :
    ∀ (h : Heap) (p : Initparser) h1 q, advanceLoop h p s = .ok (h1, q) →
      Keeps p q ∧ SameKinds h h1 := by
  induction s with
  | zero => intro h p h1 q ha; simp [advanceLoop] at ha
  | succ s ih =>
    intro h p h1 q ha
    rw [advanceLoop] at ha
    cases hst : advanceStep h { p with sub := s } with
    | error e => simp [hst] at ha
    | ok r =>
      obtain ⟨h2, q2, b⟩ := r
      obtain ⟨k1, k2⟩ := advanceStep_keeps hst
      have k0 : Keeps p { p with sub := s } := ⟨rfl, rfl⟩
      cases b with
      | true =>
        simp only [hst, Except.ok.injEq, Prod.mk.injEq] at ha
        obtain ⟨rfl, rfl⟩ := ha
        exact ⟨k0.step k1, k2⟩
      | false =>
        simp only [hst] at ha
        split at ha
        · cases ha
        · obtain ⟨d1, d2⟩ := ih h2 q2 h1 q ha
          exact ⟨(k0.step k1).step d1, k2.chain d2⟩

theorem matchexpr_sameKinds {env : Env} {h h1 : Heap} {t : TypeId} {e e1 : Expr}
    (hm : matchexpr env h t e = .ok (some (h1, e1))) : SameKinds h h1 := by
  unfold matchexpr at hm
  repeat' split at hm
  all_goals first
    | (simp only [Except.ok.injEq, Option.some.injEq, Prod.mk.injEq] at hm
       obtain ⟨rfl, -⟩ := hm
       first
         | exact updatearray_sameKinds _ _ _
         | exact SameKinds.equal _)
    | cases hm

theorem matchLoop_keeps (env : Env) (n : Nat) :
    ∀ (h : Heap) (p : Initparser) (e : Expr) h2 q e2, matchLoop env n h p e = .ok (h2, q, e2) →
      Keeps p q ∧ SameKinds h h2 := by
  induction n with
  | zero => intro h p e h2 q e2 hm; simp [matchLoop] at hm
  | succ n ih =>
    intro h p e h2 q e2 hm
    rw [matchLoop] at hm
    split at hm
    · cases hm
    · rename_i h1 e1 hme
      simp only [Except.ok.injEq, Prod.mk.injEq] at hm
      obtain ⟨rfl, rfl, -⟩ := hm
      exact ⟨Keeps.same _, matchexpr_sameKinds hme⟩
    · split at hm
      · cases hm
      · rename_i h1 p1 hf
        obtain ⟨a, b⟩ := focus_keeps hf
        obtain ⟨c, d⟩ := ih _ _ _ _ _ _ hm
        exact ⟨a.step c, b.chain d⟩

theorem reposition_keeps {h h1 : Heap} {p p1 : Initparser} {toks toks1 : List Token}
    (hr : reposition h p toks = .ok (h1, p1, toks1)) :
    Keeps p p1 ∧ SameKinds h h1 ∧ p1.cur = p.cur := by
  unfold reposition at hr
  cases hc : p.cur with
  | none =>
    simp only [hc, Except.ok.injEq, Prod.mk.injEq] at hr
    obtain ⟨rfl, rfl, -⟩ := hr
    exact ⟨Keeps.same _, SameKinds.equal _, hc⟩
  | some c =>
    have hdes : designator h p toks = .ok (h1, p1, toks1) →
        Keeps p p1 ∧ SameKinds h h1 ∧ p1.cur = some c := by
      intro hd
      simp only [designator, hc] at hd
      obtain ⟨f1, -⟩ := designatorLoop_frame _ _ _ _ _ _ hd
      obtain ⟨g1, g2⟩ := designatorLoop_keeps _ _ _ _ _ _ hd
      exact ⟨Keeps.step ⟨rfl, rfl⟩ g1, g2, f1⟩
    simp only [hc] at hr
    split at hr
    · exact hdes hr
    · exact hdes hr
    · split at hr
      · cases ha : advance h p with
        | error e => simp [ha, Except.map] at hr
        | ok r =>
          obtain ⟨h2, q⟩ := r
          simp only [ha, Except.map, Except.ok.injEq, Prod.mk.injEq] at hr
          obtain ⟨rfl, rfl, -⟩ := hr
          obtain ⟨a1, -⟩ := advanceLoop_frame _ _ _ _ _ ha
          obtain ⟨b1, b2⟩ := advanceLoop_keeps _ _ _ _ _ ha
          exact ⟨b1, b2, a1.trans hc⟩
      · cases hf : focus h p with
        | error e => simp [hf, Except.map] at hr
        | ok r =>
          obtain ⟨h2, q⟩ := r
          simp only [hf, Except.map, Except.ok.injEq, Prod.mk.injEq] at hr
          obtain ⟨rfl, rfl, -⟩ := hr
          obtain ⟨b1, b2⟩ := focus_keeps hf
          exact ⟨b1, b2, (focus_sub hf).2.trans hc⟩

end Frames

section Freezing

open TypeKind Token Expr

theorem popcur_none (obj : Nat → Object) (c : Nat) :
    popcur obj c = none → ∀ k, k < c → (obj k).iscur = false := by
  induction c with
  | zero => intro _ k hk; omega
  | succ c ih =>
    intro hp k hk
    rw [popcur] at hp
    split at hp
    · cases hp
    · rename_i hfalse
      by_cases hkc : k = c
      · subst hkc; simpa using hfalse
      · exact ih hp k (by omega)

theorem closeLoop_frozen (t : TypeId) (toks : List Token) (h : Heap) (p : Initparser) :
    (p.obj 0).type = t → (p.obj 0).iscur = true → (h t).kind = TYPEARRAY →
    (p.cur = none → p.sub = 0) →
      (∀ h3 toks3, closeLoop toks h p = .ok (Closed.ret h3 toks3) →
        (h3 t).incomplete = false) ∧
      (∀ h3 p3 toks3, closeLoop toks h p = .ok (Closed.brk h3 p3 toks3) →
        (p3.obj 0).type = t ∧ (p3.obj 0).iscur = true ∧ (h3 t).kind = TYPEARRAY ∧
          p3.cur ≠ none) := by
  have hret : ∀ (h : Heap) (p : Initparser) (tk : List Token), (p.obj 0).type = t →
      (h t).kind = TYPEARRAY → p.sub = 0 →
      (∀ h3 toks3, Except.ok (Closed.ret (freeze h (p.obj p.sub).type) tk) =
          (.ok (Closed.ret h3 toks3) : Except Error Closed) → (h3 t).incomplete = false) ∧
      (∀ h3 p3 toks3, Except.ok (Closed.ret (freeze h (p.obj p.sub).type) tk) =
          (.ok (Closed.brk h3 p3 toks3) : Except Error Closed) →
        (p3.obj 0).type = t ∧ (p3.obj 0).iscur = true ∧ (h3 t).kind = TYPEARRAY ∧
          p3.cur ≠ none) := by
    intro h p tk hty hk hsub
    constructor
    · intro h3 toks3 he
      simp only [Except.ok.injEq, Closed.ret.injEq] at he
      obtain ⟨rfl, -⟩ := he
      rw [hsub, hty]
      exact (freeze_incomplete_array hk).1
    · intro h3 p3 toks3 he
      simp at he
  have hpop : ∀ (h : Heap) (p : Initparser) (c : Nat), (p.obj 0).type = t →
      (p.obj 0).iscur = true → (h t).kind = TYPEARRAY → p.cur = some c →
      ((popanchor p c).obj 0).type = t ∧ ((popanchor p c).obj 0).iscur = true ∧
        (freeze h (p.obj p.sub).type t).kind = TYPEARRAY ∧
        ((popanchor p c).cur = none → (popanchor p c).sub = 0) := by
    intro h p c hty hic hk hc
    refine ⟨hty, hic, by rw [freeze_sameKinds]; exact hk, fun hn => ?_⟩
    have hall := popcur_none p.obj c hn
    show c = 0
    by_contra hne
    have := hall 0 (by omega)
    rw [hic] at this
    cases this
  induction toks, h, p using closeLoop.induct with
  | case1 rest h p hc =>
    intro hty hic hk hsub
    unfold closeLoop
    simp only [hc]
    exact hret h p _ hty hk (hsub hc)
  | case2 rest h p c hc ih =>
    intro hty hic hk hsub
    rw [closeLoop]
    simp only [hc]
    obtain ⟨a, b, c2, d⟩ := hpop h p c hty hic hk hc
    exact ih a b c2 d
  | case3 rest h p hne hc =>
    intro hty hic hk hsub
    rw [closeLoop]
    · simp only [hc]
      exact hret h p _ hty hk (hsub hc)
    · exact hne
  | case4 rest h p hne c hc =>
    intro hty hic hk hsub
    rw [closeLoop]
    · simp only [hc]
      constructor
      · intro h3 toks3 he
        simp at he
      · intro h3 p3 toks3 he
        simp only [Except.ok.injEq, Closed.brk.injEq] at he
        obtain ⟨rfl, rfl, -⟩ := he
        exact ⟨hty, hic, by rw [freeze_sameKinds]; exact hk, by rw [hc]; simp⟩
    · exact hne
  | case5 rest h p hc =>
    intro hty hic hk hsub
    rw [closeLoop]
    simp only [hc]
    exact hret h p _ hty hk (hsub hc)
  | case6 rest h p c hc ih =>
    intro hty hic hk hsub
    rw [closeLoop]
    simp only [hc]
    obtain ⟨a, b, c2, d⟩ := hpop h p c hty hic hk hc
    exact ih a b c2 d
  | case7 toks h p n1 n2 n3 hc =>
    intro hty hic hk hsub
    rw [closeLoop]
    · simp only [hc]
      exact hret h p _ hty hk (hsub hc)
    · exact n1
    · exact n2
    · exact n3
  | case8 toks h p n1 n2 n3 c hc =>
    intro hty hic hk hsub
    rw [closeLoop]
    · simp [hc]
    · exact n1
    · exact n2
    · exact n3

theorem parseinitLoop_frozen (env : Env) (t : TypeId) (n : Nat) :
    ∀ (h : Heap) (p : Initparser) (toks : List Token) (init : List Init) (r : Result),
      (p.obj 0).type = t → (p.obj 0).iscur = true → (h t).kind = TYPEARRAY → p.cur ≠ none →
      parseinitLoop env n h p toks init = .ok r → (r.heap t).incomplete = false := by
  induction n with
  | zero => intro h p toks init r _ _ _ _ hr; simp [parseinitLoop] at hr
  | succ n ih =>
    intro h p toks init r hty hic hk hcur hr
    rw [parseinitLoop_succ] at hr
    cases hrep : reposition h p toks with
    | error e => simp [hrep] at hr
    | ok x =>
      obtain ⟨h1, p1, toks1⟩ := x
      obtain ⟨k1, k2, k3⟩ := reposition_keeps hrep
      have hty1 : (p1.obj 0).type = t := k1.1.trans hty
      have hic1 : (p1.obj 0).iscur = true := k1.2.trans hic
      have hk1 : (h1 t).kind = TYPEARRAY := (k2 t).trans hk
      have hcur1 : p1.cur ≠ none := by rw [k3]; exact hcur
      simp only [hrep] at hr
      split at hr
      · rename_i rest
        split at hr
        · cases hr
        · refine ih h1 (anchored p1) rest init r ?_ ?_ hk1 (by simp) hr
          · rw [anchored_obj]
            split
            · rename_i h0; rw [← h0]; exact hty1
            · exact hty1
          · rw [anchored_obj]
            split
            · rfl
            · exact hic1
      · cases ha : assignexpr toks1 with
        | error e => simp [ha] at hr
        | ok y =>
          obtain ⟨expr, toks2⟩ := y
          simp only [ha] at hr
          cases hm : matchLoop env 32 h1 p1 expr with
          | error e => simp [hm] at hr
          | ok z =>
            obtain ⟨h2, p2, expr2⟩ := z
            obtain ⟨m1, m2⟩ := matchLoop_keeps env _ _ _ _ _ _ _ hm
            obtain ⟨m3, -⟩ := matchLoop_frame env _ _ _ _ _ _ _ hm
            have hty2 : (p2.obj 0).type = t := m1.1.trans hty1
            have hic2 : (p2.obj 0).iscur = true := m1.2.trans hic1
            have hk2 : (h2 t).kind = TYPEARRAY := (m2 t).trans hk1
            have hcur2 : p2.cur ≠ none := by rw [m3]; exact hcur1
            obtain ⟨c1, c2⟩ := closeLoop_frozen t toks2 h2 p2 hty2 hic2 hk2
              (fun hn => absurd hn hcur2)
            simp only [hm] at hr
            cases hcl : closeLoop toks2 h2 p2 with
            | error e => simp [hcl] at hr
            | ok cl =>
              cases cl with
              | ret h3 toks3 =>
                simp only [hcl, Except.ok.injEq] at hr
                rw [← hr]
                exact c1 h3 toks3 hcl
              | brk h3 p3 toks3 =>
                simp only [hcl] at hr
                obtain ⟨d1, d2, d3, d4⟩ := c2 h3 p3 toks3 hcl
                exact ih h3 p3 toks3 _ r d1 d2 d3 d4 hr

end Freezing
/-! ## Further facts on the returned list -/

section Returned
open TypeKind Token Expr

theorem parseinitLoop_init_ne_nil (env : Env) (n : Nat) :
    ∀ (h : Heap) (p : Initparser) (toks : List Token) (init : List Init) (r : Result),
      parseinitLoop env n h p toks init = .ok r → r.init ≠ [] := by
  induction n with
  | zero => intro h p toks init r hr; simp [parseinitLoop] at hr
  | succ n ih =>
    intro h p toks init r hr
    rw [parseinitLoop_succ] at hr
    cases hrep : reposition h p toks with
    | error e => simp [hrep] at hr
    | ok x =>
      obtain ⟨h1, p1, toks1⟩ := x
      simp only [hrep] at hr
      split at hr
      · split at hr
        · cases hr
        · exact ih _ _ _ _ _ hr
      · cases ha : assignexpr toks1 with
        | error e => simp [ha] at hr
        | ok y =>
          obtain ⟨expr, toks2⟩ := y
          simp only [ha] at hr
          cases hm : matchLoop env 32 h1 p1 expr with
          | error e => simp [hm] at hr
          | ok z =>
            obtain ⟨h2, p2, expr2⟩ := z
            simp only [hm] at hr
            cases hcl : closeLoop toks2 h2 p2 with
            | error e => simp [hcl] at hr
            | ok cl =>
              cases cl with
              | ret h3 toks3 =>
                simp only [hcl, Except.ok.injEq] at hr
                rw [← hr]
                exact List.ne_nil_of_mem (mem_initadd_self _ _)
              | brk h3 p3 toks3 =>
                simp only [hcl] at hr
                exact ih _ _ _ _ _ hr

theorem parseinit_init_ne_nil (env : Env) (h : Heap) (t : TypeId) (toks : List Token)
    (r : Result) (hr : parseinit env h t toks = .ok r) : r.init ≠ [] := by
  rw [parseinit_eq] at hr
  split at hr
  · cases hr
  · exact parseinitLoop_init_ne_nil env _ _ _ _ _ _ hr

end Returned
/-! ## Runs of `parseinit` on sample initializers -/

section Runs

open TypeKind Token Expr

theorem map_of_toOption {α β : Type} {x : Except Error α} {f : α → β} {v : β}
    (hx : x.toOption.map f = some v) : x.map f = .ok v := by
  cases x with
  | error e => simp [Except.toOption] at hx
  | ok a =>
    simp only [Except.toOption, Option.map_some', Option.some.injEq] at hx
    simp [Except.map, hx]

theorem initadd_leading (pre rest : List Init) (new : Init)
    (hpre : ∀ o ∈ pre, o.stop ≤ new.start) :
    initadd (pre ++ rest) new = pre ++ initadd rest new := by
  induction pre with
  | nil => rfl
  | cons o pre ih =>
    have h1 : new.start ≥ o.stop := hpre o (by simp)
    rw [List.cons_append, initadd, if_pos h1, ih (fun x hx => hpre x (by simp [hx]))]
    rfl

theorem run_toksTail :
    (parseinit envCast heapAgg 2 toksTail).map (fun r => r.init) =
      .ok [mkinit 8 12 (Expr.EXPRCAST 0 (intconst 3))] :=
  map_of_toOption (by decide!)

theorem run_toksUnion :
    (parseinit envCast heapAgg 6 toksUnion).map (fun r => r.init) =
      .ok [mkinit 4 12 (Expr.EXPRIDENT 3 "pv"), mkinit 0 8 (Expr.EXPRIDENT 3 "qv")] :=
  map_of_toOption (by decide!)

theorem run_toksAnon :
    (parseinit envCast heapEx 7 toksAnon).map (fun r => r.init) =
      .ok [mkinit 0 4 (Expr.EXPRCAST 0 (intconst 1)), mkinit 4 8 (Expr.EXPRCAST 0 (intconst 7))] :=
  map_of_toOption (by decide!)

theorem run_toksAnonFirst :
    (parseinit envCast heapEx 7 toksAnonFirst).map (fun r => r.init) = .error Error.undefined := by
  rfl

theorem run_toksStale :
    (parseinit envCast heapAgg 10 toksStale).map (fun r => r.init) =
      .ok [mkinit 0 4 (Expr.EXPRCAST 0 (intconst 1)), mkinit 8 12 (Expr.EXPRCAST 0 (intconst 5)),
        mkinit 12 16 (Expr.EXPRCAST 0 (intconst 7))] :=
  map_of_toOption (by decide!)

theorem wf_T : wellFormed heapAgg 4 10 = true := by decide

theorem run_search_keeps_sel :
    (findmember heapEx
        (setsel (anchored (initial 7))
          (Sel.mem [⟨some "a", 0, 0⟩, ⟨none, 8, 4⟩, ⟨some "c", 0, 8⟩])) "z").toOption.map
      (fun r => (r.1, r.2.sub, (r.2.obj 0).sel)) =
      some (true, 2, Sel.mem [⟨some "a", 0, 0⟩, ⟨none, 8, 4⟩, ⟨some "c", 0, 8⟩]) := by
  decide!

end Runs
section Chains

open TypeKind Token Expr

theorem findmemberLoop_true (h : Heap) (name : String) (t : TypeId)
    (self : Initparser → Except Error (Bool × Initparser))
    (hself : ∀ p1 q, self p1 = .ok (true, q) →
      ∃ m, Finds h name (p1.obj p1.sub).type m ∧ (q.obj q.sub).type = typeunqual h m.type) :
    ∀ (ms : List Member) (p : Initparser) (q : Initparser), (∀ x ∈ ms, x ∈ (h t).members) →
      findmemberLoop self h name ms p = .ok (true, q) →
      ∃ m, Finds h name t m ∧ (q.obj q.sub).type = typeunqual h m.type := by
  intro ms
  induction ms with
  | nil => intro p q _ hq; simp [findmemberLoop] at hq
  | cons m ms ih =>
    intro p q hsub hq
    have hm : m ∈ (h t).members := hsub m (by simp)
    have hsub2 : ∀ x ∈ ms, x ∈ (h t).members := fun x hx => hsub x (by simp [hx])
    rw [findmemberLoop] at hq
    cases hn : m.name with
    | some n =>
      simp only [hn] at hq
      by_cases hnn : n = name
      · simp only [hnn, if_true, subobj_eq] at hq
        split at hq
        · simp [Except.map] at hq
        · simp only [Except.map, Except.ok.injEq, Prod.mk.injEq, true_and] at hq
          subst hq
          exact ⟨m, Finds.named t m hm (by rw [hn, hnn]), by simp [pushed_obj]⟩
      · simp only [hnn, if_false] at hq
        exact ih p q hsub2 hq
    | none =>
      simp only [hn] at hq
      by_cases hfull : p.sub + 1 = LEN_obj
      · simp [subobj_eq, hfull] at hq
      · rw [subobj_ok _ _ hfull] at hq
        cases hr : self (pushed h p m.type m.offset) with
        | error e => simp [hr] at hq
        | ok r =>
          obtain ⟨b1, q1⟩ := r
          cases b1 with
          | true =>
            simp only [hr, Except.ok.injEq, Prod.mk.injEq, true_and] at hq
            subst hq
            obtain ⟨m2, f2, t2⟩ := hself _ _ hr
            refine ⟨m2, Finds.anon t m m2 hm hn ?_, t2⟩
            simpa [pushed_obj] using f2
          | false =>
            simp only [hr] at hq
            exact ih _ q hsub2 hq

theorem findmemberDepth_true (h : Heap) (name : String) :
    ∀ (f : Nat) (p q : Initparser), findmemberDepth h name f p = .ok (true, q) →
      ∃ m, Finds h name (p.obj p.sub).type m ∧ (q.obj q.sub).type = typeunqual h m.type := by
  intro f
  induction f with
  | zero => intro p q hq; simp [findmemberDepth] at hq
  | succ f ih =>
    intro p q hq
    rw [findmemberDepth_succ] at hq
    exact findmemberLoop_true h name _ _ ih _ p q (fun x hx => hx) hq

theorem findmemberLoop_false (h : Heap) (name : String)
    (self : Initparser → Except Error (Bool × Initparser)) :
    ∀ (ms : List Member) (p : Initparser) (q : Initparser),
      findmemberLoop self h name ms p = .ok (false, q) →
      ∀ x ∈ ms, x.name ≠ some name ∧
        (x.name = none → ∃ p1 q1, (p1.obj p1.sub).type = typeunqual h x.type ∧
          self p1 = .ok (false, q1)) := by
  intro ms
  induction ms with
  | nil => intro p q _ x hx; cases hx
  | cons m ms ih =>
    intro p q hq x hx
    rw [findmemberLoop] at hq
    cases hn : m.name with
    | some n =>
      simp only [hn] at hq
      by_cases hnn : n = name
      · simp only [hnn, if_true, subobj_eq] at hq
        split at hq
        · simp [Except.map] at hq
        · simp [Except.map] at hq
      · simp only [hnn, if_false] at hq
        rcases List.mem_cons.mp hx with rfl | hx
        · refine ⟨by rw [hn]; simpa using hnn, fun hnone => ?_⟩
          rw [hn] at hnone
          cases hnone
        · exact ih p q hq x hx
    | none =>
      simp only [hn] at hq
      by_cases hfull : p.sub + 1 = LEN_obj
      · simp [subobj_eq, hfull] at hq
      · rw [subobj_ok _ _ hfull] at hq
        cases hr : self (pushed h p m.type m.offset) with
        | error e => simp [hr] at hq
        | ok r =>
          obtain ⟨b1, q1⟩ := r
          cases b1 with
          | true => simp [hr] at hq
          | false =>
            simp only [hr] at hq
            rcases List.mem_cons.mp hx with rfl | hx
            · exact ⟨by rw [hn]; simp, fun _ => ⟨_, q1, by simp [pushed_obj], hr⟩⟩
            · exact ih _ q hq x hx

theorem findmemberDepth_false (h : Heap) (name : String) {t : TypeId} {m : Member}
    (hfind : Finds h name t m) :
    ∀ (f : Nat) (p q : Initparser), (p.obj p.sub).type = t →
      findmemberDepth h name f p ≠ .ok (false, q) := by
  induction hfind with
  | named t m hm hn =>
    intro f p q hty hq
    cases f with
    | zero => simp [findmemberDepth] at hq
    | succ f =>
      rw [findmemberDepth_succ, hty] at hq
      exact (findmemberLoop_false h name _ _ p q hq m hm).1 hn
  | anon t a m ha hn _ ih =>
    intro f p q hty hq
    cases f with
    | zero => simp [findmemberDepth] at hq
    | succ f =>
      rw [findmemberDepth_succ, hty] at hq
      obtain ⟨p1, q1, hp1, hs⟩ := (findmemberLoop_false h name _ _ p q hq a ha).2 hn
      exact ih f p1 q1 hp1 hs

end Chains
section ValidChains

open TypeKind Token Expr

theorem updatearray_members (h : Heap) (t : TypeId) (i : Nat) (x : TypeId) :
    (updatearray h t i x).members = (h x).members := by
  unfold updatearray
  split
  · rfl
  · split
    · by_cases hx : x = t
      · subst hx; simp
      · simp [Function.update_apply, hx]
    · rfl

theorem updatearray_sameShape (h : Heap) (t : TypeId) (i : Nat) :
    SameShape h (updatearray h t i) := by
  intro x
  refine ⟨updatearray_kind h t i x, updatearray_base h t i x, updatearray_members h t i x,
    updatearray_incomplete h t i x, fun hc => ?_⟩
  by_cases hx : x = t
  · subst hx
    rw [updatearray_complete i hc]
  · rw [updatearray_other i hx]

theorem SameShape.typeunqual {h h1 : Heap} (hs : SameShape h h1) (t : TypeId) :
    typeunqual h1 t = typeunqual h t := by
  simp only [Cproc.typeunqual, (hs t).1, (hs t).2.1]

theorem SameShape.finds {h h1 : Heap} (hs : SameShape h h1) {name : String} {t : TypeId}
    {m : Member} (hf : Finds h1 name t m) : Finds h name t m := by
  induction hf with
  | named t m hm hn => exact Finds.named t m (by rw [← (hs t).2.2.1]; exact hm) hn
  | anon t a m ha hn _ ih =>
    exact Finds.anon t a m (by rw [← (hs t).2.2.1]; exact ha) hn (by rw [← hs.typeunqual]; exact ih)

theorem SameShape.finds_to {h h1 : Heap} (hs : SameShape h h1) {name : String} {t : TypeId}
    {m : Member} (hf : Finds h name t m) : Finds h1 name t m := by
  induction hf with
  | named t m hm hn => exact Finds.named t m (by rw [(hs t).2.2.1]; exact hm) hn
  | anon t a m ha hn _ ih =>
    exact Finds.anon t a m (by rw [(hs t).2.2.1]; exact ha) hn (by rw [hs.typeunqual]; exact ih)

theorem SameShape.validChain {h h1 : Heap} (hs : SameShape h h1) :
    ∀ (ds : List Desig) (t : TypeId), ValidChain h t ds → ValidChain h1 t ds := by
  intro ds
  induction ds with
  | nil => intro t _; trivial
  | cons d ds ih =>
    intro t hv
    cases d with
    | index ty i =>
      obtain ⟨hk, hi, hrest⟩ := hv
      refine ⟨by rw [(hs t).1]; exact hk, fun hc => ?_, ?_⟩
      · rw [(hs t).2.2.2.1] at hc
        rw [(hs t).2.2.2.2 hc]
        exact hi hc
      · rw [hs.typeunqual, (hs t).2.1]
        exact ih _ hrest
    | member name =>
      obtain ⟨hk, ⟨m, hm⟩, hrest⟩ := hv
      refine ⟨by rw [(hs t).1]; exact hk, ⟨m, hs.finds_to hm⟩, fun m2 hm2 => ?_⟩
      rw [hs.typeunqual]
      exact ih _ (hrest m2 (hs.finds hm2))

theorem findmember_true {h : Heap} {p q : Initparser} {name : String}
    (hq : findmember h p name = .ok (true, q)) :
    ∃ m, Finds h name (p.obj p.sub).type m ∧ (q.obj q.sub).type = typeunqual h m.type :=
  findmemberDepth_true h name _ p q hq

theorem findmember_false {h : Heap} {p q : Initparser} {name : String} {m : Member}
    (hfind : Finds h name (p.obj p.sub).type m) : findmember h p name ≠ .ok (false, q) :=
  findmemberDepth_false h name hfind _ p q rfl

theorem designatorLoop_valid_full (rest : List Token) :
    ∀ (ds : List Desig) (h : Heap) (p : Initparser), ValidChain h (p.obj p.sub).type ds →
      p.sub < LEN_obj → LEN_obj ≤ p.sub + ds.length →
      designatorLoop (chainToks ds ++ rest) h p = .error Error.tooManyDesignators := by
  intro ds
  induction ds with
  | nil => intro h p _ hp hlen; simp at hlen; omega
  | cons d ds ih =>
    intro h p hv hp hlen
    simp only [List.length_cons] at hlen
    cases d with
    | index ty i =>
      obtain ⟨hk, hi, hrest⟩ := hv
      simp only [chainToks, Desig.toks, List.cons_append, List.nil_append]
      rw [designatorLoop_index_eq h p ty i _ hk]
      have hbig : ¬ ((h (p.obj p.sub).type).incomplete = false ∧
          wrap64 i ≥ (h (p.obj p.sub).type).length) := by
        rintro ⟨hc, hge⟩
        have := hi hc
        omega
      rw [if_neg hbig]
      by_cases hfull : p.sub + 1 = LEN_obj
      · rw [if_pos hfull]
      · rw [if_neg hfull]
        apply ih
        · have hs := updatearray_sameShape h (p.obj p.sub).type (wrap64 i)
          simp only [pushed_obj, pushed_sub, setsel_sub, Function.update_same]
          rw [hs.typeunqual, (hs _).2.1]
          exact hs.validChain _ _ hrest
        · simp only [pushed_sub, setsel_sub]; omega
        · simp only [pushed_sub, setsel_sub]; omega
    | member name =>
      obtain ⟨hk, ⟨m, hm⟩, hrest⟩ := hv
      simp only [chainToks, Desig.toks, List.cons_append, List.nil_append]
      rw [designatorLoop]
      have hk2 : ¬ ((h (p.obj p.sub).type).kind ≠ TYPESTRUCT ∧
          (h (p.obj p.sub).type).kind ≠ TYPEUNION) := by
        rintro ⟨h1, h2⟩
        rcases hk with hk | hk
        · exact h1 hk
        · exact h2 hk
      rw [if_neg hk2]
      have hb := findmember_bounds h name p hp
      cases hr : findmember h p name with
      | error e =>
        simp only [hr] at hb ⊢
        rw [hb]
      | ok r =>
        obtain ⟨b, q⟩ := r
        cases b with
        | false => exact absurd hr (findmember_false hm)
        | true =>
          simp only [hr] at hb ⊢
          obtain ⟨m2, hm2, hty⟩ := findmember_true hr
          apply ih h q _ hb.2 (by omega)
          rw [hty]
          exact hrest m2 hm2

theorem designator_valid_full {h : Heap} {p : Initparser} {c : Nat} (ds : List Desig)
    (rest : List Token) (hcur : p.cur = some c) (hc : c < LEN_obj)
    (hv : ValidChain h (p.obj c).type ds) (hlen : LEN_obj ≤ c + ds.length) :
    designator h p (chainToks ds ++ rest) = .error Error.tooManyDesignators := by
  unfold designator
  simp only [hcur]
  exact designatorLoop_valid_full rest ds h _ hv hc hlen

theorem validChain_heapNest (n : Nat) :
    ∀ t : TypeId, ValidChain heapNest t (List.replicate n (Desig.index 0 0)) := by
  induction n with
  | zero => intro t; trivial
  | succ n ih =>
    intro t
    refine ⟨rfl, fun _ => ?_, ih _⟩
    show wrap64 0 < 1
    decide

theorem finds_heapMixed {t : Nat} {m : Member} (ht : t % 2 = 1)
    (hf : Finds heapMixed "m" t m) : m.type = t + 1 := by
  have hmem : (heapMixed t).members = [⟨some "m", t + 1, 0⟩] := by
    simp [heapMixed, ht, structNode]
  cases hf with
  | named _ _ hm hn =>
    rw [hmem] at hm
    simp only [List.mem_singleton] at hm
    rw [hm]
  | anon _ a _ ha hn _ =>
    rw [hmem] at ha
    simp only [List.mem_singleton] at ha
    rw [ha] at hn
    cases hn

theorem validChain_heapMixed (n : Nat) :
    ∀ t : Nat, t % 2 = 0 → ValidChain heapMixed t (mixedChain n) := by
  induction n with
  | zero => intro t _; trivial
  | succ n ih =>
    intro t ht
    have hodd : (t + 1) % 2 = 1 := by omega
    have hnode : heapMixed t = arrayNode (t + 1) 1 4 false := by simp [heapMixed, ht]
    have hnode1 : heapMixed (t + 1) = structNode TYPESTRUCT 4 [⟨some "m", t + 1 + 1, 0⟩] := by
      simp [heapMixed, hodd]
    have hun : ∀ x, typeunqual heapMixed x = x := by
      intro x
      apply typeunqual_of_kind
      unfold heapMixed
      split <;> simp [arrayNode, structNode]
    refine ⟨by rw [hnode]; rfl, fun _ => ?_, ?_⟩
    · rw [hnode]
      show wrap64 0 < 1
      decide
    · rw [hun, hnode]
      show ValidChain heapMixed (t + 1) (Desig.member "m" :: mixedChain n)
      refine ⟨Or.inl (by rw [hnode1]; rfl), ⟨⟨some "m", t + 1 + 1, 0⟩, ?_⟩, fun m hm => ?_⟩
      · exact Finds.named _ _ (by rw [hnode1]; simp [structNode]) rfl
      · rw [hun, finds_heapMixed hodd hm]
        exact ih _ (by omega)

end ValidChains
/-! ## The claims -/

section Claims

open TypeKind Token Expr

/-- C1 (the code departs from the claim): on `struct S { int x, y; } arr[1]`
the initializer `{[0]=s, [0].y=9}` leaves ONE binding, `[4, 8)` with the value
9: inserting the binding of `y`, whose range ends where the range of the
whole-struct binding ends, removes the whole-struct binding.  In general
`initadd` drops an existing binding `[s, e)` when a binding `[s2, e)` with
`s < s2 < e`, contained in it and not equal to it, is inserted. -/
theorem nested_override_drops_wider (env : Env)
    (hcompat : env.typecompatible heapEx 1 1 = true) :
    parseinit env heapEx 2 toksNested =
        .ok { init := [mkinit 4 8 (env.exprconvert heapEx (intconst 9) 0)], toks := [],
              heap := heapEx } ∧
      ∀ (s s2 e : Nat) (a b : Expr), s < s2 → s2 < e →
        initadd [mkinit s e a] (mkinit s2 e b) = [mkinit s2 e b] := by
  constructor
  · have h0 : heapEx 0 = scalarNode 4 false := rfl
    have h1 : heapEx 1 = structNode TYPESTRUCT 8 [⟨some "x", 0, 0⟩, ⟨some "y", 0, 4⟩] := rfl
    have h2 : heapEx 2 = arrayNode 1 1 8 false := rfl
    have hs0 : IsScalar heapEx 0 := by simp [IsScalar, h0, scalarNode]
    have hu2 : typeunqual heapEx 2 = 2 := rfl
    have hu1 : typeunqual heapEx 1 = 1 := rfl
    have hu0 : typeunqual heapEx 0 = 0 := rfl
    rw [toksNested, parseinit_brace env heapEx 2 _ (by simp [hu2, h2, arrayNode]), hu2]
    simp only [commaSep, designated, List.cons_append, List.nil_append, List.length_cons,
      List.length_nil]
    rw [parseinitLoop_succ]
    simp [LEN_obj, Expr.type, reposition, designator, designatorLoop_index, designatorLoop_assign,
      initial_obj, h2, h1, h0, updatearray_complete, pushed_obj, setsel_obj, anchored_obj,
      assignexpr, matchLoop_compatible_top, hcompat, hu0, hu1, hu2, closeLoop, freeze, arrayNode,
      structNode, intconst]
    rw [parseinitLoop_succ]
    simp [LEN_obj, Expr.type, reposition, designator, designatorLoop_index, designatorLoop_assign,
      initial_obj, h2, h1, h0, updatearray_complete, pushed_obj, setsel_obj, anchored_obj,
      assignexpr, hu0, hu1, hu2, arrayNode, structNode]
    rw [designatorLoop_member "y" _
      (Or.inl (by simp [pushed_obj, setsel_obj, hu1, h1, structNode]))
      (findmember_named "y" [⟨some "x", 0, 0⟩] ⟨some "y", 0, 4⟩ []
        (by simp [pushed_obj, setsel_obj, hu1, h1, structNode]) (by simp) rfl (by simp [LEN_obj]))]
    simp [LEN_obj, Expr.type, designatorLoop_assign, initial_obj, h2, h1, h0,
      pushed_obj, setsel_obj, anchored_obj, assignexpr, matchLoop_scalar_top, hs0,
      hu0, hu1, hu2, closeLoop, freeze, wrap64, UINT64, initadd, mkinit, scalarNode, popanchor,
      initskip, arrayNode, structNode, intconst]
  · intro s s2 e a b h1 h2
    have c1 : ¬ s2 ≥ e := by omega
    have c2 : ¬ e ≤ s := by omega
    simp only [initadd, mkinit, c1, c2, if_false, ge_iff_le, le_refl, if_true, initskip]

/-- Witness of `nested_override_drops_wider`, with the sample collaborators. -/
theorem nested_override_drops_wider_witness :
    parseinit envCast heapEx 2 toksNested =
      .ok { init := [mkinit 4 8 (Expr.EXPRCAST 0 (intconst 9))], toks := [], heap := heapEx } :=
  (nested_override_drops_wider envCast rfl).1

/-- C2: for a complete array `t` of `N` scalar elements of size `es > 0` and
an index `i < N`, `parseinit` on `{[i]=e1, [i]=e2}` returns exactly one
binding, `[i*es, (i+1)*es)`, with `e2` converted to the element type; the type
store is left as it was.  Equivalently, `initadd` of two bindings of the same
range `[s, e)`, `s < e`, one after the other into the empty list leaves only
the second. -/
theorem identical_range_override (env : Env) (h : Heap) (t0 t b : TypeId) (es N i : Nat)
    (ty1 ty2 : TypeId) (e1 e2 : Expr) (rest : List Token)
    (ht : typeunqual h t0 = t) (H : ArrayOfScalars h t b es)
    (hc : (h t).incomplete = false) (hN : (h t).length = N)
    (hes : 0 < es) (hsz : N * es < UINT64) (hi : i < N) :
    parseinit env h t0
        (TLBRACE :: (commaSep [designated ty1 i e1, designated ty2 i e2] ++ TRBRACE :: rest)) =
      .ok { init := [mkinit (i * es) ((i + 1) * es) (env.exprconvert h e2 b)]
            toks := rest, heap := h } ∧
    ∀ x y : Init, x.start = y.start → x.stop = y.stop → x.start < x.stop →
      initadd (initadd [] x) y = [y] := by
  refine ⟨?_, fun x y hs he hlt => initadd_same x y hs he hlt⟩
  have hi2 : (i + 1) * es ≤ N * es := Nat.mul_le_mul_right _ hi
  have hiu : i < UINT64 := by nlinarith
  rw [parseinit_brace env h t0 _ (by rw [ht, hc]; simp), ht]
  obtain ⟨m, hm⟩ : ∃ m, (commaSep [designated ty1 i e1, designated ty2 i e2] ++
      TRBRACE :: rest).length + 1 = m + 1 + 1 := ⟨rest.length + 11, by simp [commaSep, designated]⟩
  rw [hm]
  simp only [commaSep, List.append_assoc, List.cons_append]
  obtain ⟨p1, hJ1, hstep1⟩ := array_step_designated env H (arrayAt_start t b) ty1 i e1
    (TCOMMA :: (designated ty2 i e2 ++ TRBRACE :: rest)) hiu (by omega) (by intro _; omega)
  have hu : updatearray h t i = h := updatearray_complete i hc
  rw [hu] at hstep1
  rw [hstep1, array_more H hJ1 _ (by simp [designated])]
  obtain ⟨p2, hJ2, hstep2⟩ := array_step_designated env H hJ1 ty2 i e2
    (TRBRACE :: rest) hiu (by omega) (by intro _; omega)
  rw [hu] at hstep2
  simp only []
  rw [hstep2, array_close H hJ2]
  simp only [freeze_of_complete hc]
  rw [initadd_same (mkinit (i * es) (i * es + es) (env.exprconvert h e1 b))
    (mkinit (i * es) (i * es + es) (env.exprconvert h e2 b)) rfl rfl (by simp [mkinit]; omega)]
  simp [Nat.add_mul]

/-- Witness of `identical_range_override`: `{[0]=1, [0]=2}` on `int [3]`. -/
theorem identical_range_override_witness :
    parseinit envCast heapEx 6
        (TLBRACE :: (commaSep [designated 0 0 (intconst 1), designated 0 0 (intconst 2)] ++
          TRBRACE :: [])) =
      .ok { init := [mkinit (0 * 4) ((0 + 1) * 4) (Expr.EXPRCAST 0 (intconst 2))]
            toks := [], heap := heapEx } :=
  (identical_range_override envCast heapEx 6 6 0 4 3 0 0 0 (intconst 1) (intconst 2) [] rfl
    ⟨rfl, rfl, ⟨rfl, by decide, by decide, by decide, by decide⟩, rfl, rfl⟩ rfl rfl
    (by decide) (by decide) (by decide)).1

/-- C3: for a scalar target type (`t` once unqualified) and any value
expression `e`, the braced initializer `{e}` and the bare initializer `e` give
the same result: the single binding `[0, size t)` holding `e` converted to
`t`, the remaining tokens and the type store untouched. -/
theorem scalar_braces_optional (env : Env) (h : Heap) (t0 t : TypeId) (e : Expr)
    (rest : List Token) (ht : typeunqual h t0 = t) (hs : IsScalar h t)
    (hinc : (h t).incomplete = false) (hsz : (h t).size < UINT64) :
    parseinit env h t0 (TLBRACE :: EXPR e :: TRBRACE :: rest) =
        .ok { init := [mkinit 0 (h t).size (env.exprconvert h e t)], toks := rest, heap := h } ∧
      parseinit env h t0 (EXPR e :: rest) =
        .ok { init := [mkinit 0 (h t).size (env.exprconvert h e t)], toks := rest, heap := h } := by
  have hu := typeunqual_of_scalar hs
  have hfz : freeze h t = h := freeze_scalar hs
  constructor
  · rw [parseinit_brace env h t0 _ (by rw [ht, hinc]; simp), ht]
    simp only [List.length_cons]
    have hrep : reposition h (anchored (initial t)) (EXPR e :: TRBRACE :: rest) =
        .ok (h, pushed h (anchored (initial t)) t 0, EXPR e :: TRBRACE :: rest) := by
      have hf := focus_scalar (h := h) (p := anchored (initial t))
        (by simpa [anchored_obj, initial_obj] using hs)
      rw [subobj_ok _ _ (by simp [LEN_obj])] at hf
      simp [reposition, hf, Except.map, anchored_obj, initial_obj]
    rw [parseinitLoop_scalar_value env _ [] hrep (by simpa [pushed_obj, hu] using hs),
      closeLoop_rbrace_top _ (by simp)]
    simp [pushed_obj, anchored_obj, initial_obj, hu, hfz, initadd, wrap64_of_lt hsz]
  · rw [parseinit_eq, if_neg (by rw [ht, hinc]; simp), ht, List.length_cons]
    rw [parseinitLoop_scalar_value env _ [] (reposition_none _ (by simp))
      (by simpa [initial_obj] using hs), closeLoop_none _ (by simp)]
    simp [initial_obj, hfz, initadd, wrap64_of_lt hsz]

/-- Witness of `scalar_braces_optional`: `int x = {7};` and `int x = 7;`. -/
theorem scalar_braces_optional_witness :
    parseinit envCast heapEx 0 (TLBRACE :: EXPR (intconst 7) :: TRBRACE :: []) =
        .ok { init := [mkinit 0 (heapEx 0).size (Expr.EXPRCAST 0 (intconst 7))], toks := [],
              heap := heapEx } ∧
      parseinit envCast heapEx 0 (EXPR (intconst 7) :: []) =
        .ok { init := [mkinit 0 (heapEx 0).size (Expr.EXPRCAST 0 (intconst 7))], toks := [],
              heap := heapEx } :=
  scalar_braces_optional envCast heapEx 0 0 (intconst 7) [] rfl
    ⟨rfl, by decide, by decide, by decide, by decide⟩ rfl (by decide)

/-- C4 (amended): for a complete array `t` of `N ≥ 1` scalar elements of size
`es` and a brace list of `K ≥ 1` positional values `vs`: if `K ≤ N`, `parseinit` returns
exactly the `K` bindings `[i*es, (i+1)*es)` holding the `i`-th value
(converted to the element type), in that order, so no binding reaches past
`K*es`; if `K > N` it ends in "too many initializers for type". -/
theorem positional_array (env : Env) (h : Heap) (t0 t b : TypeId) (es N : Nat)
    (vs : List Expr) (rest : List Token)
    (ht : typeunqual h t0 = t) (H : ArrayOfScalars h t b es)
    (hc : (h t).incomplete = false) (hN : (h t).length = N) (hN1 : 1 ≤ N)
    (hN64 : N < UINT64) (hsz : N * es < UINT64) (hvs : vs ≠ []) :
    (vs.length ≤ N →
      parseinit env h t0 (TLBRACE :: (commaSep (vs.map fun v => [EXPR v]) ++ TRBRACE :: rest)) =
        .ok { init := vs.enum.map
                (fun iv => mkinit (iv.1 * es) ((iv.1 + 1) * es) (env.exprconvert h iv.2 b))
              toks := rest, heap := h }) ∧
    (vs.enum.map
        (fun iv => mkinit (iv.1 * es) ((iv.1 + 1) * es) (env.exprconvert h iv.2 b))).length
      = vs.length ∧
    (∀ o ∈ vs.enum.map
        (fun iv => mkinit (iv.1 * es) ((iv.1 + 1) * es) (env.exprconvert h iv.2 b)),
      o.stop ≤ vs.length * es) ∧
    (N < vs.length →
      parseinit env h t0 (TLBRACE :: (commaSep (vs.map fun v => [EXPR v]) ++ TRBRACE :: rest)) =
        .error Error.tooManyInitializers) := by
  obtain ⟨v, vs, rfl⟩ := List.exists_cons_of_ne_nil hvs
  have hrun := positional_run env H hc hN hN64 hsz rest vs v none (anchored (initial t)) []
    ((commaSep ((v :: vs).map fun v => [EXPR v]) ++ TRBRACE :: rest).length + 1)
    (arrayAt_start t b) (fun _ => hN1) (by simp [nextIndex]) (by
      have : vs.length ≤ (commaSep ((v :: vs).map fun v => [EXPR v])).length := by
        clear hvs
        induction vs generalizing v with
        | nil => simp
        | cons v2 vs ih =>
          have := ih v2
          simp only [List.map_cons, commaSep, List.length_append, List.length_cons] at this ⊢
          omega
      simp only [List.length_append]
      omega) (by simp)
  simp only [nextIndex, Nat.zero_add, List.nil_append] at hrun
  rw [parseinit_brace env h t0 _ (by rw [ht, hc]; simp), ht, hrun]
  refine ⟨?_, ?_, ?_, ?_⟩
  · intro hK
    rw [if_pos (by simpa using hK)]
    rfl
  · simp
  · intro o ho
    simp only [List.mem_map] at ho
    obtain ⟨⟨i, x⟩, hix, rfl⟩ := ho
    have := List.fst_lt_of_mem_enum hix
    simp only [mkinit]
    exact Nat.mul_le_mul_right _ this
  · intro hK
    rw [if_neg (by simp at hK ⊢; omega)]

/-- Witness of `positional_array`: `{1, 2}` on `int [3]`. -/
theorem positional_array_witness :
    parseinit envCast heapEx 6
        (TLBRACE :: (commaSep ([intconst 1, intconst 2].map fun v => [EXPR v]) ++ TRBRACE :: [])) =
      .ok { init := [intconst 1, intconst 2].enum.map
              (fun iv => mkinit (iv.1 * 4) ((iv.1 + 1) * 4) (envCast.exprconvert heapEx iv.2 0))
            toks := [], heap := heapEx } :=
  (positional_array envCast heapEx 6 6 0 4 3 [intconst 1, intconst 2] [] rfl
    ⟨rfl, rfl, ⟨rfl, by decide, by decide, by decide, by decide⟩, rfl, rfl⟩ rfl rfl
    (by decide) (by decide) (by decide) (by simp)).1 (by decide)

/-- C4 (as stated, refuted): on `int a[3] = {}`, a brace list of `K = 0`
positional values with `K ≤ N = 3`, `parseinit` does not return the `K = 0`
bindings: it ends in an error of the expression parser, called on `}`.  No
run of `parseinit` returns an empty list at all. -/
theorem positional_array_empty :
    parseinit envCast heapEx 6
        (TLBRACE :: (commaSep (([] : List Expr).map fun v => [EXPR v]) ++ TRBRACE :: [])) =
      .error Error.exprSyntax ∧
    ([] : List Expr).length ≤ (heapEx 6).length ∧
    ∀ (env : Env) (h : Heap) (t : TypeId) (toks : List Token) (r : Result),
      parseinit env h t toks = .ok r → r.init ≠ [] :=
  ⟨rfl, by decide, parseinit_init_ne_nil⟩

/-- C5 (amended): for an incomplete array target `t` (length 0 on entry) of
scalar elements of size `es`: after `parseinit` on a brace list of `K ≥ 1`
positional values the array's length is `K` and its size `K * es`, provided
`K` and `K * es` are below `2^64`; after a brace list of index-designated
values `[i]=v` with highest index `D` the length is `D + 1` and the size
`(D + 1) * es`, provided `D + 1` and `(D + 1) * es` are below `2^64`.  In
both cases the type is complete afterwards. -/
theorem incomplete_array_length (env : Env) (h : Heap) (t0 t b : TypeId) (es : Nat)
    (rest : List Token) (ht : typeunqual h t0 = t) (H : ArrayOfScalars h t b es)
    (hinc : (h t).incomplete = true) (hlen : (h t).length = 0) :
    (∀ vs : List Expr, vs ≠ [] → vs.length < UINT64 → vs.length * es < UINT64 →
      ∃ r, parseinit env h t0
          (TLBRACE :: (commaSep (vs.map fun v => [EXPR v]) ++ TRBRACE :: rest)) = .ok r ∧
        (r.heap t).length = vs.length ∧ (r.heap t).size = vs.length * es ∧
        (r.heap t).incomplete = false) ∧
    (∀ ds : List (TypeId × Nat × Expr), ds ≠ [] →
      (ds.map fun d => d.2.1).foldr max 0 + 1 < UINT64 →
      ((ds.map fun d => d.2.1).foldr max 0 + 1) * es < UINT64 →
      ∃ r, parseinit env h t0
          (TLBRACE :: (commaSep (ds.map fun d => designated d.1 d.2.1 d.2.2) ++
            TRBRACE :: rest)) = .ok r ∧
        (r.heap t).length = (ds.map fun d => d.2.1).foldr max 0 + 1 ∧
        (r.heap t).size = ((ds.map fun d => d.2.1).foldr max 0 + 1) * es ∧
        (r.heap t).incomplete = false) := by
  constructor
  · intro vs hvs hK hKs
    obtain ⟨hr1, hr2⟩ := resolve_pos vs none
    have hmap : (vs.map fun v => [EXPR v]) = (vs.map Item.pos).map Item.toks := by
      simp [Item.toks]
    obtain ⟨r, hr, hrl, hrs, hri⟩ := incomplete_array_items env h t0 t b es rest ht H hinc hlen
      (vs.map Item.pos) (by simpa using hvs) (by
        intro i hi
        have := hr1 i hi
        simp only [nextIndex, Nat.zero_add] at this
        constructor
        · omega
        · have : (i + 1) * es ≤ vs.length * es := Nat.mul_le_mul_right _ this
          omega)
    rw [← hmap] at hr
    rw [hr2 hvs] at hrl
    simp only [nextIndex, Nat.zero_add] at hrl
    exact ⟨r, hr, hrl, by rw [hrs, hrl], hri⟩
  · intro ds hds hD hDs
    have hres := resolve_des ds none
    have hmap : (ds.map fun d => designated d.1 d.2.1 d.2.2) =
        (ds.map fun d => Item.des d.1 d.2.1 d.2.2).map Item.toks := by
      simp [Item.toks]
    obtain ⟨r, hr, hrl, hrs, hri⟩ := incomplete_array_items env h t0 t b es rest ht H hinc hlen
      (ds.map fun d => Item.des d.1 d.2.1 d.2.2) (by simpa using hds) (by
        intro i hi
        rw [hres] at hi
        have := le_foldr_max _ i hi
        constructor
        · omega
        · have : (i + 1) * es ≤ ((ds.map fun d => d.2.1).foldr max 0 + 1) * es :=
            Nat.mul_le_mul_right _ (by omega)
          omega)
    rw [← hmap] at hr
    rw [hres, maxSucc_eq _ (by simpa using hds)] at hrl
    exact ⟨r, hr, hrl, by rw [hrs, hrl], hri⟩

/-- Witness of `incomplete_array_length`: `int a[] = {1, 2}` gets length 2 and
size 8. -/
theorem incomplete_array_length_witness :
    ∃ r, parseinit envCast heapEx 3
        (TLBRACE :: (commaSep ([intconst 1, intconst 2].map fun v => [EXPR v]) ++
          TRBRACE :: [])) = .ok r ∧
      (r.heap 3).length = [intconst 1, intconst 2].length ∧
      (r.heap 3).size = [intconst 1, intconst 2].length * 4 ∧
      (r.heap 3).incomplete = false :=
  (incomplete_array_length envCast heapEx 3 3 0 4 [] rfl
    ⟨rfl, rfl, ⟨rfl, by decide, by decide, by decide, by decide⟩, rfl, rfl⟩ rfl rfl).1
    [intconst 1, intconst 2] (by simp) (by decide) (by decide)

/-- C5 (as stated, refuted): on `int a[] = {[18446744073709551615] = 1}` the
highest index is `D = 2^64 - 1`; `parseinit` returns, and the array's length
is 0 (and its size 0), not `D + 1`: the increment in `updatearray` wraps to 0. -/
theorem incomplete_array_length_wraps :
    (parseinit envCast heapEx 3 toksHuge).map
        (fun r => ((r.heap 3).length, (r.heap 3).size, (r.heap 3).incomplete)) =
      .ok (0, 0, false) ∧
    (parseinit envCast heapEx 3 toksHuge).map
        (fun r => decide ((r.heap 3).length = 18446744073709551615 + 1)) = .ok false :=
  ⟨rfl, rfl⟩

/-- C6: for a struct `t` whose members are all named, with distinct names, and
scalar, and two members `mj`, `mk` declared one right after the other (`mk`
not overlapping `mj`): `parseinit` on `{.mj = x, y}` returns exactly two
bindings, `x` at the offset of `mj` and `y` at the offset of `mk`; nothing is
bound for the members declared before `mj`. -/
theorem member_designator_continues (env : Env) (h : Heap) (t0 t : TypeId)
    (pre post : List Member) (mj mk : Member) (name : String) (x y : Expr) (rest : List Token)
    (ht : typeunqual h t0 = t) (hk : (h t).kind = TYPESTRUCT)
    (hinc : (h t).incomplete = false)
    (hms : (h t).members = pre ++ mj :: mk :: post)
    (hnamed : ∀ m ∈ (h t).members, m.name ≠ none)
    (hnodup : ((h t).members.map Member.name).Nodup)
    (hscalar : ∀ m ∈ (h t).members, IsScalar h (typeunqual h m.type))
    (hname : mj.name = some name)
    (hlay : mj.offset + (h (typeunqual h mj.type)).size ≤ mk.offset)
    (hfit : mk.offset + (h (typeunqual h mk.type)).size < UINT64) :
    parseinit env h t0
        (TLBRACE :: (membered name x ++ TCOMMA :: EXPR y :: TRBRACE :: rest)) =
      .ok { init :=
              [mkinit mj.offset (mj.offset + (h (typeunqual h mj.type)).size)
                 (env.exprconvert h x (typeunqual h mj.type)),
               mkinit mk.offset (mk.offset + (h (typeunqual h mk.type)).size)
                 (env.exprconvert h y (typeunqual h mk.type))]
            toks := rest, heap := h } := by
  have hpre : ∀ m ∈ pre, ∃ n, m.name = some n ∧ n ≠ name := by
    intro m hm
    have hmem : m ∈ (h t).members := by rw [hms]; simp [hm]
    have hne := hnamed m hmem
    obtain ⟨n, hn⟩ := Option.ne_none_iff_exists'.mp hne
    refine ⟨n, hn, ?_⟩
    rintro rfl
    rw [hms, List.map_append, List.map_cons] at hnodup
    have := (List.nodup_append.mp hnodup).2.2
    exact this (List.mem_map_of_mem _ hm) (by simp [hname, hn])
  have hsj : IsScalar h (typeunqual h mj.type) := hscalar mj (by rw [hms]; simp)
  have hsk : IsScalar h (typeunqual h mk.type) := hscalar mk (by rw [hms]; simp)
  have hoj : wrap64 mj.offset = mj.offset := wrap64_of_lt (by omega)
  have hok : wrap64 mk.offset = mk.offset := wrap64_of_lt (by omega)
  have hej : wrap64 (mj.offset + (h (typeunqual h mj.type)).size) =
      mj.offset + (h (typeunqual h mj.type)).size := wrap64_of_lt (by omega)
  have hek : wrap64 (mk.offset + (h (typeunqual h mk.type)).size) =
      mk.offset + (h (typeunqual h mk.type)).size := wrap64_of_lt (by omega)
  have hfz : freeze h t = h := freeze_of_complete hinc
  rw [parseinit_brace env h t0 _ (by rw [ht, hinc]; simp), ht]
  obtain ⟨n, hn⟩ : ∃ n, (membered name x ++ TCOMMA :: EXPR y :: TRBRACE :: rest).length + 1 =
      n + 1 + 1 := ⟨rest.length + 6, by simp [membered]⟩
  rw [hn]
  -- first item: `.name = x`
  obtain ⟨p1, hp1⟩ : ∃ p1, p1 = pushed h
      (setsel { anchored (initial t) with sub := 0 } (Sel.mem (mj :: mk :: post)))
      mj.type mj.offset := ⟨_, rfl⟩
  have hfind : findmember h { anchored (initial t) with sub := 0 } name = .ok (true, p1) := by
    rw [hp1]
    exact findmember_named name pre mj (mk :: post)
      (by simpa [anchored_obj, initial_obj] using hms) hpre hname (by simp [LEN_obj])
  have hrep1 : reposition h (anchored (initial t))
      (membered name x ++ TCOMMA :: EXPR y :: TRBRACE :: rest) =
        .ok (h, p1, EXPR x :: TCOMMA :: EXPR y :: TRBRACE :: rest) := by
    have := designatorLoop_member (h := h) (p := { anchored (initial t) with sub := 0 }) name
      (TASSIGN :: EXPR x :: TCOMMA :: EXPR y :: TRBRACE :: rest)
      (Or.inl (by simpa [anchored_obj, initial_obj] using hk)) hfind
    rw [designatorLoop_assign] at this
    simpa [reposition, membered, designator] using this
  have hsub1 : p1.sub = 1 := by simp [hp1]
  have hcur1 : p1.cur = some 0 := by simp [hp1]
  have hty1 : (p1.obj 1).type = typeunqual h mj.type := by simp [hp1, pushed_obj]
  have hoff1 : (p1.obj 1).offset = mj.offset := by
    simp [hp1, pushed_obj, setsel_obj, anchored_obj, initial_obj, hoj]
  have hty0 : (p1.obj 0).type = t := by
    simp [hp1, pushed_obj, setsel_obj, anchored_obj, initial_obj]
  have hoff0 : (p1.obj 0).offset = 0 := by
    simp [hp1, pushed_obj, setsel_obj, anchored_obj, initial_obj]
  have hsel0 : (p1.obj 0).sel = Sel.mem (mj :: mk :: post) := by
    simp [hp1, pushed_obj, setsel_obj]
  rw [parseinitLoop_scalar_value env _ [] hrep1 (by rw [hsub1, hty1]; exact hsj),
    closeLoop_comma _ hcur1 (by simp)]
  simp only [hsub1, hty1, hoff1, hej, freeze_scalar hsj]
  -- second item: the positional `y`
  obtain ⟨p2, hp2⟩ : ∃ p2, p2 = pushed h (setsel { p1 with sub := 0 } (Sel.mem (mk :: post)))
      mk.type mk.offset := ⟨_, rfl⟩
  have hrep2 : reposition h p1 (EXPR y :: TRBRACE :: rest) =
      .ok (h, p2, EXPR y :: TRBRACE :: rest) := by
    have := advance_struct_next (h := h) (p := p1) (s := 0) hsub1 (by rw [hty0]; exact hk)
      hsel0 (by simp [LEN_obj])
    simp [reposition, hcur1, hsub1, this, Except.map, hp2]
  have hsub2 : p2.sub = 1 := by simp [hp2]
  have hcur2 : p2.cur = some 0 := by simp [hp2, hcur1]
  have hty2 : (p2.obj 1).type = typeunqual h mk.type := by simp [hp2, pushed_obj]
  have hoff2 : (p2.obj 1).offset = mk.offset := by
    simp [hp2, pushed_obj, setsel_obj, hoff0, hok]
  have hty20 : (p2.obj 0).type = t := by
    simp [hp2, pushed_obj, setsel_obj, hty0]
  rw [parseinitLoop_scalar_value env _ _ hrep2 (by rw [hsub2, hty2]; exact hsk),
    closeLoop_rbrace_top _ hcur2]
  simp only [hsub2, hty2, hoff2, hek, freeze_scalar hsk, hty20, hfz]
  rw [initadd, initadd, if_pos (by simpa [mkinit] using hlay), initadd]

/-- Witness of `member_designator_continues`: `{.b = 1, 2}` on
`struct { int a, b, c; }` binds `b` and `c`. -/
theorem member_designator_continues_witness :
    parseinit envCast heapEx 10
        (TLBRACE :: (membered "b" (intconst 1) ++ TCOMMA :: EXPR (intconst 2) :: TRBRACE :: [])) =
      .ok { init :=
              [mkinit 4 (4 + (heapEx 0).size) (Expr.EXPRCAST 0 (intconst 1)),
               mkinit 8 (8 + (heapEx 0).size) (Expr.EXPRCAST 0 (intconst 2))]
            toks := [], heap := heapEx } :=
  member_designator_continues envCast heapEx 10 10 [⟨some "a", 0, 0⟩] [] ⟨some "b", 0, 4⟩
    ⟨some "c", 0, 8⟩ "b" (intconst 1) (intconst 2) [] rfl rfl rfl rfl (by decide) (by decide)
    (by
      intro m hm
      have hm2 : m ∈ [⟨some "a", 0, 0⟩, ⟨some "b", 0, 4⟩, (⟨some "c", 0, 8⟩ : Member)] := hm
      simp only [List.mem_cons, List.mem_singleton, List.not_mem_nil, or_false] at hm2
      rcases hm2 with rfl | rfl | rfl <;> exact ⟨rfl, by decide, by decide, by decide, by decide⟩)
    rfl (by decide) (by decide)

/-- C8: for an incomplete array target `t` whose element type is
character-compatible (once unqualified) and of size `es`, initialized by a bare
decayed string literal of recorded size `n`: `parseinit` sets the array's
length to `n + 1`, its size to `(n + 1) * es`, marks it complete, changes no
other type, and returns the one binding `[0, (n + 1) * es)` whose value is the
string literal itself, the operand of the decay. -/
theorem string_literal_array (env : Env) (h : Heap) (t0 t b : TypeId) (es : Nat)
    (ty sty : TypeId) (n : Nat) (data : List Nat) (rest : List Token)
    (ht : typeunqual h t0 = t) (hk : (h t).kind = TYPEARRAY)
    (hinc : (h t).incomplete = true) (hlen : (h t).length = 0)
    (hb : typeunqual h (h t).base = b) (hchar : (h b).propchar = true)
    (hes : (h (h t).base).size = es)
    (hn : n + 1 < UINT64) (hsz : (n + 1) * es < UINT64) :
    parseinit env h t0 (EXPR (EXPRUNARY ty true (EXPRSTRING sty n data)) :: rest) =
      .ok { init := [mkinit 0 ((n + 1) * es) (EXPRSTRING sty n data)]
            toks := rest
            heap := Function.update h t
              { h t with length := n + 1, size := (n + 1) * es, incomplete := false } } := by
  have hwn : wrap64 n = n := wrap64_of_lt (by omega)
  have hup : updatearray h t n = Function.update h t
      { h t with length := n + 1, size := (n + 1) * es } := by
    unfold updatearray
    simp [hinc, hlen, wrap64_of_lt hn, hes, wrap64_of_lt hsz]
  rw [parseinit_eq, if_neg (by rw [ht]; simp [hk, hlen]), ht, List.length_cons,
    parseinitLoop_succ, reposition_none _ (by simp)]
  simp only [assignexpr]
  rw [matchLoop_string_top env ty sty n data (by simpa [initial_obj] using hk)
    (by simpa [initial_obj, hb] using hchar)]
  simp only []
  rw [closeLoop_none _ (by simp)]
  simp [initial_obj, hwn, hup, freeze, hk, hinc, initadd, wrap64_of_lt hsz]

/-- Witness of `string_literal_array`: `char buf[] = "hi";`, the literal having
the recorded size 2. -/
theorem string_literal_array_witness :
    parseinit envCast heapEx 5
        (EXPR (EXPRUNARY 0 true (EXPRSTRING 5 2 [104, 105])) :: []) =
      .ok { init := [mkinit 0 ((2 + 1) * 1) (EXPRSTRING 5 2 [104, 105])]
            toks := []
            heap := Function.update heapEx 5
              { heapEx 5 with length := 2 + 1, size := (2 + 1) * 1, incomplete := false } } :=
  string_literal_array envCast heapEx 5 5 4 1 0 5 2 [104, 105] [] rfl rfl rfl rfl rfl rfl rfl
    (by decide) (by decide)

/-- C9: the stack has `LEN_obj = 32` slots.  `subobj` fails, with "too many
designators", exactly when the focus is the last slot (index 31); otherwise it
succeeds and the focus moves exactly one slot deeper.  From any anchor inside
the stack, `designator` on a chain of more than 32 designators `[i]` / `.name`
never succeeds: it ends in "too many designators", unless one of the
designators is rejected first for its index or name.  When the indices and
names of the chain are valid (`ValidChain`, from the type of the anchor), the
result is exactly the error "too many designators".  Whenever `designator`
succeeds the focus is at the anchor or deeper and inside the 32 slots. -/
theorem stack_bound (h : Heap) (p : Initparser) :
    (∀ (t : TypeId) (off : Nat),
      ((∃ e, subobj h p t off = .error e) ↔ p.sub = 31) ∧
      (∀ e, subobj h p t off = .error e → e = Error.tooManyDesignators) ∧
      (∀ q, subobj h p t off = .ok q → q.sub = p.sub + 1)) ∧
    (∀ (c : Nat) (ds : List Desig) (rest : List Token), p.cur = some c → c < LEN_obj →
      32 < ds.length →
      ∃ e, designator h p (chainToks ds ++ rest) = .error e ∧
        (e = Error.tooManyDesignators ∨ rejectsDesignator e = true)) ∧
    (∀ (c : Nat) (ds : List Desig) (rest : List Token), p.cur = some c → c < LEN_obj →
      32 < ds.length → ValidChain h (p.obj c).type ds →
      designator h p (chainToks ds ++ rest) = .error Error.tooManyDesignators) ∧
    (∀ (c : Nat) (toks : List Token) (h2 : Heap) (q : Initparser) (r : List Token),
      p.cur = some c → c < LEN_obj → designator h p toks = .ok (h2, q, r) →
      c ≤ q.sub ∧ q.sub < LEN_obj) := by
  refine ⟨fun t off => ⟨?_, ?_, ?_⟩, ?_, ?_, ?_⟩
  · rw [subobj_eq]
    by_cases hfull : p.sub + 1 = LEN_obj
    · simp only [hfull, if_true]
      exact ⟨fun _ => by simp only [LEN_obj] at hfull; omega, fun _ => ⟨_, rfl⟩⟩
    · simp only [hfull, if_false]
      constructor
      · rintro ⟨e, he⟩; cases he
      · intro hs; exact absurd (by simp [LEN_obj, hs]) hfull
  · intro e he
    rw [subobj_eq] at he
    split at he
    · injection he with he; exact he.symm
    · cases he
  · intro q hq
    rw [subobj_eq] at hq
    split at hq
    · cases hq
    · injection hq with hq; subst hq; rfl
  · intro c ds rest hcur hc hlen
    unfold designator
    rw [hcur]
    exact designatorLoop_chain_full rest ds h _ hc (by simp only [LEN_obj]; omega)
  · intro c ds rest hcur hc hlen hv
    exact designator_valid_full ds rest hcur hc hv (by simp only [LEN_obj]; omega)
  · intro c toks h2 q r hcur hc hd
    unfold designator at hd
    rw [hcur] at hd
    exact designatorLoop_sub_lt toks h _ hc h2 q r hd

/-- Witness of `stack_bound`: on arrays and structs nested in turn, the 34
designators `[0].m[0].m ...` form a valid chain, and `designator` ends in
exactly "too many designators". -/
theorem stack_bound_witness :
    ValidChain heapMixed ((anchored (initial 0)).obj 0).type (mixedChain 17) ∧
      32 < (mixedChain 17).length ∧
      designator heapMixed (anchored (initial 0)) (chainToks (mixedChain 17) ++ []) =
        .error Error.tooManyDesignators :=
  ⟨validChain_heapMixed 17 _ rfl, by decide,
    (stack_bound heapMixed (anchored (initial 0))).2.2.1 0 (mixedChain 17) []
      rfl (by decide) (by decide) (validChain_heapMixed 17 _ rfl)⟩

/-- C10: `parseinit` ends in "initializer specified for incomplete type"
exactly when the unqualified target type is incomplete and is not an array
whose recorded length is 0.  The statement holds for every token stream, the
empty one included: the rejection does not depend on any token, and no later
step of `parseinit` raises this error. -/
theorem incomplete_target_rejected (env : Env) (h : Heap) (t : TypeId) (toks : List Token) :
    parseinit env h t toks = .error Error.incompleteType ↔
      ((h (typeunqual h t)).incomplete = true ∧
        ¬ ((h (typeunqual h t)).kind = TYPEARRAY ∧ (h (typeunqual h t)).length = 0)) := by
  rw [parseinit_eq]
  split
  · simp_all
  · constructor
    · intro hc; exact absurd hc (parseinitLoop_ne_incomplete _ _ _ _ _ _)
    · intro hc; contradiction

end Claims

/-! ## The claims on the interval list, the designators and the cursor -/

section MoreClaims

open TypeKind Token Expr

/-- C11 (the code departs from the claim): on `struct S3 { int x, y, z; } arr[1]`
the initializer `{[0]=s, [0].x=1, [0].z=3}` leaves ONE binding, `[8, 12)` with
the value 3.  The list built by the first two items is `[0, 12)`, `[0, 4)`; the
binding `[0, 4)` of `x` lies entirely before the new binding `[8, 12)` of `z`
and is removed all the same: once `initadd` has dropped the whole-struct
binding it drops every following binding that ends at or before the end of the
new one, whatever its start.  In general, inserting `[m2, e)` into the built
list `[s, e)`, `[s, m)` with `s < m ≤ m2 < e` leaves `[m2, e)` alone.  What the
scan does keep are the bindings before the new one at the front of the list: a
run of leading bindings that all end at or before the start of the new binding
stays in place. -/
theorem initadd_drops_earlier :
    (parseinit envCast heapAgg 2 toksTail).map (fun r => r.init) =
        .ok [mkinit 8 12 (Expr.EXPRCAST 0 (intconst 3))] ∧
      (∀ (s m m2 e : Nat) (a b c : Expr), s < m → m ≤ m2 → m2 < e →
        Built [mkinit s e a, mkinit s m b] ∧
        (mkinit m2 e c).start < (mkinit m2 e c).stop ∧
        mkinit s m b ∈ [mkinit s e a, mkinit s m b] ∧
        (mkinit s m b).stop ≤ (mkinit m2 e c).start ∧
        initadd [mkinit s e a, mkinit s m b] (mkinit m2 e c) = [mkinit m2 e c] ∧
        mkinit s m b ∉ initadd [mkinit s e a, mkinit s m b] (mkinit m2 e c)) ∧
      ∀ (pre rest : List Init) (new : Init), (∀ o ∈ pre, o.stop ≤ new.start) →
        initadd (pre ++ rest) new = pre ++ initadd rest new := by
  refine ⟨run_toksTail, ?_, initadd_leading⟩
  intro s m m2 e a b c h1 h2 h3
  have hlist : initadd (initadd [] (mkinit s e a)) (mkinit s m b) =
      [mkinit s e a, mkinit s m b] := by
    have c1 : ¬ s ≥ e := by omega
    have c2 : ¬ m ≤ s := by omega
    have c3 : ¬ m ≥ e := by omega
    simp only [initadd, mkinit, c1, c2, c3, if_false]
  have hins : initadd [mkinit s e a, mkinit s m b] (mkinit m2 e c) = [mkinit m2 e c] := by
    have c1 : ¬ m2 ≥ e := by omega
    have c2 : ¬ e ≤ s := by omega
    have c3 : e ≥ m := by omega
    simp only [initadd, initskip, mkinit, c1, c2, c3, if_false, if_true, ge_iff_le, le_refl]
  refine ⟨?_, by simp only [mkinit]; omega, by simp, by simpa [mkinit] using h2, hins, ?_⟩
  · rw [← hlist]
    exact Built.add _ _ (Built.add _ _ Built.nil (by simp only [mkinit]; omega))
      (by simp only [mkinit]; omega)
  · rw [hins]
    simp only [List.mem_singleton, mkinit, Init.mk.injEq, not_and]
    intro hs
    omega

/-- C12 (the code departs from the claim): on the union of
`struct { int a; struct P p; }` and `struct { struct P q; int c; }` the
initializer `{.s1.p = pv, .s2.q = qv}` returns the bindings `[4, 12)`, `[0, 8)`
in this order, which is not ascending in `start`.  In general, for
`s2 < s < e2 < e` the one-element list `[s, e)` is in ascending order, and
inserting `[s2, e2)`, which starts before it and ends inside it, puts the new
binding AFTER it: `initadd` takes every binding that ends past the end of the
new one for a binding that covers the new one. -/
theorem initadd_breaks_order :
    (parseinit envCast heapAgg 6 toksUnion).map (fun r => r.init) =
        .ok [mkinit 4 12 (Expr.EXPRIDENT 3 "pv"), mkinit 0 8 (Expr.EXPRIDENT 3 "qv")] ∧
      ¬ Ascending [mkinit 4 12 (Expr.EXPRIDENT 3 "pv"), mkinit 0 8 (Expr.EXPRIDENT 3 "qv")] ∧
      ∀ (s s2 e2 e : Nat) (a b : Expr), s2 < s → s < e2 → e2 < e →
        Ascending [mkinit s e a] ∧ Built [mkinit s e a] ∧
        initadd [mkinit s e a] (mkinit s2 e2 b) = [mkinit s e a, mkinit s2 e2 b] ∧
        ¬ Ascending (initadd [mkinit s e a] (mkinit s2 e2 b)) := by
  refine ⟨run_toksUnion, by simp [Ascending, mkinit], ?_⟩
  intro s s2 e2 e a b h1 h2 h3
  have hins : initadd [mkinit s e a] (mkinit s2 e2 b) = [mkinit s e a, mkinit s2 e2 b] := by
    have c1 : ¬ s2 ≥ e := by omega
    have c2 : ¬ e2 ≤ s := by omega
    have c3 : ¬ e2 ≥ e := by omega
    simp only [initadd, mkinit, c1, c2, c3, if_false]
  refine ⟨by simp [Ascending], ?_, hins, ?_⟩
  · exact Built.add [] _ Built.nil (by simp only [mkinit]; omega)
  · rw [hins]
    simp only [Ascending, List.pairwise_cons, List.mem_singleton, forall_eq, mkinit, not_and]
    intro hle
    omega

/-- C13 (amended): an index designator `[i]`, `i` a `uint64_t`, applied to a
focus whose type `t` is an array with element size `e` (the element type not
being `t` itself).  If `t` is complete with length `N`, the designator ends in
"index designator is larger than array length" exactly when `i ≥ N`; if `t` is
incomplete it never ends in that error, and when `i + 1 < 2^64` the length of
`t` becomes `max (old length) (i + 1)`, with `size = length * e` provided the
size was `length * e` before and the new product is below `2^64`; no other
type changes.  Whenever the index is not rejected and the focus is not the
last slot of the stack, the designator is accepted: the focus moves one slot
deeper, to the element type, unqualified, at the offset
`(working offset + i * e) mod 2^64`. -/
theorem index_designator (h : Heap) (p : Initparser) (ty : TypeId) (i : Nat) (rest : List Token)
    (hk : (h (p.obj p.sub).type).kind = TYPEARRAY) (hi : i < UINT64)
    (hb : (h (p.obj p.sub).type).base ≠ (p.obj p.sub).type) :
    ((h (p.obj p.sub).type).incomplete = false →
      (designatorLoop (TLBRACK :: EXPR (EXPRCONST ty i) :: TRBRACK :: TASSIGN :: rest) h p =
          .error Error.indexTooLarge ↔ (h (p.obj p.sub).type).length ≤ i) ∧
      (i < (h (p.obj p.sub).type).length → p.sub + 1 < LEN_obj →
        ∃ q, designatorLoop (TLBRACK :: EXPR (EXPRCONST ty i) :: TRBRACK :: TASSIGN :: rest) h p =
            .ok (h, q, rest) ∧
          q.sub = p.sub + 1 ∧ q.cur = p.cur ∧
          (q.obj q.sub).type = typeunqual h (h (p.obj p.sub).type).base ∧
          (q.obj q.sub).offset =
            wrap64 ((p.obj p.sub).offset + i * (h (h (p.obj p.sub).type).base).size))) ∧
    ((h (p.obj p.sub).type).incomplete = true →
      designatorLoop (TLBRACK :: EXPR (EXPRCONST ty i) :: TRBRACK :: TASSIGN :: rest) h p ≠
          .error Error.indexTooLarge ∧
      (i + 1 < UINT64 → p.sub + 1 < LEN_obj →
        ∃ h1 q, designatorLoop (TLBRACK :: EXPR (EXPRCONST ty i) :: TRBRACK :: TASSIGN :: rest) h p =
            .ok (h1, q, rest) ∧
          (h1 (p.obj p.sub).type).length = max (h (p.obj p.sub).type).length (i + 1) ∧
          ((h (p.obj p.sub).type).size =
              (h (p.obj p.sub).type).length * (h (h (p.obj p.sub).type).base).size →
            max (h (p.obj p.sub).type).length (i + 1) * (h (h (p.obj p.sub).type).base).size
              < UINT64 →
            (h1 (p.obj p.sub).type).size =
              (h1 (p.obj p.sub).type).length * (h (h (p.obj p.sub).type).base).size) ∧
          (∀ x, x ≠ (p.obj p.sub).type → h1 x = h x) ∧
          q.sub = p.sub + 1 ∧ q.cur = p.cur ∧
          (q.obj q.sub).type = typeunqual h (h (p.obj p.sub).type).base ∧
          (q.obj q.sub).offset =
            wrap64 ((p.obj p.sub).offset + i * (h (h (p.obj p.sub).type).base).size))) := by
  have hwi : wrap64 i = i := wrap64_of_lt hi
  rw [designatorLoop_index_eq h p ty i _ hk, hwi]
  constructor
  · intro hc
    have hu : updatearray h (p.obj p.sub).type i = h := updatearray_complete i hc
    constructor
    · constructor
      · intro he
        by_contra hlt
        rw [if_neg (by rintro ⟨-, hge⟩; omega)] at he
        split at he
        · cases he
        · rw [designatorLoop_assign] at he
          cases he
      · intro hge
        rw [if_pos ⟨hc, hge⟩]
    · intro hlt hp
      rw [if_neg (by rintro ⟨-, hge⟩; omega), if_neg (by omega), designatorLoop_assign, hu]
      refine ⟨_, rfl, rfl, rfl, ?_, ?_⟩
      · simp [pushed_obj]
      · simp only [pushed_obj, pushed_sub, setsel_sub, if_true, setsel_obj]
        rw [Nat.add_comm, Nat.mul_comm, wrap64_add_wrap64]
  · intro hinc
    have hne : ¬ ((h (p.obj p.sub).type).incomplete = false ∧
        i ≥ (h (p.obj p.sub).type).length) := by
      rintro ⟨hc, -⟩
      rw [hinc] at hc
      cases hc
    rw [if_neg hne]
    constructor
    · split
      · intro he; cases he
      · rw [designatorLoop_assign]
        intro he; cases he
    · intro hi1 hp
      rw [if_neg (by omega), designatorLoop_assign]
      obtain ⟨g1, g2⟩ := updatearray_grow i hinc hi1
      refine ⟨_, _, rfl, g1, g2, fun x hx => updatearray_other i hx, rfl, rfl, ?_, ?_⟩
      · simp [pushed_obj, typeunqual, updatearray_kind, updatearray_base]
      · simp only [pushed_obj, pushed_sub, setsel_sub, if_true, setsel_obj, updatearray_base]
        rw [updatearray_other i hb, Nat.add_comm, Nat.mul_comm, wrap64_add_wrap64]


/-- Witness of `index_designator`: `[1] =` on `int [3]` moves the focus to the
`int` at offset 4. -/
theorem index_designator_witness :
    ∃ q, designatorLoop (TLBRACK :: EXPR (EXPRCONST 0 1) :: TRBRACK :: TASSIGN :: []) heapEx
          (anchored (initial 6)) = .ok (heapEx, q, []) ∧
      q.sub = 0 + 1 ∧ q.cur = some 0 ∧ (q.obj q.sub).type = typeunqual heapEx 0 ∧
      (q.obj q.sub).offset = wrap64 (0 + 1 * 4) :=
  ((index_designator heapEx (anchored (initial 6)) 0 1 [] rfl (by decide) (by decide)).1 rfl).2
    (by decide) (by decide)

/-- C13 (as stated, refuted): on the incomplete `int []` of length 0 the
designator `[18446744073709551615] =` is accepted and leaves the length 0, not
`max 0 (i + 1)`, the new focus being at offset `2^64 - 4`, not `i * 4`: the
increment in `updatearray` and the product wrap.  And with the focus at the
last slot of the stack, `[0] =` on the same incomplete array does end in an
error, "too many designators". -/
theorem index_designator_wraps :
    (designator heapEx (anchored (initial 3))
        (TLBRACK :: EXPR (EXPRCONST 11 18446744073709551615) :: TRBRACK :: TASSIGN :: [])).toOption.map
      (fun r => ((r.1 3).length, decide ((r.1 3).length = max (heapEx 3).length (18446744073709551615 + 1)),
        (r.2.1.obj r.2.1.sub).offset)) = some (0, false, 18446744073709551612) ∧
    (heapEx 3).incomplete = true ∧
    designatorLoop (TLBRACK :: EXPR (EXPRCONST 0 0) :: TRBRACK :: TASSIGN :: []) heapEx (lastSlot 3) =
      .error Error.tooManyDesignators := by
  refine ⟨by decide!, rfl, rfl⟩

/-- C14 (amended): a member designator `.name` applied to a focus whose type
`t` is a struct or union, the unnamed members below `t` nesting at most `d`
levels deep and the stack having `d + 1` free slots above the focus.  Then
`findmember` returns false exactly when no named member called `name` is
reachable from `t` through zero or more unnamed members, and `designator`
reports "struct has no member named ..." ("union ..." when `t` is a union)
exactly in that case; a reachable name is found and the designator accepted.
When `findmember` returns false the focus is the slot it was before the
search, and that slot and the slots below it are unchanged. -/
theorem member_search (h : Heap) (p : Initparser) (name : String) (d : Nat) (rest : List Token)
    (hk : (h (p.obj p.sub).type).kind = TYPESTRUCT ∨ (h (p.obj p.sub).type).kind = TYPEUNION)
    (ht : anonWithin h d (p.obj p.sub).type = true) (hp : p.sub + d + 1 < LEN_obj) :
    ((∃ q, findmember h p name = .ok (false, q)) ↔ ¬ Reachable h name (p.obj p.sub).type) ∧
    (designatorLoop (TPERIOD :: TIDENT name :: TASSIGN :: rest) h p =
        .error (Error.noMember (decide ((h (p.obj p.sub).type).kind = TYPEUNION)) name) ↔
      ¬ Reachable h name (p.obj p.sub).type) ∧
    (Reachable h name (p.obj p.sub).type →
      ∃ q, findmember h p name = .ok (true, q) ∧ p.sub < q.sub ∧
        designatorLoop (TPERIOD :: TIDENT name :: TASSIGN :: rest) h p = .ok (h, q, rest)) ∧
    (∀ q, findmember h p name = .ok (false, q) →
      q.sub = p.sub ∧ q.cur = p.cur ∧ ∀ i, i ≤ p.sub → q.obj i = p.obj i) := by
  have hfound : Reachable h name (p.obj p.sub).type →
      ∃ q, findmember h p name = .ok (true, q) ∧ p.sub < q.sub ∧
        designatorLoop (TPERIOD :: TIDENT name :: TASSIGN :: rest) h p = .ok (h, q, rest) := by
    intro hr
    obtain ⟨off, m, hres⟩ := resolves_of_reachable h name d _ ht hr
    obtain ⟨q, h1, h2, -⟩ := findmember_resolves h name hres p (by omega) rfl
    exact ⟨q, h1, h2, by rw [designatorLoop_member name _ hk h1, designatorLoop_assign]⟩
  have hmiss : ¬ Reachable h name (p.obj p.sub).type →
      ∃ q, findmember h p name = .ok (false, q) ∧ q.sub = p.sub ∧ q.cur = p.cur ∧
        ∀ i, i ≤ p.sub → q.obj i = p.obj i :=
    fun hr => findmember_unreachable h name ht hr (by omega)
  have hback : ∀ q, findmember h p name = .ok (false, q) →
      ¬ Reachable h name (p.obj p.sub).type := by
    intro q hq hr
    obtain ⟨q2, h1, -⟩ := hfound hr
    rw [hq] at h1
    cases h1
  refine ⟨⟨fun ⟨q, hq⟩ => hback q hq, fun hr => ?_⟩, ⟨fun he hr => ?_, fun hr => ?_⟩, hfound, ?_⟩
  · obtain ⟨q, hq, -⟩ := hmiss hr
    exact ⟨q, hq⟩
  · obtain ⟨q, -, -, hq⟩ := hfound hr
    rw [hq] at he
    cases he
  · obtain ⟨q, hq, -⟩ := hmiss hr
    exact designatorLoop_nomember name _ hk hq
  · intro q hq
    obtain ⟨q2, h1, h2⟩ := hmiss (hback q hq)
    rw [hq] at h1
    cases h1
    exact h2

/-- Witness of `member_search`: `.z` is found from
`struct { int a; struct { int z; }; int c; }`. -/
theorem member_search_witness :
    ∃ q, findmember heapEx (anchored (initial 7)) "z" = .ok (true, q) ∧
      (anchored (initial 7)).sub < q.sub ∧
      designatorLoop (TPERIOD :: TIDENT "z" :: TASSIGN :: []) heapEx (anchored (initial 7)) =
        .ok (heapEx, q, []) :=
  (member_search heapEx (anchored (initial 7)) "z" 1 [] (Or.inl rfl) rfl (by decide)).2.2.1
    (Reachable.anon 7 ⟨none, 8, 4⟩ (by decide) rfl
      (Reachable.named 8 ⟨some "z", 0, 0⟩ (by decide) rfl))

/-- C14 (as stated, refuted): with 32 nested unnamed structs no member called
`w` is reachable from the outermost one, yet `findmember` does not come back
with false and `designator` does not report "no member named": the search
fills the 32 slots of the stack and ends in "too many designators". -/
theorem member_search_overflows :
    ¬ Reachable heapShaft "w" 0 ∧
      findmember heapShaft (anchored (initial 0)) "w" = .error Error.tooManyDesignators ∧
      designator heapShaft (anchored (initial 0)) (TPERIOD :: TIDENT "w" :: TASSIGN :: []) =
        .error Error.tooManyDesignators := by
  refine ⟨?_, rfl, rfl⟩
  have key : ∀ t, Reachable heapShaft "w" t → False := by
    intro t hr
    induction hr with
    | named t m hm hn =>
      unfold heapShaft at hm
      split at hm
      · simp only [structNode, List.mem_singleton] at hm
        subst hm
        cases hn
      · split at hm
        · simp only [structNode, List.mem_singleton] at hm
          subst hm
          simp at hn
        · simp [scalarNode] at hm
    | anon t a ha hn hr ih => exact ih
  exact key 0

/-- C15: a union `t` whose first member is scalar (`b0` its type, unqualified).
As a target, `parseinit` on `{v1}` returns the one binding `[0, size b0)`
holding `v1` converted to `b0`, and on `{v1, v2}` it ends in "too many
initializers for type".  As the member `u` of a braced struct whose members
before `u` are scalars, followed by the scalar member `c`, and initialized
without braces of its own by a value `v1` whose type is not compatible with
the union: after the values `xs` of the members before `u`, `v1` is bound to
the first member of the union, at the offset of `u`, and the next value `v2`
is bound to `c`, the member declared after the union; the returned list is the
result of inserting these bindings in this order, and `initadd` always leaves
the binding it inserts in the list. -/
theorem union_no_sibling (env : Env) (h : Heap) (t : TypeId) (m0 : Member) (ms0 : List Member)
    (hkt : (h t).kind = TYPEUNION) (hinc : (h t).incomplete = false)
    (hmt : (h t).members = m0 :: ms0) (hs0 : IsScalar h (typeunqual h m0.type))
    (hsz : (h (typeunqual h m0.type)).size < UINT64) :
    (∀ (t0 : TypeId) (v1 v2 : Expr) (rest : List Token), typeunqual h t0 = t →
      parseinit env h t0 (TLBRACE :: EXPR v1 :: TRBRACE :: rest) =
          .ok { init := [mkinit 0 (h (typeunqual h m0.type)).size
                  (env.exprconvert h v1 (typeunqual h m0.type))]
                toks := rest, heap := h } ∧
        parseinit env h t0 (TLBRACE :: EXPR v1 :: TCOMMA :: EXPR v2 :: TRBRACE :: rest) =
          .error Error.tooManyInitializers) ∧
    (∀ (s0 s : TypeId) (pre post : List Member) (u c : Member) (xs : List Expr) (v1 v2 : Expr)
      (rest : List Token), typeunqual h s0 = s → (h s).kind = TYPESTRUCT →
      (h s).incomplete = false → (h s).members = pre ++ u :: c :: post →
      (∀ x xs, (h s).members = x :: xs → x.offset = 0) →
      typeunqual h u.type = t → xs.length = pre.length →
      (∀ m ∈ pre, IsScalar h (typeunqual h m.type) ∧
        m.offset + (h (typeunqual h m.type)).size < UINT64) →
      env.typecompatible h v1.type t = false →
      u.offset + (h (typeunqual h m0.type)).size < UINT64 →
      IsScalar h (typeunqual h c.type) →
      c.offset + (h (typeunqual h c.type)).size < UINT64 →
      parseinit env h s0
          (TLBRACE :: (commaSep ((xs ++ [v1, v2]).map fun v => [EXPR v]) ++ TRBRACE :: rest)) =
        .ok { init := initadd
                (initadd (initaddAll [] (List.zipWith (memberInit env h) pre xs))
                  (mkinit u.offset (u.offset + (h (typeunqual h m0.type)).size)
                    (env.exprconvert h v1 (typeunqual h m0.type))))
                (memberInit env h c v2)
              toks := rest, heap := h }) ∧
    (∀ (l : List Init) (new : Init), new ∈ initadd l new) := by
  refine ⟨?_, ?_, mem_initadd_self⟩
  · intro t0 v1 v2 rest ht
    have hu0 := typeunqual_of_scalar hs0
    obtain ⟨p1, hp1⟩ : ∃ p1, p1 = pushed h (setsel (anchored (initial t)) (Sel.mem (m0 :: ms0)))
        m0.type 0 := ⟨_, rfl⟩
    have hrep : ∀ toks, (∀ r, toks ≠ TLBRACK :: r) → (∀ r, toks ≠ TPERIOD :: r) →
        reposition h (anchored (initial t)) toks = .ok (h, p1, toks) := by
      intro toks h1 h2
      have hf := @focus_struct h (anchored (initial t)) m0 ms0
        (Or.inr (by simpa [anchored_obj, initial_obj] using hkt))
        (by simpa [anchored_obj, initial_obj] using hmt) (by simp [LEN_obj])
      unfold reposition
      simp only [anchored_cur, initial_sub]
      simp only [anchored_sub, initial_sub, ne_eq, not_true_eq_false, if_false, hf, Except.map,
        hp1]
    have hsub1 : p1.sub = 1 := by simp [hp1]
    have hcur1 : p1.cur = some 0 := by simp [hp1]
    have hty1 : (p1.obj 1).type = typeunqual h m0.type := by simp [hp1, pushed_obj]
    have hoff1 : (p1.obj 1).offset = 0 := by
      simp [hp1, pushed_obj, setsel_obj, anchored_obj, initial_obj]
    have hty0 : (p1.obj 0).type = t := by
      simp [hp1, pushed_obj, setsel_obj, anchored_obj, initial_obj]
    have hfz : freeze h t = h := freeze_of_complete hinc
    constructor
    · rw [parseinit_brace env h t0 _ (by rw [ht, hinc]; simp), ht]
      simp only [List.length_cons]
      rw [parseinitLoop_scalar_value env _ [] (hrep _ (by simp) (by simp))
        (by rw [hsub1, hty1]; exact hs0), closeLoop_rbrace_top _ hcur1]
      simp [hsub1, hty1, hoff1, hty0, hfz, freeze_scalar hs0, initadd, wrap64_of_lt hsz]
    · rw [parseinit_brace env h t0 _ (by rw [ht, hinc]; simp), ht]
      simp only [List.length_cons]
      rw [parseinitLoop_scalar_value env _ [] (hrep _ (by simp) (by simp))
        (by rw [hsub1, hty1]; exact hs0), closeLoop_comma _ hcur1 (by simp)]
      simp only [hsub1, hty1, freeze_scalar hs0]
      rw [parseinitLoop_succ]
      have hadv := advance_union_top (h := h) (p := p1) (s := 0) hsub1
        (by rw [hty0]; exact hkt) hcur1
      simp [reposition, hcur1, hsub1, freeze_scalar hs0, hadv, Except.map]
  · intro s0 s pre post u c xs v1 v2 rest hs hk hsinc hms hfirst hu hlen hpre hcompat hfit0
      hsc hfitc
    rw [parseinit_brace env h s0 _ (by rw [hs, hsinc]; simp), hs]
    obtain ⟨n, hn⟩ : ∃ n, (commaSep ((xs ++ [v1, v2]).map fun v => [EXPR v]) ++
        TRBRACE :: rest).length + 1 = n + 1 + 1 + pre.length := by
      have := commaSep_values_length (xs ++ [v1, v2])
      simp only [List.length_append, List.length_cons, List.length_nil] at this ⊢
      exact ⟨(commaSep ((xs ++ [v1, v2]).map fun v => [EXPR v])).length + rest.length
        - pre.length, by omega⟩
    rw [hn]
    obtain ⟨p1, hB1, hrun⟩ := struct_run env hk hfirst [v1, v2] (by simp) (TRBRACE :: rest)
      (u :: c :: post) pre xs (anchored (initial s)) [] (n + 1 + 1) hlen
      ⟨by simp, by simp [anchored_obj, initial_obj], by simp [anchored_obj, initial_obj],
        Or.inl ⟨by simp, hms⟩⟩ hpre
    rw [hrun]
    have htoks : commaSep ([v1, v2].map fun v => [EXPR v]) ++ TRBRACE :: rest =
        EXPR v1 :: TCOMMA :: EXPR v2 :: TRBRACE :: rest := by simp [commaSep]
    rw [htoks]
    exact union_member_step env v1 v2 rest n _ hB1 hk hfirst hu hkt hmt hs0 hcompat hfit0 hsc hfitc

/-- Witness of `union_no_sibling`: `{1}` and `{1, 2}` on
`union U { int a; char b; }`, and `{1, 2}` on `struct { union U u; int c; }`. -/
theorem union_no_sibling_witness :
    (parseinit envCast heapAgg 11 (TLBRACE :: EXPR (intconst 1) :: TRBRACE :: []) =
        .ok { init := [mkinit 0 4 (Expr.EXPRCAST 0 (intconst 1))], toks := [], heap := heapAgg } ∧
      parseinit envCast heapAgg 11
          (TLBRACE :: EXPR (intconst 1) :: TCOMMA :: EXPR (intconst 2) :: TRBRACE :: []) =
        .error Error.tooManyInitializers) ∧
    parseinit envCast heapAgg 12
        (TLBRACE :: (commaSep (([] ++ [intconst 1, intconst 2]).map fun v => [EXPR v]) ++
          TRBRACE :: [])) =
      .ok { init := [mkinit 0 4 (Expr.EXPRCAST 0 (intconst 1)),
              mkinit 4 8 (Expr.EXPRCAST 0 (intconst 2))]
            toks := [], heap := heapAgg } :=
  ⟨(union_no_sibling envCast heapAgg 11 ⟨some "a", 0, 0⟩ [⟨some "b", 13, 0⟩] rfl rfl rfl
      ⟨rfl, by decide, by decide, by decide, by decide⟩ (by decide)).1 11 (intconst 1)
      (intconst 2) [] rfl,
    (union_no_sibling envCast heapAgg 11 ⟨some "a", 0, 0⟩ [⟨some "b", 13, 0⟩] rfl rfl rfl
      ⟨rfl, by decide, by decide, by decide, by decide⟩ (by decide)).2.1 12 12 [] []
      ⟨some "u", 11, 0⟩ ⟨some "c", 0, 4⟩ [] (intconst 1) (intconst 2) [] rfl rfl rfl rfl
      (by
        intro x xs hm
        have hm2 : [⟨some "u", 11, 0⟩, (⟨some "c", 0, 4⟩ : Member)] = x :: xs := hm
        cases hm2
        rfl)
      rfl rfl (by simp) rfl (by decide) ⟨rfl, by decide, by decide, by decide, by decide⟩
      (by decide)⟩

/-- C16 (amended): `focus` on a scalar focus pushes as well.  When the focus
is not the last slot of the stack, `focus` succeeds, the type store unchanged,
and the focus moves one slot deeper, to a slot holding the same scalar type at
the same offset (reduced modulo `2^64`); the old focus and the slots below it
are unchanged.  When the focus is the last slot, `focus` ends in "too many
designators".  For every focus type, whenever `focus` succeeds the focus is
exactly one slot deeper than before. -/
theorem focus_scalar_pushes (h : Heap) (p : Initparser)
    (hs : IsScalar h (p.obj p.sub).type) :
    (p.sub + 1 < LEN_obj →
      ∃ q, focus h p = .ok (h, q) ∧ q.sub = p.sub + 1 ∧ q.cur = p.cur ∧
        (q.obj q.sub).type = (p.obj p.sub).type ∧
        (q.obj q.sub).offset = wrap64 (p.obj p.sub).offset ∧
        ∀ i, i ≤ p.sub → q.obj i = p.obj i) ∧
    (p.sub + 1 = LEN_obj → focus h p = .error Error.tooManyDesignators) ∧
    (∀ (h2 : Heap) (p2 : Initparser) (h3 : Heap) (q : Initparser),
      focus h2 p2 = .ok (h3, q) → q.sub = p2.sub + 1) := by
  refine ⟨fun hp => ?_, fun hp => ?_, fun h2 p2 h3 q hf => (focus_sub hf).1⟩
  · rw [focus_scalar hs, subobj_ok _ _ (by omega)]
    refine ⟨_, rfl, rfl, rfl, ?_, ?_, ?_⟩
    · simp [pushed_obj, typeunqual_of_scalar hs]
    · simp [pushed_obj]
    · intro i hi
      rw [pushed_obj, if_neg (by omega)]
  · rw [focus_scalar hs, subobj_eq, if_pos hp]
    rfl

/-- Witness of `focus_scalar_pushes`: after `{` on an `int` target, `focus`
moves the focus from slot 0 to slot 1. -/
theorem focus_scalar_pushes_witness :
    ∃ q, focus heapEx (anchored (initial 0)) = .ok (heapEx, q) ∧ q.sub = 0 + 1 ∧
      q.cur = some 0 ∧ (q.obj q.sub).type = 0 ∧ (q.obj q.sub).offset = wrap64 0 ∧
      ∀ i, i ≤ 0 → q.obj i = (anchored (initial 0)).obj i :=
  (focus_scalar_pushes heapEx (anchored (initial 0))
    ⟨rfl, by decide, by decide, by decide, by decide⟩).1 (by decide)

/-- C16 (as stated, refuted): with the scalar `int` at the focus, slot 0,
`focus` succeeds and leaves the focus at slot 1: the stack is one deeper. -/
theorem focus_scalar_moves :
    IsScalar heapEx ((anchored (initial 0)).obj (anchored (initial 0)).sub).type ∧
      (anchored (initial 0)).sub = 0 ∧
      (focus heapEx (anchored (initial 0))).toOption.map (fun r => r.2.sub) = some 1 :=
  ⟨⟨rfl, by decide, by decide, by decide, by decide⟩, rfl, rfl⟩

/-- C17 (amended): `parseinitT` computes the same result as `parseinit` and
logs the parser state after every statement of `init.c` that assigns `p.cur`
or `p.sub` (the state a call returns has the anchor and the focus of the last
entry logged during the call: lemmas `subobjT_tracks` to `repositionT_tracks`;
`log_sample` is the log of `int a[3] = {1, 2}`).  On every target type and
token stream the log starts with the initial state and:
* after every such statement but one, the focus is one of the 32 slots and,
  whenever an anchor is set, not below it: `index(p.cur) ≤ index(p.sub) ≤ 31`;
* whenever `advance` is about to lower the focus, an anchor is set and the
  focus is strictly above it (hence above slot 0), so `advance` never moves it
  below the anchor or below slot 0;
* the exception is the state inside `subobj` right after `++p->sub` when the
  stack is full: there the focus is one past the last slot, index 32, and
  `parseinit` ends in "too many designators".
Moreover `subobj`, `findmember`, `designator`, `focus`, `advance`, the matching
loop, the closing loop and the head of the outer loop, called in a state with
`index(p.cur) ≤ index(p.sub) ≤ 31`, return, if they return, a state with the
same property, and `advance` returns with the focus strictly above the anchor
and not above where it was. -/
theorem cursor_invariant (env : Env) (h : Heap) (t : TypeId) (toks : List Token) :
    (parseinitT env h t toks).result = parseinit env h t toks ∧
    Event.moved (initial (typeunqual h t)) ∈ (parseinitT env h t toks).events ∧
    (∀ p, Event.moved p ∈ (parseinitT env h t toks).events →
      p.sub ≤ 31 ∧ ∀ c, p.cur = some c → c ≤ p.sub) ∧
    (∀ p, Event.lowering p ∈ (parseinitT env h t toks).events →
      p.sub ≤ 31 ∧ ∃ c, p.cur = some c ∧ c < p.sub) ∧
    (∀ p, Event.overflow p ∈ (parseinitT env h t toks).events →
      p.sub = 32 ∧ (∀ c, p.cur = some c → c ≤ p.sub) ∧
        parseinit env h t toks = .error Error.tooManyDesignators) ∧
    (∀ (h0 : Heap) (p : Initparser), (p.sub ≤ 31 ∧ ∀ c, p.cur = some c → c ≤ p.sub) →
      (∀ ty off q, subobj h0 p ty off = .ok q →
        q.sub ≤ 31 ∧ ∀ c, q.cur = some c → c ≤ q.sub) ∧
      (∀ name b q, findmember h0 p name = .ok (b, q) →
        q.sub ≤ 31 ∧ ∀ c, q.cur = some c → c ≤ q.sub) ∧
      (∀ toks0 h1 q toks1, designator h0 p toks0 = .ok (h1, q, toks1) →
        q.sub ≤ 31 ∧ ∀ c, q.cur = some c → c ≤ q.sub) ∧
      (∀ h1 q, focus h0 p = .ok (h1, q) → q.sub ≤ 31 ∧ ∀ c, q.cur = some c → c ≤ q.sub) ∧
      (∀ c h1 q, p.cur = some c → p.sub ≠ c → advance h0 p = .ok (h1, q) →
        q.cur = some c ∧ c < q.sub ∧ q.sub ≤ p.sub) ∧
      (∀ e h1 q e1, matchLoop env LEN_obj h0 p e = .ok (h1, q, e1) →
        q.sub ≤ 31 ∧ ∀ c, q.cur = some c → c ≤ q.sub) ∧
      (∀ toks0 h1 q toks1, closeLoop toks0 h0 p = .ok (Closed.brk h1 q toks1) →
        q.sub ≤ 31 ∧ ∀ c, q.cur = some c → c ≤ q.sub) ∧
      (∀ toks0 h1 q toks1, reposition h0 p toks0 = .ok (h1, q, toks1) →
        q.sub ≤ 31 ∧ ∀ c, q.cur = some c → c ≤ q.sub)) := by
  have hm := parseinitT_meets env h t toks
  refine ⟨parseinitT_result env h t toks, initial_logged env h t toks,
    fun p hp => hm.1 _ hp, fun p hp => hm.1 _ hp, fun p hp => ?_, fun h0 p hinv => ?_⟩
  · obtain ⟨a, b⟩ := hm.1 _ hp
    exact ⟨a, b, by rw [← parseinitT_result]; exact hm.2.1 p hp⟩
  · have hp : CursorInv p := (cursorInv_iff p).mpr hinv
    refine ⟨fun ty off q hq => ?_, fun name b q hq => ?_, fun toks0 h1 q toks1 hq => ?_,
      fun h1 q hq => ?_, fun c h1 q hc hne hq => ?_, fun e h1 q e1 hq => ?_,
      fun toks0 h1 q toks1 hq => ?_, fun toks0 h1 q toks1 hq => ?_⟩
    · rw [← subobjT_result] at hq
      exact (cursorInv_iff q).mp ((subobjT_meets h0 p ty off hp).2.2 q hq).1
    · rw [← findmemberT_result] at hq
      exact (cursorInv_iff q).mp ((findmemberT_meets h0 p name hp).2.2 (b, q) hq).1
    · rw [← designatorT_result] at hq
      exact (cursorInv_iff q).mp ((designatorT_meets h0 p toks0 hp).2.2 (h1, q, toks1) hq)
    · rw [← focusT_result] at hq
      exact (cursorInv_iff q).mp ((focusT_meets h0 p hp).2.2 (h1, q) hq).1
    · obtain ⟨a1, a2⟩ := advanceLoop_frame _ _ _ _ _ hq
      have a3 := advanceLoop_lower c p.sub h0 p hc (by have := hp.2 c hc; omega) _ _ hq
      exact ⟨by rw [a1]; exact hc, a3, a2⟩
    · rw [← matchLoopT_result] at hq
      exact (cursorInv_iff q).mp ((matchLoopT_meets env LEN_obj h0 p e hp).2.2 (h1, q, e1) hq)
    · exact (cursorInv_iff q).mp (closeLoop_inv toks0 h0 p h1 q toks1 hq hp)
    · exact (cursorInv_iff q).mp (reposition_inv hq hp)

/-- C17 (as stated, refuted): on the array type `T[1]`, `T` being again an
array `T[1]`, and so on at least 33 levels deep, the initializer `{1}` makes
`focus` descend until `subobj` is called with the focus at the last slot.
Right after `++p->sub` the anchor is set, at slot 0, and the focus is at index
32, not at most 31; `parseinit` then ends in "too many designators". -/
theorem cursor_overflow :
    ∃ p, Event.overflow p ∈ (parseinitT envCast heapNest 0 toksOne).events ∧
      p.cur = some 0 ∧ p.sub = 32 ∧ ¬ p.sub ≤ 31 ∧
      (parseinitT envCast heapNest 0 toksOne).result = parseinit envCast heapNest 0 toksOne ∧
      parseinit envCast heapNest 0 toksOne = .error Error.tooManyDesignators := by
  obtain ⟨p, h1, h2, h3⟩ := overflow_logged run_toksOne
  exact ⟨p, h1, h2, h3, by omega, parseinitT_result _ _ _ _, run_toksOne_error⟩

/-- C18: whenever `parseinit` returns successfully for an array target `t`
(in particular one that was incomplete on entry), initialized by a braced list
(any tokens after the opening brace) or by a bare decayed string literal, the
`incomplete` flag of `t` is cleared in the type store it leaves, and every
later call of `updatearray` on `t`, with any index, leaves the type store, and
so the length and the size of `t`, unchanged. -/
theorem length_frozen (env : Env) (h : Heap) (t0 t : TypeId) (toks : List Token) (r : Result)
    (ht : typeunqual h t0 = t) (hk : (h t).kind = TYPEARRAY)
    (hform : (∃ rest, toks = TLBRACE :: rest) ∨
      (∃ ty sty n data rest, toks = EXPR (EXPRUNARY ty true (EXPRSTRING sty n data)) :: rest))
    (hr : parseinit env h t0 toks = .ok r) :
    (r.heap t).incomplete = false ∧
      ∀ i, updatearray r.heap t i = r.heap ∧
        (updatearray r.heap t i t).length = (r.heap t).length ∧
        (updatearray r.heap t i t).size = (r.heap t).size := by
  have hfz : (r.heap t).incomplete = false := by
    rw [parseinit_eq] at hr
    split at hr
    · cases hr
    · rw [ht] at hr
      rcases hform with ⟨rest, rfl⟩ | ⟨ty, sty, n, data, rest, rfl⟩
      · rw [List.length_cons, parseinitLoop_succ, reposition_none _ (by simp)] at hr
        simp only [initial_cur, Option.map_none', reduceCtorEq, if_false] at hr
        exact parseinitLoop_frozen env t _ h (anchored (initial t)) rest [] r
          (by simp [anchored_obj, initial_obj]) (by simp [anchored_obj, initial_obj]) hk
          (by simp) hr
      · rw [List.length_cons, parseinitLoop_succ, reposition_none _ (by simp)] at hr
        simp only [assignexpr] at hr
        by_cases hchar : (h (typeunqual h (h t).base)).propchar = true
        · rw [matchLoop_string_top env ty sty n data (by simpa [initial_obj] using hk)
            (by simpa [initial_obj] using hchar)] at hr
          simp only [] at hr
          rw [closeLoop_none _ (by simp)] at hr
          simp only [Except.ok.injEq] at hr
          rw [← hr]
          simp only [initial_obj, initial_sub, if_true]
          exact (freeze_incomplete_array (by rw [updatearray_kind]; exact hk)).1
        · have hm : matchLoop env 32 h (initial t) (EXPRUNARY ty true (EXPRSTRING sty n data)) =
              .error Error.stringIncompatible := by
            rw [matchLoop]
            unfold matchexpr
            simp only [initial_obj, initial_sub, if_true, hk]
            simp [hchar]
          rw [hm] at hr
          cases hr
  refine ⟨hfz, fun i => ?_⟩
  have hu := updatearray_complete (h := r.heap) (t := t) i hfz
  rw [hu]
  exact ⟨rfl, rfl, rfl⟩

/-- Witness of `length_frozen`: after `char buf[] = "hi";` the type `char []`
(node 5 of `heapEx`) is complete and `updatearray` no longer changes it. -/
theorem length_frozen_witness :
    ((freeze (updatearray heapEx 5 (wrap64 2)) 5) 5).incomplete = false ∧
      ∀ i, updatearray (freeze (updatearray heapEx 5 (wrap64 2)) 5) 5 i =
          freeze (updatearray heapEx 5 (wrap64 2)) 5 ∧
        (updatearray (freeze (updatearray heapEx 5 (wrap64 2)) 5) 5 i 5).length =
          ((freeze (updatearray heapEx 5 (wrap64 2)) 5) 5).length ∧
        (updatearray (freeze (updatearray heapEx 5 (wrap64 2)) 5) 5 i 5).size =
          ((freeze (updatearray heapEx 5 (wrap64 2)) 5) 5).size :=
  length_frozen envCast heapEx 5 5 (EXPR (EXPRUNARY 0 true (EXPRSTRING 5 2 [104, 105])) :: [])
    { init := [mkinit 0 3 (EXPRSTRING 5 2 [104, 105])], toks := []
      heap := freeze (updatearray heapEx 5 (wrap64 2)) 5 }
    rfl rfl (Or.inr ⟨0, 5, 2, [104, 105], [], rfl⟩) rfl

/-- C19 (the code departs from the claim): on
`struct { int a; struct { int z; }; int c; }` the initializer `{1, .z = 5, 7}`
returns TWO bindings, `a = 1` and `[4, 8) = 7`: the value after `.z = 5` goes
to `z` again and replaces the 5, and nothing is bound to `c`.  When
`findmember` finds `z` through the unnamed member, it leaves the selected
member of the anchor as it was (here still `a`, from the first item), so
`advance` continues after `a`, not after the unnamed member.  With no item
before the designator, `{.z = 5, 7}`, `advance` reads a selection that was
never written. -/
theorem anonymous_designator_loses_place :
    (parseinit envCast heapEx 7 toksAnon).map (fun r => r.init) =
        .ok [mkinit 0 4 (Expr.EXPRCAST 0 (intconst 1)),
          mkinit 4 8 (Expr.EXPRCAST 0 (intconst 7))] ∧
      (findmember heapEx
          (setsel (anchored (initial 7))
            (Sel.mem [⟨some "a", 0, 0⟩, ⟨none, 8, 4⟩, ⟨some "c", 0, 8⟩])) "z").toOption.map
        (fun r => (r.1, r.2.sub, (r.2.obj 0).sel)) =
        some (true, 2, Sel.mem [⟨some "a", 0, 0⟩, ⟨none, 8, 4⟩, ⟨some "c", 0, 8⟩]) ∧
      (parseinit envCast heapEx 7 toksAnonFirst).map (fun r => r.init) =
        .error Error.undefined :=
  ⟨run_toksAnon, run_search_keeps_sel, run_toksAnonFirst⟩

/-- C20 (the code departs from the claim): `struct T { struct X x; struct Y y; }`
with `struct X { int x0, x1; }` and `struct Y { struct { int z; }; }` is
complete and well formed, of size 12, and `parseinit` succeeds on
`{1, .y.z = 5, 7}` with the bindings `[0, 4)`, `[8, 12)` and `[12, 16)`: the
last one ends past the object.  The slot of `y` still holds the selected
member of `x`, which occupied the slot before; `findmember` does not select
the unnamed member of `y` it descends through, and `advance` continues with
the member after `x0`, at the offset of `x1` inside `y`. -/
theorem binding_outside_object :
    wellFormed heapAgg 4 10 = true ∧ (heapAgg 10).size = 12 ∧
      (parseinit envCast heapAgg 10 toksStale).map (fun r => r.init) =
        .ok [mkinit 0 4 (Expr.EXPRCAST 0 (intconst 1)),
          mkinit 8 12 (Expr.EXPRCAST 0 (intconst 5)),
          mkinit 12 16 (Expr.EXPRCAST 0 (intconst 7))] ∧
      ¬ (mkinit 12 16 (Expr.EXPRCAST 0 (intconst 7))).stop ≤ (heapAgg 10).size :=
  ⟨wf_T, rfl, run_toksStale, by decide⟩

end MoreClaims
end Cproc
